import Mathlib

/-!
Verification of the instrumentsToPprof core: a shallow embedding of the
three text-format parsers (sample, deep-copy, collapsed) and of the
TimeProfile-to-pprof converter, together with theorems settling the
frozen claims about them.

Modelling conventions:
* Go heap pointers between frames are modelled by an arena: frames live in
  a list, `Parent`/`Children` are indices into it.  Mutation of a frame
  through a pointer becomes an update of the arena entry.
* An input stream is modelled as the list of its lines (the result of the
  reader's split on the newline byte, each line as handed to
  strings.TrimSpace).
* Go panics (nil dereference, index out of range, negative slice bound)
  are modelled as an explicit `crash` outcome, distinct from returned
  `error` values.
* Machine integers: weights are `Int` (no claim exercises int64 wrap);
  strconv range checks are modelled explicitly where the code's behaviour
  depends on them.
* Whitespace sets are the ASCII parts of Go's unicode.IsSpace / regexp
  \s classes; inputs beyond ASCII whitespace are not exercised by any
  claim.
-/

namespace ITP

/-! ## Character classes and basic string utilities -/

/-- ASCII whitespace trimmed by strings.TrimSpace: tab, newline, vertical
tab, form feed, carriage return, space. -/
def isGoSpace (c : Char) : Bool :=
  c.toNat = 9 || c.toNat = 10 || c.toNat = 11 || c.toNat = 12 || c.toNat = 13 || c.toNat = 32

/-- Whitespace class of regexp \s: [\t\n\f\r ]. -/
def isReSpace (c : Char) : Bool :=
  c.toNat = 9 || c.toNat = 10 || c.toNat = 12 || c.toNat = 13 || c.toNat = 32

def isDigitChar (c : Char) : Bool :=
  48 ≤ c.toNat && c.toNat ≤ 57

/-- Lower-case hexadecimal digit, class [0-9a-f]. -/
def isLowerHexChar (c : Char) : Bool :=
  isDigitChar c || (97 ≤ c.toNat && c.toNat ≤ 102)

def digitVal (c : Char) : Nat := c.toNat - 48

def hexVal (c : Char) : Nat :=
  if isDigitChar c then c.toNat - 48 else c.toNat - 87

/-- strings.TrimSpace on the character list of a line. -/
def goTrim (cs : List Char) : List Char :=
  ((cs.dropWhile isGoSpace).reverse.dropWhile isGoSpace).reverse

/-- strings.HasPrefix. -/
def hasPre (p cs : List Char) : Bool :=
  p.isPrefixOf cs

/-- strings.Split: split on a single separator character, never empty. -/
def splitOnChar (sep : Char) (cs : List Char) : List (List Char) :=
  match cs with
  | [] => [[]]
  | c :: rest =>
    let r := splitOnChar sep rest
    if c = sep then [] :: r
    else match r with
      | [] => [[c]]
      | h :: t => (c :: h) :: t

/-! ## Go strconv -/

/-- Value of a digit run. -/
def digitsVal (ds : List Char) : Nat :=
  ds.foldl (fun acc c => acc * 10 + digitVal c) 0

def hexDigitsVal (ds : List Char) : Nat :=
  ds.foldl (fun acc c => acc * 16 + hexVal c) 0

/-- strconv.ParseInt(s, 10, 64) as an Option: optional sign, at least one
digit, nothing else, and the value must fit in int64. -/
def parseInt64 (cs : List Char) : Option Int :=
  let signed : Bool × List Char :=
    match cs with
    | '-' :: rest => (true, rest)
    | '+' :: rest => (false, rest)
    | _ => (false, cs)
  let (neg, ds) := signed
  if ds = [] then none
  else if ds.all isDigitChar then
    let v : Nat := digitsVal ds
    if neg then
      if (v : Int) ≤ 2 ^ 63 then some (-(v : Int)) else none
    else
      if (v : Int) < 2 ^ 63 then some (v : Int) else none
  else none

/-- strconv.ParseUint(digits, 10, 64) with the error discarded, as the
sample parser's parseProcess does: on range overflow Go returns
MaxUint64 together with the (ignored) error. The argument is a digit run
captured by a regexp, so no syntax failure is possible. -/
def parseUint64Lenient (ds : List Char) : Nat :=
  min (digitsVal ds) (2 ^ 64 - 1)

/-- strconv.ParseUint(digits, 10, 64) where the caller replaces any error
by 0, as the deep-copy parser's newProcessFromFrame does. -/
def parseUint64OrZero (ds : List Char) : Nat :=
  if digitsVal ds < 2 ^ 64 then digitsVal ds else 0

/-- strconv.ParseUint(hexdigits, 16, 64) where the caller replaces any
error by 0, as newThreadFromFrame does. -/
def parseHexUint64OrZero (ds : List Char) : Nat :=
  if hexDigitsVal ds < 2 ^ 64 then hexDigitsVal ds else 0

/-! ## The frame arena

A `FrameData` is one Go `internal.Frame` object; the `Parent` pointer and
the `Children` slice hold arena indices. -/

structure FrameData where
  parent : Option Nat
  children : List Nat
  selfWeightNs : Int
  symbolName : List Char
  depth : Int
  deriving Repr, DecidableEq

abbrev Arena := List FrameData

/-- Read a frame; total via Option (a nil / dangling pointer read is a
crash, made explicit at each use site). -/
def aGet (ar : Arena) (i : Nat) : Option FrameData := ar.get? i

/-- Update one frame in place (pointer-mediated mutation). -/
def aSet (ar : Arena) (i : Nat) (f : FrameData) : Arena := ar.set i f

/-- Append a child index to a frame's Children slice. -/
def addChild (ar : Arena) (i : Nat) (c : Nat) : Arena :=
  match ar.get? i with
  | none => ar
  | some f => ar.set i { f with children := f.children ++ [c] }

/-- Multiply a frame's weight (currentFrame.SelfWeightNs *= sampleRate). -/
def scaleWeight (ar : Arena) (i : Nat) (rate : Int) : Arena :=
  match ar.get? i with
  | none => ar
  | some f => ar.set i { f with selfWeightNs := f.selfWeightNs * rate }

/-! ## The tree model (internal/time_profile.go) -/

structure PThread where
  name : List Char
  tid : Nat
  frames : List Nat
  deriving Repr, DecidableEq

structure PProcess where
  name : List Char
  pid : Nat
  threads : List PThread
  deriving Repr, DecidableEq

/-- A TimeProfile together with the heap fragment (arena) its frame
pointers live in. -/
structure TimeProfile where
  processes : List PProcess
  arena : Arena
  deriving Repr, DecidableEq

/-! ## Outcomes: returned errors vs. runtime panics -/

/-- Go panic sites, modelled explicitly. -/
inductive Crash where
  | emptyProcessList
  | nilThread
  | nilLastFrame
  | walkNilParent
  | walkNoFuel
  | badIndex
  | fixNoFuel
  | negSlice
  deriving Repr, DecidableEq

/-- Error values returned by the parsers (the Go message strings carry no
weight for the claims, so errors are identified by their return site). -/
inductive PErr where
  | callLineNoMatch
  | callLineHits
  | noCallGraph
  | rvSplit
  | rvAtoi
  | rvValue
  | processLineInvalid
  | processPidSyntax
  | multipleProcessLines
  | skippedDepth
  | negSelfWeight
  | dcFieldCount
  | dcWeightFields
  | dcWeightFloat
  | dcWeightUnit
  | dcProcessDepth
  | dcThreadDepth
  | dcUnexpectedProcess
  | dcFirstFrameDepth
  | dcSkippedDepth
  deriving Repr, DecidableEq

inductive POut (α : Type) where
  | ok (a : α)
  | err (e : PErr)
  | crash (c : Crash)
  deriving Repr, DecidableEq

/-! ## Sample parser: call-graph line regexp

functionRe = ([+\s!:|]*)(\d+)\s+(.*)$ applied with FindStringSubmatch
(leftmost match; the character classes are disjoint, so the greedy
quantifiers never backtrack: the marker run is the maximal run of marker
characters, the hit count the maximal following digit run, and at least
one whitespace character must separate it from the symbol name). -/

def isMarkChar (c : Char) : Bool :=
  c = '+' || c = '!' || c = ':' || c = '|' || isReSpace c

structure CallMatch where
  markerLen : Nat
  hits : List Char
  name : List Char
  deriving Repr, DecidableEq

/-- Attempt the functionRe match at one start position. -/
def callMatchAt (cs : List Char) : Option CallMatch :=
  let run := cs.takeWhile isMarkChar
  let rest1 := cs.dropWhile isMarkChar
  let ds := rest1.takeWhile isDigitChar
  if ds = [] then none
  else
    let rest2 := rest1.dropWhile isDigitChar
    if rest2.takeWhile isReSpace = [] then none
    else some ⟨run.length, ds, rest2.dropWhile isReSpace⟩

/-- FindStringSubmatch: first start position with a match. -/
def findCallMatch : List Char → Option CallMatch
  | [] => none
  | c :: rest =>
    match callMatchAt (c :: rest) with
    | some m => some m
    | none => findCallMatch rest

/-- parseCallLine of the sample parser: hit count and depth (2 marker
characters per depth level); the hit count is stored in SelfWeightNs and
is cumulative until the fix-up pass. -/
def parseCallLine (cs : List Char) : POut FrameData :=
  match findCallMatch cs with
  | none => .err .callLineNoMatch
  | some m =>
    match parseInt64 m.hits with
    | none => .err .callLineHits
    | some hits => .ok ⟨none, [], hits, m.name, ((m.markerLen / 2 : Nat) : Int)⟩

/-! ## Sample parser: header -/

/-- pidRe = (.*)\s\[(\d+)\] match attempt at one split point: a
whitespace character, an opening bracket, a nonempty digit run, a
closing bracket (the pattern is not anchored, so trailing text is
allowed). -/
def pidCapAt : List Char → Option (List Char)
  | s :: '[' :: rest =>
    if isReSpace s then
      let ds := rest.takeWhile isDigitChar
      if ds ≠ [] ∧ (rest.dropWhile isDigitChar).head? = some ']' then some ds else none
    else none
  | _ => none

/-- Greedy (.*): the last split point that matches wins; pre is the text
already passed over (the capture for the name group). -/
def findPidMatchAux (pre : List Char) : List Char → Option (List Char × List Char)
  | [] => none
  | c :: rest =>
    match findPidMatchAux (pre ++ [c]) rest with
    | some r => some r
    | none =>
      match pidCapAt (c :: rest) with
      | some ds => some (pre, ds)
      | none => none

def findPidMatch (cs : List Char) : Option (List Char × List Char) :=
  findPidMatchAux [] cs

/-- parseProcess: "Process: <name> [<pid>]".  The strconv error on the
pid digits is discarded by the source (the named return err is
overwritten by the final return), so an out-of-range pid becomes
MaxUint64. -/
def parseProcessLine (cs : List Char) : POut (List Char × Nat) :=
  if ¬ hasPre "Process".data cs then .err .processLineInvalid
  else
    let parts := splitOnChar ':' cs
    if parts.length ≠ 2 then .err .processLineInvalid
    else
      match findPidMatch (goTrim ((parts.get? 1).getD [])) with
      | none => .err .processPidSyntax
      | some (name, ds) => .ok (name, parseUint64Lenient ds)

/-- The Report Version header check: split on the colon, Atoi the second
part, require version 7. -/
def reportVersionCheck (cs : List Char) : POut Unit :=
  if hasPre "Report Version".data cs then
    let parts := splitOnChar ':' cs
    if parts.length ≠ 2 then .err .rvSplit
    else
      match parseInt64 (goTrim ((parts.get? 1).getD [])) with
      | none => .err .rvAtoi
      | some v => if v ≠ 7 then .err .rvValue else .ok ()
  else .ok ()

/-- parseSampleRate: the source only warns about unsupported periods and
always returns 1,000,000 ns. -/
def parseSampleRateGo (_cs : List Char) : Int := 1000000

/-- The header loop of ParseSample: consume lines until one starts with
"Call graph"; collect the Process header(s); running out of lines is the
could-not-find-Call-Graph error.  Returns the processes parsed so far,
the sample rate and the remaining lines. -/
def sampleHeader (procs : List (List Char × Nat)) (rate : Int) :
    List (List Char) → POut (List (List Char × Nat) × Int × List (List Char))
  | [] => .err .noCallGraph
  | l :: rest =>
    let t := goTrim l
    let rate1 := if hasPre "Analysis of sampling".data t then parseSampleRateGo t else rate
    match reportVersionCheck t with
    | .err e => .err e
    | .crash c => .crash c
    | .ok _ =>
      if hasPre "Process".data t then
        if procs ≠ [] then .err .multipleProcessLines
        else
          match parseProcessLine t with
          | .err e => .err e
          | .crash c => .crash c
          | .ok pr =>
            if hasPre "Call graph".data t then .ok (procs ++ [pr], rate1, rest)
            else sampleHeader (procs ++ [pr]) rate1 rest
      else if hasPre "Call graph".data t then .ok (procs, rate1, rest)
      else sampleHeader procs rate1 rest

/-! ## Sample parser: body loop -/

/-- State of the call-graph loop: the threads appended to the single
process so far, the current thread (always the last appended), and the
most recently created frame. -/
structure SState where
  ar : Arena
  threads : List PThread
  curThread : Option Nat
  lastFrame : Option Nat
  deriving Repr, DecidableEq

inductive WalkRes where
  | found (i : Nat)
  | nilParent
  | noFuel
  | dangling
  deriving Repr, DecidableEq

/-- The find-parent walk: parent := lastFrame.Parent; loop \x7b if
parent.Depth == depth-1 attach and break; parent = parent.Parent \x7d.
A nil parent would be dereferenced by the loop condition, which is the
nilParent outcome; fuel covers the (structurally unreachable) cyclic
heap. -/
def walkParent (ar : Arena) (target : Int) : Option Nat → Nat → WalkRes
  | none, _ => .nilParent
  | some _, 0 => .noFuel
  | some i, fuel + 1 =>
    match aGet ar i with
    | none => .dangling
    | some f => if f.depth = target then .found i else walkParent ar target f.parent fuel

inductive BodyStep where
  | cont (s : SState)
  | stop (s : SState)
  | fail (e : PErr)
  | die (c : Crash)
  deriving Repr, DecidableEq

/-- Append a root frame index to currentThread.Frames. -/
def appendRoot (ts : List PThread) (ct : Nat) (i : Nat) : List PThread :=
  match ts.get? ct with
  | none => ts
  | some th => ts.set ct { th with frames := th.frames ++ [i] }

/-- Allocate currentFrame with its Parent set, append it to the parent's
Children, apply the sample-rate multiplication, and make it lastFrame. -/
def attachTo (s : SState) (p : Nat) (cf : FrameData) (rate : Int) : BodyStep :=
  let idx := s.ar.length
  let ar1 := s.ar ++ [{ cf with parent := some p }]
  let ar2 := addChild ar1 p idx
  let ar3 := scaleWeight ar2 idx rate
  .cont ⟨ar3, s.threads, s.curThread, some idx⟩

/-- One iteration of the call-graph loop of ParseSample. -/
def sampleBodyStep (rate : Int) (s : SState) (line : List Char) : BodyStep :=
  let t := goTrim line
  if t = [] then .stop s
  else
    match parseCallLine t with
    | .err e => .fail e
    | .crash c => .die c
    | .ok cf =>
      if cf.depth = 0 then
        -- New thread: currentThread is created from the frame's symbol
        -- text; lastFrame is NOT reset, it becomes the (unattached)
        -- depth-0 frame after the common epilogue.
        let idx := s.ar.length
        let ar2 := scaleWeight (s.ar ++ [cf]) idx rate
        .cont ⟨ar2, s.threads ++ [⟨cf.symbolName, 0, []⟩], some s.threads.length, some idx⟩
      else if cf.depth = 1 then
        match s.curThread with
        | none => .die .nilThread
        | some ct =>
          let idx := s.ar.length
          let ar2 := scaleWeight (s.ar ++ [cf]) idx rate
          .cont ⟨ar2, appendRoot s.threads ct idx, s.curThread, some idx⟩
      else
        match s.lastFrame with
        | none => .die .nilLastFrame
        | some lf =>
          match aGet s.ar lf with
          | none => .die .badIndex
          | some lfd =>
            if lfd.depth < cf.depth then
              if cf.depth - lfd.depth ≠ 1 then .fail .skippedDepth
              else attachTo s lf cf rate
            else
              match walkParent s.ar (cf.depth - 1) lfd.parent (s.ar.length + 1) with
              | .found p => attachTo s p cf rate
              | .nilParent => .die .walkNilParent
              | .noFuel => .die .walkNoFuel
              | .dangling => .die .badIndex

/-- Run the call-graph loop; the end of input is the EOF break, a blank
line the explicit break. -/
def sampleBodyRun (rate : Int) : SState → List (List Char) → BodyStep
  | s, [] => .stop s
  | s, l :: rest =>
    match sampleBodyStep rate s l with
    | .cont s' => sampleBodyRun rate s' rest
    | r => r

/-! ## Sample parser: self-weight fix-up -/

inductive FixRes where
  | ok
  | neg
  | noFuel
  | dangling
  deriving Repr, DecidableEq

/-- fixSelfWeight: subtract each child's (still cumulative) weight from
the frame, fail on a negative result, and recurse into the child.  The
error of the recursive call is discarded by the source; the partial
mutations it made are kept.  An inl argument is a call on a frame, an
inr argument the loop over a children suffix; the fuel only stands in
for Go's unbounded call stack (a run out of fuel is unreachable for
parser-produced trees). -/
def fixRun : Nat → Arena → Sum Nat (Nat × List Nat) → Arena × FixRes
  | 0, ar, _ => (ar, .noFuel)
  | fuel + 1, ar, .inl i =>
    match aGet ar i with
    | none => (ar, .dangling)
    | some f => fixRun fuel ar (.inr (i, f.children))
  | _ + 1, ar, .inr (_, []) => (ar, .ok)
  | fuel + 1, ar, .inr (i, c :: rest) =>
    match aGet ar i, aGet ar c with
    | some fi, some fc =>
      let w := fi.selfWeightNs - fc.selfWeightNs
      let ar1 := aSet ar i { fi with selfWeightNs := w }
      if w < 0 then (ar1, .neg)
      else
        let ar2 := (fixRun fuel ar1 (.inl c)).1
        fixRun fuel ar2 (.inr (i, rest))
    | _, _ => (ar, .dangling)

def fixFrame (fuel : Nat) (ar : Arena) (i : Nat) : Arena × FixRes :=
  fixRun fuel ar (.inl i)

/-- The fix-weights epilogue: fixSelfWeight on every root frame of every
thread, aborting on the first error that is actually propagated. -/
def fixRoots (ar : Arena) : List Nat → Arena × FixRes
  | [] => (ar, .ok)
  | r :: rest =>
    match fixFrame ((ar.length + 1) * (ar.length + 1)) ar r with
    | (ar1, .ok) => fixRoots ar1 rest
    | other => other

def fixThreads (ar : Arena) : List PThread → Arena × FixRes
  | [] => (ar, .ok)
  | th :: rest =>
    match fixRoots ar th.frames with
    | (ar1, .ok) => fixThreads ar1 rest
    | other => other

/-- ParseSample over the lines of the input. -/
def sampleParseLines (lines : List (List Char)) : POut TimeProfile :=
  match sampleHeader [] 1000000 lines with
  | .err e => .err e
  | .crash c => .crash c
  | .ok (procs, rate, rest) =>
    match procs with
    | [] => .crash .emptyProcessList
    | (pname, ppid) :: _ =>
      match sampleBodyRun rate ⟨[], [], none, none⟩ rest with
      | .fail e => .err e
      | .die c => .crash c
      | .cont s | .stop s =>
        match fixThreads s.ar s.threads with
        | (ar1, .ok) => .ok ⟨[⟨pname, ppid, s.threads⟩], ar1⟩
        | (_, .neg) => .err .negSelfWeight
        | (_, .noFuel) => .crash .fixNoFuel
        | (_, .dangling) => .crash .badIndex

/-! ## Deep-copy parser (internal/parsers/instruments/deep_copy_parser.go) -/

/-- The decimal part of strconv.ParseFloat, evaluated exactly over ℚ:
optional sign, digits with an optional fraction, optional decimal
exponent.  (Binary rounding of float64, hexadecimal floats and the
inf/nan spellings are not modelled; no claim exercises them.) -/
def parseFloatQ (cs : List Char) : Option ℚ :=
  let signed : Bool × List Char :=
    match cs with
    | '-' :: rest => (true, rest)
    | '+' :: rest => (false, rest)
    | _ => (false, cs)
  let (neg, body) := signed
  let ip := body.takeWhile isDigitChar
  let afterIp := body.dropWhile isDigitChar
  let fracPart : Option (List Char × List Char) :=
    match afterIp with
    | '.' :: rest => some (rest.takeWhile isDigitChar, rest.dropWhile isDigitChar)
    | _ => some ([], afterIp)
  match fracPart with
  | none => none
  | some (fp, afterFp) =>
    if ip = [] ∧ fp = [] then none
    else
      let mantissa : ℚ := (digitsVal ip : ℚ) + (digitsVal fp : ℚ) / ((10 : ℚ) ^ fp.length)
      let expPart : Option ℚ :=
        match afterFp with
        | [] => some 1
        | e :: rest =>
          if e = 'e' ∨ e = 'E' then
            let esigned : Bool × List Char :=
              match rest with
              | '-' :: r => (true, r)
              | '+' :: r => (false, r)
              | _ => (false, rest)
            let (eneg, eds) := esigned
            if eds ≠ [] ∧ eds.all isDigitChar ∧ (eds.dropWhile isDigitChar) = [] then
              some (if eneg then ((10 : ℚ) ^ digitsVal eds)⁻¹ else (10 : ℚ) ^ digitsVal eds)
            else none
          else none
      match expPart with
      | none => none
      | some ex => some ((if neg then -mantissa else mantissa) * ex)

/-- Go int64(float) conversion: truncation toward zero. -/
def truncQ (q : ℚ) : Int := q.num / (q.den : Int)

/-- parseSelfWeight: "<float> <unit>" with unit s, ms, µs or ns,
converted to integer nanoseconds. -/
def parseSelfWeight (cs : List Char) : POut Int :=
  let fields := splitOnChar ' ' cs
  if fields.length ≠ 2 then .err .dcWeightFields
  else
    match parseFloatQ ((fields.get? 0).getD []) with
    | none => .err .dcWeightFloat
    | some v =>
      let unit := (fields.get? 1).getD []
      if unit = "s".data then .ok (truncQ (v * 1000000000))
      else if unit = "ms".data then .ok (truncQ (v * 1000000))
      else if unit = "µs".data then .ok (truncQ (v * 1000))
      else if unit = "ns".data then .ok (truncQ (v * 1))
      else .err .dcWeightUnit

/-- parseLine of the deep-copy parser: 3 or 4 tab-separated fields, self
weight from field 1, depth from the leading spaces of the last field
(minus one in the 3-field layout, which can make the depth negative). -/
def dcParseLine (cs : List Char) : POut FrameData :=
  let fields := splitOnChar '\t' cs
  if fields.length ≠ 3 ∧ fields.length ≠ 4 then .err .dcFieldCount
  else
    match parseSelfWeight ((fields.get? 1).getD []) with
    | .err e => .err e
    | .crash c => .crash c
    | .ok w =>
      let lastF := (fields.getLast?).getD []
      let name := lastF.dropWhile (· = ' ')
      let depth0 : Int := (lastF.length : Int) - (name.length : Int)
      let depth := if fields.length = 3 then depth0 - 1 else depth0
      .ok ⟨none, [], w, name, depth⟩

/-- threadRe = (.*)\s\s0x([0-9a-f]+)$ at one split point: two whitespace
characters, the literal 0x, then a nonempty lower-hex run reaching the
end of the string. -/
def tidCapAt : List Char → Option (List Char)
  | s1 :: s2 :: '0' :: 'x' :: rest =>
    if isReSpace s1 ∧ isReSpace s2 ∧ rest ≠ [] ∧ rest.all isLowerHexChar then some rest
    else none
  | _ => none

def findTidMatchAux (pre : List Char) : List Char → Option (List Char × List Char)
  | [] => none
  | c :: rest =>
    match findTidMatchAux (pre ++ [c]) rest with
    | some r => some r
    | none =>
      match tidCapAt (c :: rest) with
      | some hex => some (pre, hex)
      | none => none

def findTidMatch (cs : List Char) : Option (List Char × List Char) :=
  findTidMatchAux [] cs

/-- processRe = (.*)\s\((\d+)\)$ at one split point. -/
def pidParenCapAt : List Char → Option (List Char)
  | s :: '(' :: rest =>
    if isReSpace s then
      let ds := rest.takeWhile isDigitChar
      if ds ≠ [] ∧ (rest.dropWhile isDigitChar) = [')'] then some ds else none
    else none
  | _ => none

def findPidParenAux (pre : List Char) : List Char → Option (List Char × List Char)
  | [] => none
  | c :: rest =>
    match findPidParenAux (pre ++ [c]) rest with
    | some r => some r
    | none =>
      match pidParenCapAt (c :: rest) with
      | some ds => some (pre, ds)
      | none => none

def findPidParen (cs : List Char) : Option (List Char × List Char) :=
  findPidParenAux [] cs

/-- newThreadFromFrame: requires depth 1; label "<name>  0x<tid>" with a
warning fallback to the whole label and tid 0. -/
def newThreadFromFrame (f : FrameData) : POut PThread :=
  if f.depth ≠ 1 then .err .dcThreadDepth
  else
    match findTidMatch f.symbolName with
    | none => .ok ⟨f.symbolName, 0, []⟩
    | some (name, hex) => .ok ⟨name, parseHexUint64OrZero hex, []⟩

/-- newProcessFromFrame: requires depth 0; label "<name> (<pid>)" with a
warning fallback to the whole label and pid 0. -/
def newProcessFromFrame (f : FrameData) : POut PProcess :=
  if f.depth ≠ 0 then .err .dcProcessDepth
  else
    match findPidParen f.symbolName with
    | none => .ok ⟨f.symbolName, 0, []⟩
    | some (name, ds) => .ok ⟨name, parseUint64OrZero ds, []⟩

/-- State of the deep-copy loop: current process and current thread are
the most recently appended ones. -/
structure DState where
  ar : Arena
  procs : List PProcess
  curProc : Option Nat
  curThread : Option Nat
  lastFrame : Option Nat
  deriving Repr, DecidableEq

inductive DStepR where
  | cont (s : DState)
  | fail (e : PErr)
  | die (c : Crash)
  deriving Repr, DecidableEq

def appendThreadD (ps : List PProcess) (pi : Nat) (th : PThread) : List PProcess :=
  match ps.get? pi with
  | none => ps
  | some p => ps.set pi { p with threads := p.threads ++ [th] }

def appendRootD (ps : List PProcess) (pi ti i : Nat) : List PProcess :=
  match ps.get? pi with
  | none => ps
  | some p => ps.set pi { p with threads := appendRoot p.threads ti i }

/-- Attach in the deep-copy loop (shared shape with the sample parser but
on DState; deep-copy applies no rate multiplication). -/
def dcAttachTo (s : DState) (p : Nat) (cf : FrameData) : DStepR :=
  let idx := s.ar.length
  let ar1 := s.ar ++ [{ cf with parent := some p }]
  let ar2 := addChild ar1 p idx
  .cont ⟨ar2, s.procs, s.curProc, s.curThread, some idx⟩

def dcHeaderA : List Char := "Weight\tSelf Weight\t\tSymbol Name".data

def dcHeaderB : List Char := "Weight\tSelf Weight\tSymbol Names".data

/-- One iteration of the deep-copy ParseProfile loop. -/
def dcStep (s : DState) (line : List Char) : DStepR :=
  let t := goTrim line
  if t = [] then .cont ⟨s.ar, s.procs, none, none, none⟩
  else
    match s.curProc with
    | none =>
      if t = dcHeaderA ∨ t = dcHeaderB then .cont s
      else
        match dcParseLine t with
        | .err e => .fail e
        | .crash c => .die c
        | .ok f =>
          match newProcessFromFrame f with
          | .err e => .fail e
          | .crash c => .die c
          | .ok p =>
            .cont ⟨s.ar, s.procs ++ [p], some s.procs.length, s.curThread, s.lastFrame⟩
    | some pi =>
      match s.curThread with
      | none =>
        match dcParseLine t with
        | .err e => .fail e
        | .crash c => .die c
        | .ok f =>
          match newThreadFromFrame f with
          | .err e => .fail e
          | .crash c => .die c
          | .ok th =>
            let ti := (((s.procs.get? pi).getD ⟨[], 0, []⟩).threads).length
            .cont ⟨s.ar, appendThreadD s.procs pi th, s.curProc, some ti, s.lastFrame⟩
      | some ti =>
        match dcParseLine t with
        | .err e => .fail e
        | .crash c => .die c
        | .ok cf =>
          if cf.depth = 0 then .fail .dcUnexpectedProcess
          else if cf.depth = 1 then
            match newThreadFromFrame cf with
            | .err e => .fail e
            | .crash c => .die c
            | .ok th =>
              let ti' := (((s.procs.get? pi).getD ⟨[], 0, []⟩).threads).length
              .cont ⟨s.ar, appendThreadD s.procs pi th, s.curProc, some ti', none⟩
          else
            match s.lastFrame with
            | none =>
              if cf.depth ≠ 2 then .fail .dcFirstFrameDepth
              else
                let idx := s.ar.length
                .cont ⟨s.ar ++ [cf], appendRootD s.procs pi ti idx, s.curProc, s.curThread,
                  some idx⟩
            | some lf =>
              if cf.depth = 2 then
                let idx := s.ar.length
                .cont ⟨s.ar ++ [cf], appendRootD s.procs pi ti idx, s.curProc, s.curThread,
                  some idx⟩
              else
                match aGet s.ar lf with
                | none => .die .badIndex
                | some lfd =>
                  if lfd.depth < cf.depth then
                    if cf.depth - lfd.depth ≠ 1 then .fail .dcSkippedDepth
                    else dcAttachTo s lf cf
                  else
                    match walkParent s.ar (cf.depth - 1) lfd.parent (s.ar.length + 1) with
                    | .found p => dcAttachTo s p cf
                    | .nilParent => .die .walkNilParent
                    | .noFuel => .die .walkNoFuel
                    | .dangling => .die .badIndex

def dcRun : DState → List (List Char) → DStepR
  | s, [] => .cont s
  | s, l :: rest =>
    match dcStep s l with
    | .cont s' => dcRun s' rest
    | r => r

/-- ParseProfile of the deep-copy parser over the lines of the input. -/
def deepCopyParseLines (lines : List (List Char)) : POut TimeProfile :=
  match dcRun ⟨[], [], none, none, none⟩ lines with
  | .fail e => .err e
  | .die c => .crash c
  | .cont s => .ok ⟨s.procs, s.ar⟩

/-! ## Collapsed parser (internal/parsers/collapsed/collapsed_parser.go)

The collapsed parser builds each line's stack as an isolated value tree
(no cross-line pointer mutation), so it is embedded with plain inductive
trees. -/

inductive CFrame where
  | node (symbolName : List Char) (selfWeightNs : Int) (depth : Int) (children : List CFrame)
  deriving Repr

/-- The root-to-leaf chain built by parseCallLine's loop: every frame has
weight 0 except the leaf, whose weight is the parsed count. -/
def cChain (idx : Int) (name : List Char) (rest : List (List Char)) (v : Int) : CFrame :=
  match rest with
  | [] => .node name v idx []
  | n :: r => .node name 0 idx [cChain (idx + 1) n r v]

/-- strings.LastIndex(line, " "). -/
def lastSpaceIdx (cs : List Char) : Option Nat :=
  (List.range cs.length).reverse.find? (fun i => cs.get? i = some ' ')

inductive CLine where
  | skip
  | frame (f : CFrame)
  | die
  deriving Repr

/-- parseCallLine of the collapsed parser.  When the text after the last
space fails to parse as an integer the function returns (nil, nil): the
caller appends the nil frame.  When the line has no space at all and the
whole line parses as an integer, line[0:sep] with sep = -1 panics. -/
def cParseCallLine (cs : List Char) : CLine :=
  match lastSpaceIdx cs with
  | none =>
    match parseInt64 cs with
    | some _ => .die
    | none => .skip
  | some k =>
    match parseInt64 (cs.drop (k + 1)) with
    | none => .skip
    | some v =>
      match splitOnChar ';' (cs.take k) with
      | [] => .skip
      | f0 :: rest => .frame (cChain 0 f0 rest v)

/-- The line loop of the collapsed ParseProfile, accumulating the
placeholder thread's Frames slice; a skipped line appends the nil frame
parseCallLine returned together with its nil error. -/
def cParseGo (acc : List (Option CFrame)) : List (List Char) → POut (List (Option CFrame))
  | [] => .ok acc
  | l :: rest =>
    match cParseCallLine l with
    | .skip => cParseGo (acc ++ [none]) rest
    | .frame f => cParseGo (acc ++ [some f]) rest
    | .die => .crash .negSlice

/-- ParseProfile of the collapsed parser: a single placeholder process
(pid 0, empty name) and thread (empty name); each line appends the frame
parseCallLine returned for it -- which is nil for a skipped line. -/
def cParseProfile (lines : List (List Char)) : POut (List (Option CFrame)) :=
  cParseGo [] lines

/-! ## Converter (internal/deep_copy_to_profile.go)

The converter object holds the input profile and the deduplication maps;
every Go method becomes a function threading the whole converter state,
so pointer-mediated mutation of the input would be visible as a change of
the deepCopy field.  Go's maps are modelled as association lists in
insertion order (Go's randomized iteration order over them is observable
only in the order of the output Location/Function slices and of the
advisory text, which no claim depends on). -/

structure PFunction where
  id : Nat
  name : List Char
  systemName : List Char
  deriving Repr, DecidableEq

structure PLocation where
  id : Nat
  line : List PFunction
  deriving Repr, DecidableEq

structure PSample where
  location : List PLocation
  value : List Int
  label : List (List Char × List (List Char))
  deriving Repr, DecidableEq

/-- The location deduplication key (struct `location`). -/
structure LocKey where
  pid : Nat
  tid : Nat
  methodName : List Char
  deriving Repr, DecidableEq

def alookup {α β : Type} [DecidableEq α] (k : α) : List (α × β) → Option β
  | [] => none
  | (a, b) :: r => if a = k then some b else alookup k r

/-- Go map assignment m[k] = v (replaces an existing entry). -/
def aput {α β : Type} [DecidableEq α] (k : α) (v : β) : List (α × β) → List (α × β)
  | [] => [(k, v)]
  | (a, b) :: r => if a = k then (k, v) :: r else (a, b) :: aput k v r

/-- struct deepCopyToPprofConverter. -/
structure CState where
  deepCopy : TimeProfile
  excludeProcessesFromStack : Bool
  excludeThreadsFromStack : Bool
  includeThreadAndProcessIds : Bool
  annMap : List (Nat × List Char)
  consumedAnn : List (Nat × List Char)
  functions : List (List Char × PFunction)
  nextFunctionID : Nat
  locations : List (LocKey × PLocation)
  nextLocationID : Nat
  samples : List PSample
  deriving Repr, DecidableEq

def newPprofConverter (tp : TimeProfile) (exP exT incIds : Bool)
    (ann : List (Nat × List Char)) : CState :=
  ⟨tp, exP, exT, incIds, ann, [], [], 1, [], 1, []⟩

def getFunction (st : CState) (name : List Char) : PFunction × CState :=
  match alookup name st.functions with
  | some f => (f, st)
  | none =>
    let f : PFunction := ⟨st.nextFunctionID, name, name⟩
    (f, { st with
      functions := st.functions ++ [(name, f)]
      nextFunctionID := st.nextFunctionID + 1 })

/-- Shared allocation path of the three location getters. -/
def getLocAt (st : CState) (key : LocKey) (fnName : List Char) : PLocation × CState :=
  match alookup key st.locations with
  | some loc => (loc, st)
  | none =>
    let fr := getFunction st fnName
    let loc : PLocation := ⟨fr.2.nextLocationID, [fr.1]⟩
    (loc, { fr.2 with
      locations := fr.2.locations ++ [(key, loc)]
      nextLocationID := fr.2.nextLocationID + 1 })

/-- getLocation: key and function name are the frame's symbol name,
combined with the owning process/thread numeric ids. -/
def getLocation (st : CState) (symbolName : List Char) (proc : PProcess) (th : PThread) :
    PLocation × CState :=
  getLocAt st ⟨proc.pid, th.tid, symbolName⟩ symbolName

/-- %x of a uint64. -/
def hexChars (n : Nat) : List Char := Nat.toDigits 16 n

/-- %d of a uint64. -/
def decChars (n : Nat) : List Char := Nat.toDigits 10 n

/-- getThreadLocation: "<name> [tid: 0x<hex>]" when ids are included. -/
def getThreadLocation (st : CState) (proc : PProcess) (th : PThread) : PLocation × CState :=
  let name :=
    if st.includeThreadAndProcessIds then
      th.name ++ " [tid: 0x".data ++ hexChars th.tid ++ "]".data
    else th.name
  getLocAt st ⟨proc.pid, th.tid, name⟩ name

/-- toPprof.consumedAnnotations[pid] = annotation. -/
def consumeAnn (st : CState) (pid : Nat) (ann : List Char) : CState :=
  { st with consumedAnn := aput pid ann st.consumedAnn }

/-- getProcessLocation: "<name> [pid: <dec>]" when ids are included, plus
" [<annotation>]" when the (nonzero) pid has an annotation; note the
dedup key uses the raw proc.Name and tid 0. -/
def getProcessLocation (st : CState) (proc : PProcess) : PLocation × CState :=
  let name0 :=
    if st.includeThreadAndProcessIds then
      proc.name ++ " [pid: ".data ++ decChars proc.pid ++ "]".data
    else proc.name
  let annotated : List Char × CState :=
    if proc.pid ≠ 0 then
      match alookup proc.pid st.annMap with
      | some ann =>
        (name0 ++ " [".data ++ ann ++ "]".data, consumeAnn st proc.pid ann)
      | none => (name0, st)
    else (name0, st)
  getLocAt annotated.2 ⟨proc.pid, 0, proc.name⟩ annotated.1

/-- The stack-trace walk of convertSample: from the sampled frame up the
Parent chain, collecting getLocation results.  Fuel covers a cyclic
parent chain, a dangling index an invalid pointer; neither occurs for
parser-produced profiles. -/
def stackWalk (st : CState) (proc : PProcess) (th : PThread) :
    Option Nat → Nat → List PLocation × CState
  | none, _ => ([], st)
  | some _, 0 => ([], st)
  | some i, fuel + 1 =>
    match st.deepCopy.arena.get? i with
    | none => ([], st)
    | some f =>
      let lc := getLocation st f.symbolName proc th
      let rc := stackWalk lc.2 proc th f.parent fuel
      (lc.1 :: rc.1, rc.2)

/-- The thread-pseudo-frame append of convertSample. -/
def threadStep (st : CState) (stack : List PLocation) (proc : PProcess) (th : PThread) :
    List PLocation × CState :=
  if ¬ st.excludeThreadsFromStack then
    ((stack ++ [(getThreadLocation st proc th).1]), (getThreadLocation st proc th).2)
  else (stack, st)

/-- The process-pseudo-frame append of convertSample. -/
def procStep (st : CState) (stack : List PLocation) (proc : PProcess) :
    List PLocation × CState :=
  if ¬ st.excludeProcessesFromStack then
    ((stack ++ [(getProcessLocation st proc).1]), (getProcessLocation st proc).2)
  else (stack, st)

/-- convertSample on the frame at arena index i. -/
def convertSample (st : CState) (i : Nat) (th : PThread) (proc : PProcess) :
    PSample × CState :=
  let wr := stackWalk st proc th (some i) (st.deepCopy.arena.length + 1)
  let tr := threadStep wr.2 wr.1 proc th
  let pr := procStep tr.2 tr.1 proc
  let w := ((st.deepCopy.arena.get? i).map FrameData.selfWeightNs).getD 0
  (⟨pr.1, [w],
    [("pid".data, [decChars proc.pid]),
     ("tid".data, [decChars th.tid]),
     ("process_name".data, [proc.name]),
     ("thread_name".data, [th.name])]⟩, pr.2)

def addSample (st : CState) (i : Nat) (th : PThread) (proc : PProcess) : CState :=
  let sr := convertSample st i th proc
  { sr.2 with samples := sr.2.samples ++ [sr.1] }

/-- findSamplesInFrame: a frame with nonzero self weight emits one
sample; then recurse into the children (inl: one frame, inr: a suffix
of a children list; the fuel stands in for Go's unbounded call stack). -/
def findSamplesRun : Nat → CState → Sum Nat (List Nat) → PThread → PProcess → CState
  | 0, st, _, _, _ => st
  | fuel + 1, st, .inl i, th, proc =>
    match st.deepCopy.arena.get? i with
    | none => st
    | some f =>
      let st1 := if f.selfWeightNs ≠ 0 then addSample st i th proc else st
      findSamplesRun fuel st1 (.inr f.children) th proc
  | _ + 1, st, .inr [], _, _ => st
  | fuel + 1, st, .inr (c :: rest), th, proc =>
    findSamplesRun fuel (findSamplesRun fuel st (.inl c) th proc) (.inr rest) th proc

/-- findSamples over one thread's root frames. -/
def findSamples (st : CState) (proc : PProcess) (th : PThread) : CState :=
  findSamplesRun
    ((st.deepCopy.arena.length + 1) * (st.deepCopy.arena.length + 1))
    st (.inr th.frames) th proc

def findSamplesThreads (st : CState) (proc : PProcess) : List PThread → CState
  | [] => st
  | th :: rest => findSamplesThreads (findSamples st proc th) proc rest

def findSamplesProcs (st : CState) : List PProcess → CState
  | [] => st
  | p :: rest => findSamplesProcs (findSamplesThreads st p p.threads) rest

structure PProfile where
  sampleTypeType : List Char
  sampleTypeUnit : List Char
  sample : List PSample
  location : List PLocation
  function : List PFunction
  deriving Repr, DecidableEq

/-- convertToPprof: walk every process/thread, then assemble the output
profile; the unconsumed annotation entries are reported by a non-fatal
warning, returned here as the advisory list. -/
def convertToPprof (st : CState) : PProfile × List (Nat × List Char) × CState :=
  let st1 := findSamplesProcs st st.deepCopy.processes
  let advisory :=
    if st1.consumedAnn.length < st1.annMap.length then
      st1.annMap.filter (fun pr => alookup pr.1 st1.consumedAnn = none)
    else []
  (⟨"cpu".data, "nanoseconds".data, st1.samples,
    st1.locations.map Prod.snd, st1.functions.map Prod.snd⟩, advisory, st1)

/-- TimeProfileToPprof; the Bool is the annotations-with-excluded-
processes advisory. -/
def timeProfileToPprof (tp : TimeProfile) (exP exT incIds : Bool)
    (ann : List (Nat × List Char)) :
    PProfile × List (Nat × List Char) × Bool × CState :=
  let st := newPprofConverter tp exP exT incIds ann
  let flagWarn := exP ∧ ann ≠ []
  let r := convertToPprof st
  (r.1, r.2.1, flagWarn, r.2.2)

/-! ## Specification helpers -/

/-- Sum of the self weights of a frame and all of its descendants. -/
def subtreeSumRun : Nat → Arena → Sum Nat (List Nat) → Int
  | 0, _, _ => 0
  | fuel + 1, ar, .inl i =>
    match ar.get? i with
    | none => 0
    | some f => f.selfWeightNs + subtreeSumRun fuel ar (.inr f.children)
  | _ + 1, _, .inr [] => 0
  | fuel + 1, ar, .inr (c :: rest) =>
    subtreeSumRun fuel ar (.inl c) + subtreeSumRun fuel ar (.inr rest)

def subtreeSelfSum (fuel : Nat) (ar : Arena) (i : Nat) : Int :=
  subtreeSumRun fuel ar (.inl i)

/-- The self weights of a frame subtree in the traversal order of
findSamplesInFrame, with the same recursion shape (inl: one frame, inr:
a children suffix) and the same fuel convention. -/
def preorderW : Nat → Arena → Sum Nat (List Nat) → List Int
  | 0, _, _ => []
  | fuel + 1, ar, .inl i =>
    match ar.get? i with
    | none => []
    | some f => f.selfWeightNs :: preorderW fuel ar (.inr f.children)
  | _ + 1, _, .inr [] => []
  | fuel + 1, ar, .inr (c :: rest) =>
    preorderW fuel ar (.inl c) ++ preorderW fuel ar (.inr rest)

/-- All self weights of a profile in conversion order. -/
def profileWeights (tp : TimeProfile) : List Int :=
  ((tp.processes.map (fun p =>
    (p.threads.map (fun th =>
      preorderW ((tp.arena.length + 1) * (tp.arena.length + 1)) tp.arena
        (.inr th.frames))).flatten)).flatten)

/-! ## Specification predicates for the depth-tree reconstructors -/

/-- A wellformed parent chain: depths descend in steps of exactly one
from the frame down to a depth-1 root whose parent is nil; parents are
allocated before their children. -/
inductive ChainD (ar : Arena) : Nat → Int → Prop where
  | root : ∀ i f, aGet ar i = some f → f.depth = 1 → f.parent = none → ChainD ar i 1
  | step : ∀ i j f, aGet ar i = some f → f.parent = some j → j < i →
      ChainD ar j (f.depth - 1) → 2 ≤ f.depth → ChainD ar i f.depth

/-- lastFrame is either the unattached depth-0 thread pseudo-frame or
the head of a wellformed chain. -/
def LastOK (ar : Arena) (l : Nat) : Prop :=
  (∃ f, aGet ar l = some f ∧ f.depth = 0) ∨ (∃ d, ChainD ar l d)

/-- k is reachable from i by following parent references (reflexive). -/
inductive AncOf (ar : Arena) : Nat → Nat → Prop where
  | refl : ∀ i, AncOf ar i i
  | step : ∀ i f j k, aGet ar i = some f → f.parent = some j → AncOf ar j k → AncOf ar i k

/-- j is in the subtree of r along Children references (reflexive). -/
inductive InTree (ar : Arena) (r : Nat) : Nat → Prop where
  | refl : InTree ar r r
  | child : ∀ i f j, InTree ar r i → aGet ar i = some f → j ∈ f.children → InTree ar r j

/-- Arenas agreeing on the depth and parent links of existing frames
(the fields that chains read). -/
def SameLinks (ar ar' : Arena) : Prop :=
  ∀ i f, aGet ar i = some f →
    ∃ f', aGet ar' i = some f' ∧ f'.depth = f.depth ∧ f'.parent = f.parent

def ChildrenValid (ar : Arena) : Prop :=
  ∀ i f, aGet ar i = some f → ∀ c ∈ f.children, c < ar.length

def BacklinkOK (ar : Arena) : Prop :=
  ∀ i f j, aGet ar i = some f → f.parent = some j →
    ∃ g, aGet ar j = some g ∧ i ∈ g.children

def RootsValid (s : SState) : Prop :=
  ∀ t th, s.threads.get? t = some th → ∀ r ∈ th.frames, r < s.ar.length

/-- lastFrame never lies in the subtree of a thread other than the
current one. -/
def NotInOld (s : SState) : Prop :=
  ∀ l, s.lastFrame = some l → ∀ t th, s.threads.get? t = some th →
    s.curThread ≠ some t → ∀ r ∈ th.frames, ¬ InTree s.ar r l

def SInv (s : SState) : Prop :=
  RootsValid s ∧ ChildrenValid s.ar ∧ BacklinkOK s.ar ∧ NotInOld s ∧
    (∀ l, s.lastFrame = some l → LastOK s.ar l)

/-- The lastFrame invariant of the sample-parser loop. -/
def LastInv (s : SState) : Prop :=
  ∀ lf, s.lastFrame = some lf → LastOK s.ar lf

def sInit : SState := ⟨[], [], none, none⟩

/-- The states of the call-graph loop reachable by uninterrupted cont
steps. -/
def runSteps (rate : Int) : SState → List (List Char) → Option SState
  | s, [] => some s
  | s, l :: rest =>
    match sampleBodyStep rate s l with
    | .cont s' => runSteps rate s' rest
    | _ => none

def dInit : DState := ⟨[], [], none, none, none⟩

def runStepsD : DState → List (List Char) → Option DState
  | s, [] => some s
  | s, l :: rest =>
    match dcStep s l with
    | .cont s' => runStepsD s' rest
    | _ => none

/-- Thread roots of the deep-copy state, across all processes. -/
def RootsValidD (s : DState) : Prop :=
  ∀ pi p, s.procs.get? pi = some p → ∀ ti th, p.threads.get? ti = some th →
    ∀ r ∈ th.frames, r < s.ar.length

/-- lastFrame never lies in the subtree of a thread other than the
current (process, thread) pair. -/
def NotInOldD (s : DState) : Prop :=
  ∀ l, s.lastFrame = some l → ∀ pi p, s.procs.get? pi = some p →
    ∀ ti th, p.threads.get? ti = some th →
    ¬ (s.curProc = some pi ∧ s.curThread = some ti) →
    ∀ r ∈ th.frames, ¬ InTree s.ar r l

/-- Deep-copy chains end at a depth-2 root with nil parent. -/
inductive ChainD2 (ar : Arena) : Nat → Int → Prop where
  | root : ∀ i f, aGet ar i = some f → f.depth = 2 → f.parent = none → ChainD2 ar i 2
  | step : ∀ i j f, aGet ar i = some f → f.parent = some j → j < i →
      ChainD2 ar j (f.depth - 1) → 3 ≤ f.depth → ChainD2 ar i f.depth

def DInv (s : DState) : Prop :=
  RootsValidD s ∧ ChildrenValid s.ar ∧ BacklinkOK s.ar ∧ NotInOldD s ∧
    (∀ l, s.lastFrame = some l → ∃ d, ChainD2 s.ar l d) ∧
    (s.curProc = none → s.curThread = none ∧ s.lastFrame = none) ∧
    (s.curThread = none → s.lastFrame = none)

/-- The tree-shape invariant of the sample-parser loop (the part of the
state wellformedness that cross-thread isolation rests on). -/
def TInv (s : SState) : Prop :=
  RootsValid s ∧ ChildrenValid s.ar ∧ BacklinkOK s.ar ∧ NotInOld s

/-- The tree-shape invariant of the deep-copy loop. -/
def DTInv (s : DState) : Prop :=
  RootsValidD s ∧ ChildrenValid s.ar ∧ BacklinkOK s.ar ∧ NotInOldD s ∧
    (s.curProc = none → s.curThread = none ∧ s.lastFrame = none) ∧
    (s.curThread = none → s.lastFrame = none)

/-! ## Concrete runs exercising the cross-thread isolation statements -/

def w4lines : List (List Char) := ["1 T1".data, "+ 2 a".data, "1 T2".data]

def w4line : List Char := "+ 3 x".data

def w4state : SState := (runSteps 1000000 sInit w4lines).getD sInit

def w4stateB : SState :=
  match sampleBodyStep 1000000 w4state w4line with
  | .cont s => s
  | _ => sInit

def w4s1 : SState :=
  match sampleBodyStep 1000000 sInit "1 T1".data with
  | .cont s => s
  | _ => sInit

def w4d0 : DState := ⟨[], [], some 0, some 0, none⟩

def w4dline3 : List Char := "a\t1.00 ms\tb\t t9".data

def w4d1 : DState :=
  match dcStep w4d0 w4dline3 with
  | .cont s => s
  | _ => dInit

def w4dlines : List (List Char) :=
  ["a\t1.00 ms\tb\tproc".data, "a\t1.00 ms\tb\t t1".data, "a\t1.00 ms\tb\t  f".data,
   "a\t1.00 ms\tb\t t2".data]

def w4dline : List Char := "a\t1.00 ms\tb\t  g".data

def w4dstate : DState := (runStepsD dInit w4dlines).getD dInit

def w4dstateB : DState :=
  match dcStep w4dstate w4dline with
  | .cont s => s
  | _ => dInit

def w4cf3 : FrameData :=
  match dcParseLine (goTrim w4dline3) with
  | .ok f => f
  | _ => ⟨none, [], 0, [], 0⟩

def w4dp : PProcess := (w4dstate.procs.get? 0).getD ⟨[], 0, []⟩

def w4dth : PThread := (w4dp.threads.get? 0).getD ⟨[], 0, []⟩

/-! ## Claim-specific helper definitions -/

/-- The frame the collapsed parseCallLine produces, if any. -/
def cFrameOf (cs : List Char) : Option CFrame :=
  match cParseCallLine cs with
  | .frame f => some f
  | _ => none

/-- "the text after the last space does not parse as an integer". -/
def cLineSkipped (cs : List Char) : Bool :=
  match lastSpaceIdx cs with
  | none => (parseInt64 cs).isNone
  | some k => (parseInt64 (cs.drop (k + 1))).isNone

/-- A line without any space whose whole text parses as an integer makes
the collapsed parser take the negative slice line[0:-1]. -/
def cLineCrashes (cs : List Char) : Bool :=
  match lastSpaceIdx cs with
  | none => (parseInt64 cs).isSome
  | some _ => false

/-- A header line that triggers none of ParseSample's error or break
paths: not a Process line, not a Call graph line, and an acceptable
Report Version line if any. -/
def headerBenign (cs : List Char) : Prop :=
  hasPre "Process".data (goTrim cs) = false ∧
  hasPre "Call graph".data (goTrim cs) = false ∧
  reportVersionCheck (goTrim cs) = .ok ()

/-- The converter-state fields every location/function getter leaves
unchanged. -/
def PreservesCore (st st' : CState) : Prop :=
  st'.deepCopy = st.deepCopy ∧
  st'.excludeProcessesFromStack = st.excludeProcessesFromStack ∧
  st'.excludeThreadsFromStack = st.excludeThreadsFromStack ∧
  st'.includeThreadAndProcessIds = st.includeThreadAndProcessIds ∧
  st'.annMap = st.annMap ∧
  st'.samples = st.samples

/-- Location ids are handed out sequentially from 1 in first-use order:
the ids stored in the map are exactly 1..n in insertion order. -/
def LocInv (st : CState) : Prop :=
  st.locations.map (fun e => e.2.id) = List.range' 1 st.locations.length ∧
  st.nextLocationID = st.locations.length + 1

/-- The same converter state with one extra annotation entry in front of
the map. -/
def withAnn (p : Nat) (a : List Char) (st : CState) : CState :=
  { st with annMap := (p, a) :: st.annMap }

/-- Every consumed annotation mirrors an entry of the annotation map,
and the consumed pids are pairwise distinct (a Go map). -/
def ConsumedMirror (st : CState) : Prop :=
  (st.consumedAnn.map Prod.fst).Nodup ∧
  ∀ q v, alookup q st.consumedAnn = some v → alookup q st.annMap = some v

/-- A single leaf of self weight w under one ancestor frame, thread T
(tid 1) of process P (pid 123). -/
def singleLeafProfile (w : Int) : TimeProfile :=
  ⟨[⟨"P".data, 123, [⟨"T".data, 1, [0]⟩]⟩],
   [⟨none, [1], 0, "ancestor".data, 2⟩,
    ⟨some 0, [], w, "leaf".data, 3⟩]⟩

/-! ## Concrete inputs -/

/-- A sample-format file in which the children of frame b (cumulative 5
hits) sum to 7 hits: the corruption is below the root, where
fixSelfWeight's recursive error is discarded. -/
def corruptSampleLines : List (List Char) :=
  ["Process: P [1]".data,
   "Report Version: 7".data,
   "Call graph:".data,
   "1 T".data,
   "+ 10 a".data,
   "+   5 b".data,
   "+   : 7 c".data,
   "+   : ! 3 d".data]

/-- The profile ParseSample returns for corruptSampleLines: accepted, with
frame b left at -2000000 ns and the subtree of c never fixed. -/
def corruptSampleProfile : TimeProfile :=
  ⟨[⟨"P".data, 1, [⟨"T".data, 0, [1]⟩]⟩],
   [⟨none, [], 1000000, "T".data, 0⟩,
    ⟨none, [2], 5000000, "a".data, 1⟩,
    ⟨some 1, [3], -2000000, "b".data, 2⟩,
    ⟨some 2, [4], 7000000, "c".data, 3⟩,
    ⟨some 3, [], 3000000, "d".data, 4⟩]⟩

/-- Deep-copy input whose last line has 3 tab-separated fields and no
leading spaces in the symbol field, so parseLine computes depth
0 - 1 = -1 and the find-parent walk looks for an ancestor of depth -2. -/
def dcCrashLines : List (List Char) :=
  ["10.0 s  100%\t0 s\t \tMain Process (123)".data,
   "5.0 s  50%\t0 s\t \t Thread 1  0x1ee7".data,
   "5.0 s  50%\t0 s\t \t  foo".data,
   "1.0 s  10%\t1.0 s\tbar".data]

/-- Sample-format call-graph lines: a frame at depth 2 in thread T1, then
a new thread header. -/
def twoThreadLines : List (List Char) :=
  ["1 T1".data, "+ 2 a".data, "+   1 b".data, "1 T2".data]

/-- A profile with the same symbol under two distinct threads that share
tid 0 (as every thread parsed from the sample format does). -/
def sharedTidProfile : TimeProfile :=
  ⟨[⟨"P".data, 1, [⟨"T1".data, 0, [0]⟩, ⟨"T2".data, 0, [1]⟩]⟩],
   [⟨none, [], 1, "foo".data, 1⟩,
    ⟨none, [], 1, "foo".data, 1⟩]⟩

/-! ## C1: the sample-format round-trip self-weight law -/

/-- C1.  The claim states that for every sample-format input accepted by
ParseSample and every non-leaf frame, the final self weight of the frame
plus the final self weights of all its descendants equals the frame's
original cumulative weight (hit count times the 1,000,000 ns period).
The code breaks the law: fixSelfWeight discards the error of its
recursive call, so on corruptSampleLines the profile is accepted while
the subtree of frame a (parsed hit count 10) sums to 13,000,000 ns
instead of 10 x 1,000,000 ns: frame b was driven negative and the frames
below it were never fixed.  The claim describes the evident intent of
the code (the error return exists precisely to be propagated, and
ParseSample checks it at the top level), so this is recorded as a code
bug. -/
theorem C1_fix_pass_breaks_roundtrip :
    sampleParseLines corruptSampleLines = .ok corruptSampleProfile ∧
    parseCallLine "+ 10 a".data = .ok ⟨none, [], 10, "a".data, 1⟩ ∧
    subtreeSelfSum 20 corruptSampleProfile.arena 1 = 13000000 ∧
    (13000000 : Int) ≠ 10 * 1000000 := by
  refine ⟨by rfl, by rfl, by rfl, by decide⟩

/-! ## C2: negative self weight must abort parsing -/

/-- C2.  The claim states that any negative self weight produced by the
fix-up pass aborts ParseSample fatally, hence every frame of a returned
profile has self weight >= 0.  Because fixSelfWeight drops the error of
its recursive call, corruptSampleLines is accepted and the returned
profile contains frame b with self weight -2,000,000 ns.  As for C1,
the code contradicts its own design (a fatal corruption error that is
computed and then ignored), so this is recorded as a code bug. -/
theorem C2_negative_self_weight_accepted :
    sampleParseLines corruptSampleLines = .ok corruptSampleProfile ∧
    aGet corruptSampleProfile.arena 2 =
      some ⟨some 1, [3], -2000000, "b".data, 2⟩ ∧
    (-2000000 : Int) < 0 := by
  refine ⟨by rfl, by rfl, by decide⟩

/-! ## C3 counterexample: the deep-copy walk dereferences past the root -/

/-- C3 counterexample.  The claim states that a depth matching no
ancestor makes parsing fail with a descriptive error rather than
dereference past the root.  In the deep-copy parser a 3-field line with
no leading spaces gets depth -1; the walk then searches for an ancestor
of depth -2, runs past the depth-2 root frame and dereferences its nil
parent: the parse crashes instead of returning an error. -/
theorem C3_deepcopy_walk_derefs_past_root :
    deepCopyParseLines dcCrashLines = .crash .walkNilParent := by
  rfl

/-! ## C4 counterexample: the sample parser does not reset lastFrame -/

/-- C4 counterexample.  The claim states that a depth-0 thread header in
the sample format resets lastFrame to none.  Running the call-graph loop
over twoThreadLines, the "1 T2" header leaves lastFrame pointing at the
freshly allocated, unattached depth-0 pseudo-frame of T2 (arena index
3), not at none. -/
theorem C4_sample_header_keeps_lastFrame :
    ∃ s, sampleBodyRun 1000000 ⟨[], [], none, none⟩ twoThreadLines = .stop s ∧
      s.lastFrame = some 3 ∧
      aGet s.ar 3 = some ⟨none, [], 1000000, "T2".data, 0⟩ ∧
      s.lastFrame ≠ none := by
  refine ⟨_, by rfl, by rfl, by rfl, by simp⟩

/-! ## C5 counterexample: distinct threads can share a location -/

/-- C5 counterexample.  The claim states that frames under distinct
threads never share a location even for an identical symbol name.  The
dedup key is (symbol, pid, tid), so the frame "foo" under thread T1 and
the frame "foo" under the distinct thread T2 -- both with tid 0, as all
sample-format threads are -- map to the same location id 1. -/
theorem C5_distinct_threads_share_location :
    ((timeProfileToPprof sharedTidProfile true true true []).1.sample.map
      (fun s => s.location.map PLocation.id)) = [[1], [1]] := by
  rfl

/-! ## C7 counterexample: a nil entry is appended for a skipped line -/

/-- C7 counterexample.  The claim states that a line without a parseable
trailing integer is skipped with no frame appended for it.  In the code,
parseCallLine returns (nil, nil) for such a line and ParseProfile's
err == nil branch appends the nil frame: parsing "Foo 2" then "Bar x"
yields two entries in the placeholder thread, the second being nil. -/
theorem C7_nil_entry_appended :
    cParseProfile ["Foo 2".data, "Bar x".data] =
      .ok [some (.node "Foo".data 2 0 []), none] := by
  rfl

/-! ## C9 counterexample: a bad header line errors before the crash -/

/-- C9 counterexample.  The claim states that every input with a
"Call graph" line but no "Process:" line makes ParseSample crash on the
empty process list without returning an error.  A header containing a
Report Version other than 7 returns an error before the "Call graph"
line is reached, so such inputs do produce an error value. -/
theorem C9_header_error_before_crash :
    sampleParseLines ["Report Version: 6".data, "Call graph:".data] = .err .rvValue := by
  rfl

/-! ## The converter never touches its input profile -/

theorem preservesCore_refl (st : CState) : PreservesCore st st :=
  ⟨rfl, rfl, rfl, rfl, rfl, rfl⟩

theorem preservesCore_trans {a b c : CState} (h1 : PreservesCore a b)
    (h2 : PreservesCore b c) : PreservesCore a c := by
  obtain ⟨x1, x2, x3, x4, x5, x6⟩ := h1
  obtain ⟨y1, y2, y3, y4, y5, y6⟩ := h2
  exact ⟨y1.trans x1, y2.trans x2, y3.trans x3, y4.trans x4, y5.trans x5, y6.trans x6⟩

theorem getFunction_core (st : CState) (n : List Char) :
    PreservesCore st (getFunction st n).2 := by
  unfold getFunction; split
  · exact preservesCore_refl st
  · exact ⟨rfl, rfl, rfl, rfl, rfl, rfl⟩

theorem getLocAt_core (st : CState) (k : LocKey) (n : List Char) :
    PreservesCore st (getLocAt st k n).2 := by
  unfold getLocAt; split
  · exact preservesCore_refl st
  · have h := getFunction_core st n
    exact ⟨h.1, h.2.1, h.2.2.1, h.2.2.2.1, h.2.2.2.2.1, h.2.2.2.2.2⟩

theorem getLocation_core (st : CState) (n : List Char) (proc : PProcess) (th : PThread) :
    PreservesCore st (getLocation st n proc th).2 :=
  getLocAt_core ..

theorem getThreadLocation_core (st : CState) (proc : PProcess) (th : PThread) :
    PreservesCore st (getThreadLocation st proc th).2 := by
  unfold getThreadLocation; exact getLocAt_core ..

theorem getProcessLocation_core (st : CState) (proc : PProcess) :
    PreservesCore st (getProcessLocation st proc).2 := by
  unfold getProcessLocation
  dsimp only
  split
  · split
    · refine preservesCore_trans ?_ (getLocAt_core ..)
      exact ⟨rfl, rfl, rfl, rfl, rfl, rfl⟩
    · exact getLocAt_core ..
  · exact getLocAt_core ..

theorem stackWalk_core (fuel : Nat) :
    ∀ (st : CState) (proc : PProcess) (th : PThread) (opt : Option Nat),
      PreservesCore st (stackWalk st proc th opt fuel).2 := by
  induction fuel with
  | zero => intro st proc th opt; cases opt <;> exact preservesCore_refl st
  | succ n ih =>
    intro st proc th opt
    cases opt with
    | none => exact preservesCore_refl st
    | some i =>
      unfold stackWalk
      cases st.deepCopy.arena.get? i with
      | none => exact preservesCore_refl st
      | some f =>
        exact preservesCore_trans (getLocation_core ..) (ih ..)

theorem threadStep_core (st : CState) (stack : List PLocation) (proc : PProcess)
    (th : PThread) : PreservesCore st (threadStep st stack proc th).2 := by
  unfold threadStep
  split
  · exact getThreadLocation_core ..
  · exact preservesCore_refl st

theorem procStep_core (st : CState) (stack : List PLocation) (proc : PProcess) :
    PreservesCore st (procStep st stack proc).2 := by
  unfold procStep
  split
  · exact getProcessLocation_core ..
  · exact preservesCore_refl st

theorem convertSample_core (st : CState) (i : Nat) (th : PThread) (proc : PProcess) :
    PreservesCore st (convertSample st i th proc).2 := by
  unfold convertSample
  dsimp only
  exact preservesCore_trans (stackWalk_core ..)
    (preservesCore_trans (threadStep_core ..) (procStep_core ..))

theorem addSample_deepCopy (st : CState) (i : Nat) (th : PThread) (proc : PProcess) :
    (addSample st i th proc).deepCopy = st.deepCopy := by
  unfold addSample; exact (convertSample_core st i th proc).1

theorem findSamplesRun_deepCopy (fuel : Nat) :
    ∀ (st : CState) (a : Sum Nat (List Nat)) (th : PThread) (proc : PProcess),
      (findSamplesRun fuel st a th proc).deepCopy = st.deepCopy := by
  induction fuel with
  | zero => intro st a th proc; rfl
  | succ n ih =>
    intro st a th proc
    match a with
    | .inl i =>
      unfold findSamplesRun
      cases st.deepCopy.arena.get? i with
      | none => rfl
      | some f =>
        simp only [ih]
        split <;> simp [addSample_deepCopy]
    | .inr [] => rfl
    | .inr (c :: rest) => unfold findSamplesRun; simp [ih]

theorem findSamples_deepCopy (st : CState) (proc : PProcess) (th : PThread) :
    (findSamples st proc th).deepCopy = st.deepCopy := by
  unfold findSamples; simp [findSamplesRun_deepCopy]

theorem findSamplesThreads_deepCopy (ts : List PThread) :
    ∀ (st : CState) (proc : PProcess),
      (findSamplesThreads st proc ts).deepCopy = st.deepCopy := by
  induction ts with
  | nil => intro st proc; rfl
  | cons t rest ih => intro st proc; unfold findSamplesThreads; simp [ih, findSamples_deepCopy]

theorem findSamplesProcs_deepCopy (ps : List PProcess) :
    ∀ (st : CState), (findSamplesProcs st ps).deepCopy = st.deepCopy := by
  induction ps with
  | nil => intro st; rfl
  | cons p rest ih => intro st; unfold findSamplesProcs; simp [ih, findSamplesThreads_deepCopy]

/-! ## C7 amended: skipped collapsed lines append a nil entry -/

theorem splitOnChar_ne_nil (sep : Char) (cs : List Char) : splitOnChar sep cs ≠ [] := by
  induction cs with
  | nil => simp [splitOnChar]
  | cons c rest ih =>
    unfold splitOnChar
    split
    · simp
    · cases h : splitOnChar sep rest with
      | nil => exact absurd h ih
      | cons a t => simp [h]

theorem cParseCallLine_cases (l : List Char) (h : cLineCrashes l = false) :
    (cLineSkipped l = true ∧ cParseCallLine l = .skip) ∨
    (cLineSkipped l = false ∧ ∃ f, cParseCallLine l = .frame f) := by
  unfold cLineCrashes at h
  unfold cLineSkipped cParseCallLine
  cases hs : lastSpaceIdx l with
  | none =>
    rw [hs] at h
    cases hp : parseInt64 l with
    | none => exact Or.inl ⟨by simp [hp], by simp [hp]⟩
    | some v => rw [hp] at h; simp at h
  | some k =>
    cases hp : parseInt64 (l.drop (k + 1)) with
    | none => exact Or.inl ⟨by simp [hp], by simp [hp]⟩
    | some v =>
      cases hf : splitOnChar ';' (l.take k) with
      | nil => exact absurd hf (splitOnChar_ne_nil ';' (l.take k))
      | cons f0 rest =>
        exact Or.inr ⟨by simp [hp], cChain 0 f0 rest v, by simp [hp, hf]⟩

theorem cParseGo_spec (lines : List (List Char)) :
    ∀ acc, (∀ l ∈ lines, cLineCrashes l = false) →
      cParseGo acc lines = .ok (acc ++ lines.map cFrameOf) := by
  induction lines with
  | nil => intro acc _; simp [cParseGo]
  | cons l rest ih =>
    intro acc h
    have hl : cLineCrashes l = false := h l (by simp)
    have hrest : ∀ x ∈ rest, cLineCrashes x = false := fun x hx => h x (by simp [hx])
    unfold cParseGo
    rcases cParseCallLine_cases l hl with ⟨_, hskip⟩ | ⟨_, f, hframe⟩
    · simp only [hskip]
      rw [ih _ hrest]
      simp [cFrameOf, hskip]
    · simp only [hframe]
      rw [ih _ hrest]
      simp [cFrameOf, hframe]

/-- C7 (amended).  The claim said a line whose trailing text does not
parse as an integer is silently skipped with no frame appended and no
error.  What the code does: no error is returned and every other line
still becomes a root frame, but the skipped line DOES append an entry --
the nil frame parseCallLine returned -- to the placeholder thread.  The
further condition excludes the space-free all-integer lines on which
parseCallLine panics on the negative slice line[0:sep] (sep = -1),
behaviour outside the claim's scope. -/
theorem C7_skip_behavior_amended (lines : List (List Char))
    (h : ∀ l ∈ lines, cLineCrashes l = false) :
    cParseProfile lines = .ok (lines.map cFrameOf) ∧
    ∀ l ∈ lines, (cFrameOf l = none ↔ cLineSkipped l = true) := by
  constructor
  · unfold cParseProfile
    simpa using cParseGo_spec lines [] h
  · intro l hl
    rcases cParseCallLine_cases l (h l hl) with ⟨hsk, hskip⟩ | ⟨hsk, f, hframe⟩
    · simp [cFrameOf, hskip, hsk]
    · simp [cFrameOf, hframe, hsk]

/-- C7 amended witness: a concrete run with one good and one skipped
line. -/
theorem C7_amended_witness :
    cParseProfile ["Foo 2".data, "notanint Bar".data] =
      .ok [some (.node "Foo".data 2 0 []), none] ∧
    cFrameOf "notanint Bar".data = none := by
  have h := C7_skip_behavior_amended ["Foo 2".data, "notanint Bar".data] (by decide)
  refine ⟨h.1.trans ?_, ?_⟩
  · rfl
  · rfl

/-! ## C9 amended: missing Process header crashes on the empty list -/

theorem callGraph_excludes (t : List Char) (h : hasPre "Call graph".data t = true) :
    hasPre "Process".data t = false ∧ hasPre "Report Version".data t = false := by
  unfold hasPre at h
  rcases List.isPrefixOf_iff_prefix.mp h with ⟨s, rfl⟩
  exact ⟨rfl, rfl⟩

theorem sampleHeader_benign_spec (pre : List (List Char)) (cg : List Char)
    (post : List (List Char)) (hpre : ∀ l ∈ pre, headerBenign l)
    (hcg : hasPre "Call graph".data (goTrim cg) = true) :
    ∀ rate, ∃ r', sampleHeader [] rate (pre ++ cg :: post) = .ok ([], r', post) := by
  induction pre with
  | nil =>
    intro rate
    refine ⟨if hasPre "Analysis of sampling".data (goTrim cg) then
      parseSampleRateGo (goTrim cg) else rate, ?_⟩
    obtain ⟨hp, hrv⟩ := callGraph_excludes _ hcg
    unfold sampleHeader reportVersionCheck
    simp [hp, hrv, hcg]
  | cons l rest ih =>
    intro rate
    have hb : headerBenign l := hpre l (by simp)
    obtain ⟨hp, hcgf, hrv⟩ := hb
    obtain ⟨r', hr⟩ := ih (fun x hx => hpre x (by simp [hx]))
      (if hasPre "Analysis of sampling".data (goTrim l) then parseSampleRateGo (goTrim l)
        else rate)
    refine ⟨r', ?_⟩
    unfold sampleHeader
    simp only [hrv, hp, hcgf, List.cons_append]
    simpa using hr

/-- C9 (amended).  The claim said ParseSample never returns an error for
inputs with a "Call graph" line and no "Process:" line before it; in
fact a malformed or non-7 "Report Version" header line (or a
"Process"-prefixed line that is not a valid process line) before the
"Call graph" line does return an error.  What holds: whenever every line
before the first "Call graph" line is benign -- not Process-prefixed and
with no failing Report Version check -- ParseSample indexes position 0
of the still-empty process list and crashes instead of reporting the
missing process as an error. -/
theorem C9_missing_process_crash_amended (pre : List (List Char)) (cg : List Char)
    (post : List (List Char)) (hpre : ∀ l ∈ pre, headerBenign l)
    (hcg : hasPre "Call graph".data (goTrim cg) = true) :
    sampleParseLines (pre ++ cg :: post) = .crash .emptyProcessList := by
  obtain ⟨r', hr⟩ := sampleHeader_benign_spec pre cg post hpre hcg 1000000
  unfold sampleParseLines
  rw [hr]

/-- C9 amended witness: a benign sampling-analysis line, then the Call
graph line. -/
theorem C9_amended_witness :
    sampleParseLines ["Analysis of sampling Foo 1 millisecond".data,
      "Call graph:".data, "junk".data] = .crash .emptyProcessList := by
  exact C9_missing_process_crash_amended
    ["Analysis of sampling Foo 1 millisecond".data] "Call graph:".data
    ["junk".data] (by intro l hl; simp at hl; subst hl; exact ⟨rfl, rfl, rfl⟩) rfl

/-! ## C6: samples are exactly the frames of nonzero self weight -/

theorem convertSample_value (st : CState) (i : Nat) (th : PThread) (proc : PProcess) :
    (convertSample st i th proc).1.value =
      [((st.deepCopy.arena.get? i).map FrameData.selfWeightNs).getD 0] := by
  rfl

theorem addSample_samples (st : CState) (i : Nat) (th : PThread) (proc : PProcess) :
    (addSample st i th proc).samples = st.samples ++ [(convertSample st i th proc).1] := by
  unfold addSample
  dsimp only
  rw [(convertSample_core st i th proc).2.2.2.2.2]

theorem findSamplesRun_values (fuel : Nat) :
    ∀ (st : CState) (a : Sum Nat (List Nat)) (th : PThread) (proc : PProcess),
      (findSamplesRun fuel st a th proc).samples.map PSample.value =
        st.samples.map PSample.value ++
          ((preorderW fuel st.deepCopy.arena a).filter (fun w => w ≠ 0)).map
            (fun w => [w]) := by
  induction fuel with
  | zero => intro st a th proc; simp [findSamplesRun, preorderW]
  | succ n ih =>
    intro st a th proc
    match a with
    | .inl i =>
      unfold findSamplesRun preorderW
      cases hg : st.deepCopy.arena.get? i with
      | none => simp
      | some f =>
        by_cases hw : f.selfWeightNs = 0
        · simp only [hw, ne_eq, not_true_eq_false, if_false]
          rw [ih]
          simp [hw]
        · have hg' : st.deepCopy.arena[i]? = some f := by
            rw [← List.get?_eq_getElem?]; exact hg
          simp only [ne_eq, hw, not_false_eq_true, if_true]
          rw [ih, addSample_deepCopy, addSample_samples]
          simp [convertSample_value, hg, hg', hw, List.append_assoc]
    | .inr [] => simp [findSamplesRun, preorderW]
    | .inr (c :: rest) =>
      unfold findSamplesRun preorderW
      rw [ih, ih, findSamplesRun_deepCopy]
      simp [List.filter_append, List.append_assoc]

theorem findSamples_values (st : CState) (proc : PProcess) (th : PThread) :
    (findSamples st proc th).samples.map PSample.value =
      st.samples.map PSample.value ++
        ((preorderW ((st.deepCopy.arena.length + 1) * (st.deepCopy.arena.length + 1))
          st.deepCopy.arena (.inr th.frames)).filter (fun w => w ≠ 0)).map
            (fun w => [w]) := by
  unfold findSamples
  rw [findSamplesRun_values]

theorem findSamplesThreads_values (ts : List PThread) :
    ∀ (st : CState) (proc : PProcess),
      (findSamplesThreads st proc ts).samples.map PSample.value =
        st.samples.map PSample.value ++
          ((ts.map (fun th =>
            preorderW ((st.deepCopy.arena.length + 1) * (st.deepCopy.arena.length + 1))
              st.deepCopy.arena (.inr th.frames))).flatten.filter (fun w => w ≠ 0)).map
                (fun w => [w]) := by
  induction ts with
  | nil => intro st proc; simp [findSamplesThreads]
  | cons t rest ih =>
    intro st proc
    unfold findSamplesThreads
    rw [ih, findSamples_values, findSamples_deepCopy]
    simp [List.filter_append, List.append_assoc]

theorem findSamplesProcs_values (ps : List PProcess) :
    ∀ (st : CState),
      (findSamplesProcs st ps).samples.map PSample.value =
        st.samples.map PSample.value ++
          List.map (fun w => [w])
            (List.filter (fun w => w ≠ 0)
              (List.flatten (ps.map (fun p =>
                List.flatten (p.threads.map (fun th =>
                  preorderW
                    ((st.deepCopy.arena.length + 1) * (st.deepCopy.arena.length + 1))
                    st.deepCopy.arena (.inr th.frames))))))) := by
  induction ps with
  | nil => intro st; simp [findSamplesProcs]
  | cons p rest ih =>
    intro st
    unfold findSamplesProcs
    rw [ih, findSamplesThreads_values, findSamplesThreads_deepCopy]
    simp [List.filter_append, List.append_assoc]

/-- C6.  With both excludes false and ids included, a profile with a
single leaf frame of self weight w (with one ancestor) under thread
T (tid 1) of process P (pid 123) converts to exactly one sample of value
w whose 4 stack entries are, in order, the leaf, the ancestor, the
thread pseudo-frame "T [tid: 0x1]" and the process pseudo-frame
"P [pid: 123]"; and in general the emitted samples' values are exactly
the self weights of the frames with nonzero self weight, in traversal
order. -/
theorem C6_converter_single_leaf_and_nonzero_emission :
    (∀ w : Int, w ≠ 0 →
      ((timeProfileToPprof (singleLeafProfile w) false false true []).1.sample.map
        (fun s => (s.value, s.location.map (fun l => l.line.map PFunction.name)))) =
        [([w], [["leaf".data], ["ancestor".data], ["T [tid: 0x1]".data],
          ["P [pid: 123]".data]])]) ∧
    (∀ (tp : TimeProfile) (exP exT inc : Bool) (ann : List (Nat × List Char)),
      ((timeProfileToPprof tp exP exT inc ann).1.sample.map PSample.value) =
        ((profileWeights tp).filter (fun w => w ≠ 0)).map (fun w => [w])) := by
  constructor
  · intro w hw
    unfold timeProfileToPprof convertToPprof
    simp only [newPprofConverter, singleLeafProfile]
    simp [findSamplesProcs, findSamplesThreads, findSamples, findSamplesRun, addSample,
      convertSample, stackWalk, threadStep, procStep, getLocation, getLocAt, getFunction,
      getThreadLocation, getProcessLocation, alookup, aGet, hexChars, decChars, hw]
    decide
  · intro tp exP exT inc ann
    unfold timeProfileToPprof convertToPprof
    dsimp only
    rw [findSamplesProcs_values]
    simp [newPprofConverter, profileWeights]

/-- C6 witness at w = 5. -/
theorem C6_witness :
    ((timeProfileToPprof (singleLeafProfile 5) false false true []).1.sample.map
      (fun s => (s.value, s.location.map (fun l => l.line.map PFunction.name)))) =
      [([(5 : Int)], [["leaf".data], ["ancestor".data], ["T [tid: 0x1]".data],
        ["P [pid: 123]".data]])] :=
  C6_converter_single_leaf_and_nonzero_emission.1 5 (by decide)

/-! ## C5 amended: location identity is the (symbol, pid, tid) key -/

theorem alookup_mem {α β : Type} [DecidableEq α] {k : α} {v : β} :
    ∀ {l : List (α × β)}, alookup k l = some v → (k, v) ∈ l := by
  intro l
  induction l with
  | nil => intro h; simp [alookup] at h
  | cons p rest ih =>
    intro h
    obtain ⟨a, b⟩ := p
    unfold alookup at h
    by_cases ha : a = k
    · rw [if_pos ha] at h
      obtain rfl := Option.some_injective _ h
      simp [ha]
    · rw [if_neg ha] at h
      exact List.mem_cons_of_mem _ (ih h)

theorem getFunction_locs (st : CState) (n : List Char) :
    (getFunction st n).2.locations = st.locations ∧
    (getFunction st n).2.nextLocationID = st.nextLocationID := by
  unfold getFunction; split <;> exact ⟨rfl, rfl⟩

theorem getLocAt_locInv (st : CState) (k : LocKey) (n : List Char) (h : LocInv st) :
    LocInv (getLocAt st k n).2 := by
  unfold getLocAt
  split
  · exact h
  · obtain ⟨h1, h2⟩ := h
    have hf := getFunction_locs st n
    constructor
    · dsimp only
      rw [hf.1, hf.2, List.map_append, h1, h2]
      simp [List.range'_concat]
      omega
    · dsimp only
      rw [hf.1, hf.2, h2]
      simp

theorem getLocation_locInv (st : CState) (n : List Char) (proc : PProcess) (th : PThread)
    (h : LocInv st) : LocInv (getLocation st n proc th).2 :=
  getLocAt_locInv _ _ _ h

theorem getThreadLocation_locInv (st : CState) (proc : PProcess) (th : PThread)
    (h : LocInv st) : LocInv (getThreadLocation st proc th).2 := by
  unfold getThreadLocation; exact getLocAt_locInv _ _ _ h

theorem getProcessLocation_locInv (st : CState) (proc : PProcess) (h : LocInv st) :
    LocInv (getProcessLocation st proc).2 := by
  unfold getProcessLocation
  dsimp only
  split
  · split
    · exact getLocAt_locInv _ _ _ ⟨h.1, h.2⟩
    · exact getLocAt_locInv _ _ _ h
  · exact getLocAt_locInv _ _ _ h

theorem stackWalk_locInv (fuel : Nat) :
    ∀ (st : CState) (proc : PProcess) (th : PThread) (opt : Option Nat), LocInv st →
      LocInv (stackWalk st proc th opt fuel).2 := by
  induction fuel with
  | zero => intro st proc th opt h; cases opt <;> exact h
  | succ n ih =>
    intro st proc th opt h
    cases opt with
    | none => exact h
    | some i =>
      unfold stackWalk
      cases st.deepCopy.arena.get? i with
      | none => exact h
      | some f => exact ih _ _ _ _ (getLocation_locInv _ _ _ _ h)

theorem threadStep_locInv (st : CState) (stack : List PLocation) (proc : PProcess)
    (th : PThread) (h : LocInv st) : LocInv (threadStep st stack proc th).2 := by
  unfold threadStep
  split
  · exact getThreadLocation_locInv _ _ _ h
  · exact h

theorem procStep_locInv (st : CState) (stack : List PLocation) (proc : PProcess)
    (h : LocInv st) : LocInv (procStep st stack proc).2 := by
  unfold procStep
  split
  · exact getProcessLocation_locInv _ _ h
  · exact h

theorem convertSample_locInv (st : CState) (i : Nat) (th : PThread) (proc : PProcess)
    (h : LocInv st) : LocInv (convertSample st i th proc).2 := by
  unfold convertSample
  dsimp only
  exact procStep_locInv _ _ _ (threadStep_locInv _ _ _ _ (stackWalk_locInv _ _ _ _ _ h))

theorem addSample_locInv (st : CState) (i : Nat) (th : PThread) (proc : PProcess)
    (h : LocInv st) : LocInv (addSample st i th proc) := by
  unfold addSample
  dsimp only
  exact ⟨(convertSample_locInv st i th proc h).1, (convertSample_locInv st i th proc h).2⟩

theorem findSamplesRun_locInv (fuel : Nat) :
    ∀ (st : CState) (a : Sum Nat (List Nat)) (th : PThread) (proc : PProcess), LocInv st →
      LocInv (findSamplesRun fuel st a th proc) := by
  induction fuel with
  | zero => intro st a th proc h; exact h
  | succ n ih =>
    intro st a th proc h
    match a with
    | .inl i =>
      unfold findSamplesRun
      cases st.deepCopy.arena.get? i with
      | none => exact h
      | some f =>
        dsimp only
        split
        · exact ih _ _ _ _ (addSample_locInv _ _ _ _ h)
        · exact ih _ _ _ _ h
    | .inr [] => exact h
    | .inr (c :: rest) =>
      unfold findSamplesRun
      exact ih _ _ _ _ (ih _ _ _ _ h)

theorem findSamples_locInv (st : CState) (proc : PProcess) (th : PThread) (h : LocInv st) :
    LocInv (findSamples st proc th) :=
  findSamplesRun_locInv _ _ _ _ _ h

theorem findSamplesThreads_locInv (ts : List PThread) :
    ∀ (st : CState) (proc : PProcess), LocInv st →
      LocInv (findSamplesThreads st proc ts) := by
  induction ts with
  | nil => intro st proc h; exact h
  | cons t rest ih =>
    intro st proc h
    unfold findSamplesThreads
    exact ih _ _ (findSamples_locInv _ _ _ h)

theorem findSamplesProcs_locInv (ps : List PProcess) :
    ∀ (st : CState), LocInv st → LocInv (findSamplesProcs st ps) := by
  induction ps with
  | nil => intro st h; exact h
  | cons p rest ih =>
    intro st h
    unfold findSamplesProcs
    exact ih _ (findSamplesThreads_locInv _ _ _ h)

theorem locInv_id_inj (st : CState) (h : LocInv st) {k1 k2 : LocKey} {l1 l2 : PLocation}
    (h1 : alookup k1 st.locations = some l1) (h2 : alookup k2 st.locations = some l2) :
    (l1.id = l2.id ↔ k1 = k2) := by
  constructor
  · intro hid
    obtain ⟨i, hi, hie⟩ := List.mem_iff_getElem.mp (alookup_mem h1)
    obtain ⟨j, hj, hje⟩ := List.mem_iff_getElem.mp (alookup_mem h2)
    have hmi : (st.locations.map (fun e => e.2.id))[i]? = some l1.id := by
      rw [List.getElem?_map, List.getElem?_eq_getElem hi, hie]; rfl
    have hmj : (st.locations.map (fun e => e.2.id))[j]? = some l2.id := by
      rw [List.getElem?_map, List.getElem?_eq_getElem hj, hje]; rfl
    rw [h.1, List.getElem?_range' _ _ hi] at hmi
    rw [h.1, List.getElem?_range' _ _ hj] at hmj
    have ei : 1 + 1 * i = l1.id := Option.some_injective _ hmi
    have ej : 1 + 1 * j = l2.id := Option.some_injective _ hmj
    have hij : i = j := by omega
    subst hij
    exact congrArg Prod.fst (hie.symm.trans hje)
  · intro hk
    subst hk
    obtain rfl := Option.some_injective _ (h1.symm.trans h2)
    rfl

/-- C5 (amended).  The converter deduplicates call-stack locations by the
key (symbol name, owning pid, owning tid), not by thread identity: two
frames with the same symbol under the same thread of the same process do
map to one location, and lookups under different keys always yield
different location ids -- but distinct threads (or processes) with equal
numeric ids share locations, as the C5 counterexample shows, so
"distinct threads never share" only holds when their (pid, tid) pairs
differ. -/
theorem C5_location_key_dedup_amended (tp : TimeProfile) (exP exT incIds : Bool)
    (ann : List (Nat × List Char)) (k1 k2 : LocKey) (l1 l2 : PLocation)
    (h1 : alookup k1 (timeProfileToPprof tp exP exT incIds ann).2.2.2.locations = some l1)
    (h2 : alookup k2 (timeProfileToPprof tp exP exT incIds ann).2.2.2.locations = some l2) :
    (l1.id = l2.id ↔ k1 = k2) := by
  refine locInv_id_inj _ ?_ h1 h2
  unfold timeProfileToPprof convertToPprof
  dsimp only
  exact findSamplesProcs_locInv _ _ ⟨rfl, rfl⟩

/-- C5 amended witness: in the converted sharedTidProfile the frame
location under key (foo, 1, 0) has id 1 and the thread pseudo-location
id 2; the theorem instantiates to the false-iff-false instance. -/
theorem C5_amended_witness :
    ((1 : Nat) = 2 ↔ (⟨1, 0, "foo".data⟩ : LocKey) = ⟨1, 0, "T1 [tid: 0x0]".data⟩) :=
  C5_location_key_dedup_amended sharedTidProfile false false true []
    ⟨1, 0, "foo".data⟩ ⟨1, 0, "T1 [tid: 0x0]".data⟩
    ⟨1, [⟨1, "foo".data, "foo".data⟩]⟩
    ⟨2, [⟨2, "T1 [tid: 0x0]".data, "T1 [tid: 0x0]".data⟩]⟩
    (by rfl) (by rfl)

/-! ## C8: an unmatched annotation pid does not alter the conversion -/

theorem alookup_isSome_of_mem_keys {α β : Type} [DecidableEq α] {q : α} :
    ∀ {l : List (α × β)}, q ∈ l.map Prod.fst → ∃ v, alookup q l = some v := by
  intro l
  induction l with
  | nil => intro h; simp at h
  | cons pr rest ih =>
    obtain ⟨a, b⟩ := pr
    intro h
    unfold alookup
    by_cases haq : a = q
    · exact ⟨b, by rw [if_pos haq]⟩
    · rw [if_neg haq]
      apply ih
      simp only [List.map_cons, List.mem_cons] at h
      exact h.resolve_left (fun he => haq he.symm)

theorem alookup_aput {α β : Type} [DecidableEq α] (k : α) (v : β) (q : α) :
    ∀ l : List (α × β), alookup q (aput k v l) = if k = q then some v else alookup q l := by
  intro l
  induction l with
  | nil => simp [aput, alookup]
  | cons pr rest ih =>
    obtain ⟨a, b⟩ := pr
    unfold aput
    by_cases hak : a = k
    · subst hak
      simp only [if_pos rfl]
      unfold alookup
      by_cases haq : a = q <;> simp [haq]
    · rw [if_neg hak]
      unfold alookup
      by_cases haq : a = q
      · subst haq
        have : ¬ k = a := fun h => hak h.symm
        simp [this]
      · simp [haq, ih]

theorem mem_keys_aput {α β : Type} [DecidableEq α] (k : α) (v : β) (q : α) :
    ∀ l : List (α × β), q ∈ (aput k v l).map Prod.fst ↔ q = k ∨ q ∈ l.map Prod.fst := by
  intro l
  induction l with
  | nil => simp [aput]
  | cons pr rest ih =>
    obtain ⟨a, b⟩ := pr
    unfold aput
    by_cases hak : a = k
    · subst hak
      simp only [if_pos rfl]
      simp [or_comm]
    · rw [if_neg hak]
      simp only [List.map_cons, List.mem_cons, ih]
      tauto

theorem aput_nodup {α β : Type} [DecidableEq α] (k : α) (v : β) :
    ∀ l : List (α × β), (l.map Prod.fst).Nodup → ((aput k v l).map Prod.fst).Nodup := by
  intro l
  induction l with
  | nil => intro _; simp [aput]
  | cons pr rest ih =>
    obtain ⟨a, b⟩ := pr
    intro h
    simp only [List.map_cons, List.nodup_cons] at h
    unfold aput
    by_cases hak : a = k
    · subst hak
      simp only [if_pos rfl]
      simpa using h
    · rw [if_neg hak]
      simp only [List.map_cons, List.nodup_cons, mem_keys_aput]
      exact ⟨fun hc => hc.elim (fun he => hak he) (fun hm => h.1 hm), ih h.2⟩

theorem getFunction_consumed (st : CState) (n : List Char) :
    (getFunction st n).2.consumedAnn = st.consumedAnn ∧
    (getFunction st n).2.annMap = st.annMap := by
  unfold getFunction; split <;> exact ⟨rfl, rfl⟩

theorem getLocAt_consumed (st : CState) (k : LocKey) (n : List Char) :
    (getLocAt st k n).2.consumedAnn = st.consumedAnn ∧
    (getLocAt st k n).2.annMap = st.annMap := by
  unfold getLocAt
  split
  · exact ⟨rfl, rfl⟩
  · exact ⟨(getFunction_consumed st n).1, (getFunction_consumed st n).2⟩

theorem getLocAt_mirror (st : CState) (k : LocKey) (n : List Char)
    (h : ConsumedMirror st) : ConsumedMirror (getLocAt st k n).2 := by
  obtain ⟨hc, ha⟩ := getLocAt_consumed st k n
  exact ⟨hc ▸ h.1, fun q v hv => ha ▸ h.2 q v (hc ▸ hv)⟩

theorem getThreadLocation_mirror (st : CState) (proc : PProcess) (th : PThread)
    (h : ConsumedMirror st) : ConsumedMirror (getThreadLocation st proc th).2 := by
  unfold getThreadLocation; exact getLocAt_mirror _ _ _ h

theorem getProcessLocation_mirror (st : CState) (proc : PProcess)
    (h : ConsumedMirror st) : ConsumedMirror (getProcessLocation st proc).2 := by
  unfold getProcessLocation
  dsimp only
  split
  · split
    next vann hla =>
      refine getLocAt_mirror _ _ _ ⟨?_, ?_⟩
      · show ((aput proc.pid vann st.consumedAnn).map Prod.fst).Nodup
        exact aput_nodup _ _ _ h.1
      · intro q w hw
        show alookup q st.annMap = some w
        have hw' : alookup q (aput proc.pid vann st.consumedAnn) = some w := hw
        rw [alookup_aput] at hw'
        by_cases hq : proc.pid = q
        · rw [if_pos hq] at hw'
          obtain rfl := Option.some_injective _ hw'
          exact hq ▸ hla
        · rw [if_neg hq] at hw'
          exact h.2 q w hw'
    next => exact getLocAt_mirror _ _ _ h
  · exact getLocAt_mirror _ _ _ h

theorem stackWalk_mirror (fuel : Nat) :
    ∀ (st : CState) (proc : PProcess) (th : PThread) (opt : Option Nat),
      ConsumedMirror st → ConsumedMirror (stackWalk st proc th opt fuel).2 := by
  induction fuel with
  | zero => intro st proc th opt h; cases opt <;> exact h
  | succ n ih =>
    intro st proc th opt h
    cases opt with
    | none => exact h
    | some i =>
      unfold stackWalk
      cases st.deepCopy.arena.get? i with
      | none => exact h
      | some f => exact ih _ _ _ _ (getLocAt_mirror _ _ _ h)

theorem threadStep_mirror (st : CState) (stack : List PLocation) (proc : PProcess)
    (th : PThread) (h : ConsumedMirror st) : ConsumedMirror (threadStep st stack proc th).2 := by
  unfold threadStep
  split
  · exact getThreadLocation_mirror _ _ _ h
  · exact h

theorem procStep_mirror (st : CState) (stack : List PLocation) (proc : PProcess)
    (h : ConsumedMirror st) : ConsumedMirror (procStep st stack proc).2 := by
  unfold procStep
  split
  · exact getProcessLocation_mirror _ _ h
  · exact h

theorem convertSample_mirror (st : CState) (i : Nat) (th : PThread) (proc : PProcess)
    (h : ConsumedMirror st) : ConsumedMirror (convertSample st i th proc).2 := by
  unfold convertSample
  dsimp only
  exact procStep_mirror _ _ _ (threadStep_mirror _ _ _ _ (stackWalk_mirror _ _ _ _ _ h))

theorem addSample_mirror (st : CState) (i : Nat) (th : PThread) (proc : PProcess)
    (h : ConsumedMirror st) : ConsumedMirror (addSample st i th proc) := by
  unfold addSample
  dsimp only
  exact ⟨(convertSample_mirror st i th proc h).1, (convertSample_mirror st i th proc h).2⟩

theorem findSamplesRun_mirror (fuel : Nat) :
    ∀ (st : CState) (a : Sum Nat (List Nat)) (th : PThread) (proc : PProcess),
      ConsumedMirror st → ConsumedMirror (findSamplesRun fuel st a th proc) := by
  induction fuel with
  | zero => intro st a th proc h; exact h
  | succ n ih =>
    intro st a th proc h
    match a with
    | .inl i =>
      unfold findSamplesRun
      cases st.deepCopy.arena.get? i with
      | none => exact h
      | some f =>
        dsimp only
        split
        · exact ih _ _ _ _ (addSample_mirror _ _ _ _ h)
        · exact ih _ _ _ _ h
    | .inr [] => exact h
    | .inr (c :: rest) =>
      unfold findSamplesRun
      exact ih _ _ _ _ (ih _ _ _ _ h)

theorem findSamplesThreads_mirror (ts : List PThread) :
    ∀ (st : CState) (proc : PProcess), ConsumedMirror st →
      ConsumedMirror (findSamplesThreads st proc ts) := by
  induction ts with
  | nil => intro st proc h; exact h
  | cons t rest ih =>
    intro st proc h
    unfold findSamplesThreads findSamples
    exact ih _ _ (findSamplesRun_mirror _ _ _ _ _ h)

theorem findSamplesProcs_mirror (ps : List PProcess) :
    ∀ (st : CState), ConsumedMirror st → ConsumedMirror (findSamplesProcs st ps) := by
  induction ps with
  | nil => intro st h; exact h
  | cons pPr rest ih =>
    intro st h
    unfold findSamplesProcs
    exact ih _ (findSamplesThreads_mirror _ _ _ h)

theorem addSample_annMap (st : CState) (i : Nat) (th : PThread) (proc : PProcess) :
    (addSample st i th proc).annMap = st.annMap := by
  unfold addSample
  dsimp only
  exact (convertSample_core st i th proc).2.2.2.2.1

theorem findSamplesRun_annMap (fuel : Nat) :
    ∀ (st : CState) (a : Sum Nat (List Nat)) (th : PThread) (proc : PProcess),
      (findSamplesRun fuel st a th proc).annMap = st.annMap := by
  induction fuel with
  | zero => intro st a th proc; rfl
  | succ n ih =>
    intro st a th proc
    match a with
    | .inl i =>
      unfold findSamplesRun
      cases st.deepCopy.arena.get? i with
      | none => rfl
      | some f =>
        dsimp only
        split
        · rw [ih, addSample_annMap]
        · rw [ih]
    | .inr [] => rfl
    | .inr (c :: rest) =>
      unfold findSamplesRun
      rw [ih, ih]

theorem findSamplesThreads_annMap (ts : List PThread) :
    ∀ (st : CState) (proc : PProcess),
      (findSamplesThreads st proc ts).annMap = st.annMap := by
  induction ts with
  | nil => intro st proc; rfl
  | cons t rest ih =>
    intro st proc
    unfold findSamplesThreads findSamples
    rw [ih, findSamplesRun_annMap]

theorem findSamplesProcs_annMap (ps : List PProcess) :
    ∀ (st : CState), (findSamplesProcs st ps).annMap = st.annMap := by
  induction ps with
  | nil => intro st; rfl
  | cons pPr rest ih =>
    intro st
    unfold findSamplesProcs
    rw [ih, findSamplesThreads_annMap]

theorem getFunction_withAnn (p : Nat) (a : List Char) (st : CState) (n : List Char) :
    getFunction (withAnn p a st) n =
      ((getFunction st n).1, withAnn p a (getFunction st n).2) := by
  unfold getFunction withAnn
  dsimp only
  split <;> rfl

theorem getLocAt_withAnn (p : Nat) (a : List Char) (st : CState) (k : LocKey)
    (n : List Char) :
    getLocAt (withAnn p a st) k n = ((getLocAt st k n).1, withAnn p a (getLocAt st k n).2) := by
  unfold getLocAt
  dsimp only
  have hf := getFunction_withAnn p a st n
  show (match alookup k st.locations with
    | some loc => (loc, withAnn p a st)
    | none => _) = _
  split
  · rfl
  · rw [hf]; rfl

theorem getLocation_withAnn (p : Nat) (a : List Char) (st : CState) (n : List Char)
    (proc : PProcess) (th : PThread) :
    getLocation (withAnn p a st) n proc th =
      ((getLocation st n proc th).1, withAnn p a (getLocation st n proc th).2) :=
  getLocAt_withAnn ..

theorem getThreadLocation_withAnn (p : Nat) (a : List Char) (st : CState)
    (proc : PProcess) (th : PThread) :
    getThreadLocation (withAnn p a st) proc th =
      ((getThreadLocation st proc th).1, withAnn p a (getThreadLocation st proc th).2) := by
  unfold getThreadLocation
  exact getLocAt_withAnn ..

theorem withAnn_annMap (p : Nat) (a : List Char) (st : CState) :
    (withAnn p a st).annMap = (p, a) :: st.annMap := rfl

theorem withAnn_includeIds (p : Nat) (a : List Char) (st : CState) :
    (withAnn p a st).includeThreadAndProcessIds = st.includeThreadAndProcessIds := rfl

theorem withAnn_deepCopy (p : Nat) (a : List Char) (st : CState) :
    (withAnn p a st).deepCopy = st.deepCopy := rfl

theorem withAnn_excludeT (p : Nat) (a : List Char) (st : CState) :
    (withAnn p a st).excludeThreadsFromStack = st.excludeThreadsFromStack := rfl

theorem withAnn_excludeP (p : Nat) (a : List Char) (st : CState) :
    (withAnn p a st).excludeProcessesFromStack = st.excludeProcessesFromStack := rfl

theorem withAnn_samples (p : Nat) (a : List Char) (st : CState) :
    (withAnn p a st).samples = st.samples := rfl

theorem withAnn_consumed (p : Nat) (a : List Char) (st : CState) :
    (withAnn p a st).consumedAnn = st.consumedAnn := rfl

theorem withAnn_locations (p : Nat) (a : List Char) (st : CState) :
    (withAnn p a st).locations = st.locations := rfl

theorem withAnn_functions (p : Nat) (a : List Char) (st : CState) :
    (withAnn p a st).functions = st.functions := rfl

theorem getProcessLocation_withAnn (p : Nat) (a : List Char) (st : CState)
    (proc : PProcess) (hpid : proc.pid = 0 ∨ proc.pid ≠ p) :
    getProcessLocation (withAnn p a st) proc =
      ((getProcessLocation st proc).1, withAnn p a (getProcessLocation st proc).2) := by
  unfold getProcessLocation
  dsimp only
  by_cases h0 : proc.pid = 0
  · simp only [h0, ne_eq, not_true_eq_false, if_false]
    exact getLocAt_withAnn ..
  · have hne : ¬ p = proc.pid := by
      rcases hpid with h | h
      · exact absurd h h0
      · exact fun he => h he.symm
    simp only [ne_eq, h0, not_false_eq_true, if_true, withAnn_annMap, withAnn_includeIds]
    rw [show alookup proc.pid ((p, a) :: st.annMap) =
        (if p = proc.pid then some a else alookup proc.pid st.annMap) from rfl,
      if_neg hne]
    split
    next ann heq =>
      rw [show consumeAnn (withAnn p a st) proc.pid ann =
        withAnn p a (consumeAnn st proc.pid ann) from rfl]
      rw [getLocAt_withAnn]
    next heq =>
      rw [getLocAt_withAnn]

theorem stackWalk_withAnn (p : Nat) (a : List Char) (fuel : Nat) :
    ∀ (st : CState) (proc : PProcess) (th : PThread) (opt : Option Nat),
      stackWalk (withAnn p a st) proc th opt fuel =
        ((stackWalk st proc th opt fuel).1,
          withAnn p a (stackWalk st proc th opt fuel).2) := by
  induction fuel with
  | zero => intro st proc th opt; cases opt <;> rfl
  | succ n ih =>
    intro st proc th opt
    cases opt with
    | none => rfl
    | some i =>
      simp only [stackWalk, withAnn_deepCopy]
      cases hg : st.deepCopy.arena.get? i with
      | none => rfl
      | some f => simp only [getLocation_withAnn, ih]

theorem threadStep_withAnn (p : Nat) (a : List Char) (st : CState)
    (stack : List PLocation) (proc : PProcess) (th : PThread) :
    threadStep (withAnn p a st) stack proc th =
      ((threadStep st stack proc th).1, withAnn p a (threadStep st stack proc th).2) := by
  unfold threadStep
  simp only [withAnn_excludeT]
  split
  · simp only [getThreadLocation_withAnn]
  · rfl

theorem procStep_withAnn (p : Nat) (a : List Char) (st : CState)
    (stack : List PLocation) (proc : PProcess) (hpid : proc.pid = 0 ∨ proc.pid ≠ p) :
    procStep (withAnn p a st) stack proc =
      ((procStep st stack proc).1, withAnn p a (procStep st stack proc).2) := by
  unfold procStep
  simp only [withAnn_excludeP]
  split
  · simp only [getProcessLocation_withAnn p a _ _ hpid]
  · rfl

theorem convertSample_withAnn (p : Nat) (a : List Char) (st : CState) (i : Nat)
    (th : PThread) (proc : PProcess) (hpid : proc.pid = 0 ∨ proc.pid ≠ p) :
    convertSample (withAnn p a st) i th proc =
      ((convertSample st i th proc).1, withAnn p a (convertSample st i th proc).2) := by
  have hps : ∀ (s : CState) (stack : List PLocation), procStep (withAnn p a s) stack proc =
      ((procStep s stack proc).1, withAnn p a (procStep s stack proc).2) :=
    fun s stack => procStep_withAnn p a s stack proc hpid
  unfold convertSample
  simp only [stackWalk_withAnn, withAnn_deepCopy, threadStep_withAnn, hps]

theorem addSample_withAnn (p : Nat) (a : List Char) (st : CState) (i : Nat)
    (th : PThread) (proc : PProcess) (hpid : proc.pid = 0 ∨ proc.pid ≠ p) :
    addSample (withAnn p a st) i th proc = withAnn p a (addSample st i th proc) := by
  unfold addSample
  dsimp only
  rw [convertSample_withAnn p a st i th proc hpid]
  rfl

theorem findSamplesRun_withAnn (p : Nat) (a : List Char) (fuel : Nat) :
    ∀ (st : CState) (x : Sum Nat (List Nat)) (th : PThread) (proc : PProcess),
      proc.pid = 0 ∨ proc.pid ≠ p →
      findSamplesRun fuel (withAnn p a st) x th proc =
        withAnn p a (findSamplesRun fuel st x th proc) := by
  induction fuel with
  | zero => intro st x th proc _; rfl
  | succ n ih =>
    intro st x th proc hpid
    have hAdd : ∀ (s : CState) (j : Nat), addSample (withAnn p a s) j th proc =
        withAnn p a (addSample s j th proc) :=
      fun s j => addSample_withAnn p a s j th proc hpid
    have hRun : ∀ (s : CState) (y : Sum Nat (List Nat)),
        findSamplesRun n (withAnn p a s) y th proc =
          withAnn p a (findSamplesRun n s y th proc) :=
      fun s y => ih s y th proc hpid
    match x with
    | .inl i =>
      unfold findSamplesRun
      simp only [withAnn_deepCopy]
      split
      · rfl
      · simp only [apply_ite (withAnn p a), hAdd]
        split <;> exact hRun _ _
    | .inr [] => rfl
    | .inr (c :: rest) =>
      unfold findSamplesRun
      rw [hRun, hRun]

theorem findSamplesThreads_withAnn (p : Nat) (a : List Char) (ts : List PThread) :
    ∀ (st : CState) (proc : PProcess), proc.pid = 0 ∨ proc.pid ≠ p →
      findSamplesThreads (withAnn p a st) proc ts =
        withAnn p a (findSamplesThreads st proc ts) := by
  induction ts with
  | nil => intro st proc _; rfl
  | cons t rest ih =>
    intro st proc hpid
    unfold findSamplesThreads findSamples
    rw [show (withAnn p a st).deepCopy = st.deepCopy from rfl,
      findSamplesRun_withAnn p a _ _ _ _ _ hpid, ih _ _ hpid]

theorem findSamplesProcs_withAnn (p : Nat) (a : List Char) (ps : List PProcess) :
    ∀ (st : CState), (∀ proc ∈ ps, proc.pid = 0 ∨ proc.pid ≠ p) →
      findSamplesProcs (withAnn p a st) ps = withAnn p a (findSamplesProcs st ps) := by
  induction ps with
  | nil => intro st _; rfl
  | cons pPr rest ih =>
    intro st hp
    unfold findSamplesProcs
    rw [findSamplesThreads_withAnn p a _ _ _ (hp pPr (by simp)),
      ih _ (fun x hx => hp x (by simp [hx]))]

/-- C8.  Supplying an annotation entry whose pid either is 0 or matches
no process does not fail the conversion and does not alter the returned
profile in any way (samples, stacks, locations, functions); the entry is
reported in the non-fatal advisory instead.  In particular a pid-0
process is never annotated even when the map contains key 0. -/
theorem C8_unmatched_annotation_harmless (tp : TimeProfile) (exP exT incIds : Bool)
    (ann : List (Nat × List Char)) (p : Nat) (a : List Char)
    (hp : p = 0 ∨ ∀ proc ∈ tp.processes, proc.pid ≠ p)
    (hfresh : alookup p ann = none) :
    (timeProfileToPprof tp exP exT incIds ((p, a) :: ann)).1 =
      (timeProfileToPprof tp exP exT incIds ann).1 ∧
    (p, a) ∈ (timeProfileToPprof tp exP exT incIds ((p, a) :: ann)).2.1 := by
  have hpp : ∀ proc ∈ tp.processes, proc.pid = 0 ∨ proc.pid ≠ p := by
    intro proc hm
    rcases hp with h0 | hno
    · subst h0
      by_cases hz : proc.pid = 0
      · exact Or.inl hz
      · exact Or.inr hz
    · exact Or.inr (hno proc hm)
  have hinit : newPprofConverter tp exP exT incIds ((p, a) :: ann) =
      withAnn p a (newPprofConverter tp exP exT incIds ann) := rfl
  set st0 := newPprofConverter tp exP exT incIds ann with hst0
  have hcomm : findSamplesProcs (withAnn p a st0) (withAnn p a st0).deepCopy.processes =
      withAnn p a (findSamplesProcs st0 st0.deepCopy.processes) := by
    exact findSamplesProcs_withAnn p a _ _ hpp
  have hmirror : ConsumedMirror (findSamplesProcs st0 st0.deepCopy.processes) :=
    findSamplesProcs_mirror _ _ ⟨by simp [hst0, newPprofConverter], by
      intro q v hv
      simp [hst0, newPprofConverter, alookup] at hv⟩
  have hann : (findSamplesProcs st0 st0.deepCopy.processes).annMap = ann := by
    rw [findSamplesProcs_annMap]
    rfl
  set st1 := findSamplesProcs st0 st0.deepCopy.processes with hst1
  have hpc : alookup p st1.consumedAnn = none := by
    cases hv : alookup p st1.consumedAnn with
    | none => rfl
    | some v =>
      have := hmirror.2 p v hv
      rw [hann] at this
      rw [this] at hfresh
      exact absurd hfresh (by simp)
  have hlen : st1.consumedAnn.length ≤ ann.length := by
    have hsub : (st1.consumedAnn.map Prod.fst) ⊆ (ann.map Prod.fst) := by
      intro q hq
      obtain ⟨v, hv⟩ := alookup_isSome_of_mem_keys hq
      have hm := hmirror.2 q v hv
      rw [hann] at hm
      exact List.mem_map.mpr ⟨(q, v), alookup_mem hm, rfl⟩
    have := (List.subperm_of_subset hmirror.1 hsub).length_le
    simpa using this
  constructor
  · unfold timeProfileToPprof convertToPprof
    dsimp only
    rw [hinit, hcomm]
    rfl
  · unfold timeProfileToPprof convertToPprof
    dsimp only
    rw [hinit, hcomm]
    have hcond : (withAnn p a st1).consumedAnn.length < (withAnn p a st1).annMap.length := by
      show st1.consumedAnn.length < ((p, a) :: st1.annMap).length
      rw [hann]
      simp
      omega
    rw [if_pos hcond]
    apply List.mem_filter.mpr
    constructor
    · show (p, a) ∈ (p, a) :: st1.annMap
      simp
    · show decide (alookup p st1.consumedAnn = none) = true
      simp [hpc]

/-- C8 witness: annotating absent pid 999 leaves the singleLeafProfile
conversion unchanged and reports the entry in the advisory. -/
theorem C8_witness :
    (timeProfileToPprof (singleLeafProfile 5) false false true [(999, "x".data)]).1 =
      (timeProfileToPprof (singleLeafProfile 5) false false true []).1 ∧
    (999, "x".data) ∈
      (timeProfileToPprof (singleLeafProfile 5) false false true [(999, "x".data)]).2.1 :=
  C8_unmatched_annotation_harmless (singleLeafProfile 5) false false true [] 999 "x".data
    (Or.inr (by decide)) (by rfl)

/-! ## Arena access lemmas -/

theorem aGet_lt {ar : Arena} {i : Nat} {f : FrameData} (h : aGet ar i = some f) :
    i < ar.length := by
  unfold aGet at h
  exact List.get?_eq_some.mp h |>.1

theorem aGet_append_lt {ar : Arena} (x : FrameData) {i : Nat} (h : i < ar.length) :
    aGet (ar ++ [x]) i = aGet ar i := by
  unfold aGet
  exact List.get?_append h

theorem aGet_append_self (ar : Arena) (x : FrameData) :
    aGet (ar ++ [x]) ar.length = some x := by
  unfold aGet
  exact List.get?_concat_length ar x

theorem addChild_length (ar : Arena) (p c : Nat) : (addChild ar p c).length = ar.length := by
  unfold addChild
  split
  · rfl
  · exact List.length_set ..

theorem aGet_addChild_ne (ar : Arena) (p c : Nat) {i : Nat} (h : i ≠ p) :
    aGet (addChild ar p c) i = aGet ar i := by
  unfold addChild aGet
  split
  · rfl
  · exact List.get?_set_ne _ _ (Ne.symm h)

theorem aGet_addChild_self {ar : Arena} {p : Nat} {f : FrameData} (c : Nat)
    (h : aGet ar p = some f) :
    aGet (addChild ar p c) p = some { f with children := f.children ++ [c] } := by
  have h' : ar.get? p = some f := h
  have hlt : p < ar.length := aGet_lt h
  unfold addChild
  rw [h']
  unfold aGet
  exact List.get?_set_eq_of_lt _ hlt

theorem scaleWeight_length (ar : Arena) (j : Nat) (r : Int) :
    (scaleWeight ar j r).length = ar.length := by
  unfold scaleWeight
  split
  · rfl
  · exact List.length_set ..

theorem aGet_scale_ne (ar : Arena) (j : Nat) (r : Int) {i : Nat} (h : i ≠ j) :
    aGet (scaleWeight ar j r) i = aGet ar i := by
  unfold scaleWeight aGet
  split
  · rfl
  · exact List.get?_set_ne _ _ (Ne.symm h)

theorem aGet_scale_self {ar : Arena} {j : Nat} {f : FrameData} (r : Int)
    (h : aGet ar j = some f) :
    aGet (scaleWeight ar j r) j = some { f with selfWeightNs := f.selfWeightNs * r } := by
  have h' : ar.get? j = some f := h
  have hlt : j < ar.length := aGet_lt h
  unfold scaleWeight
  rw [h']
  unfold aGet
  exact List.get?_set_eq_of_lt _ hlt

/-! ## Chain lemmas -/

theorem chainD_aGet {ar : Arena} {i : Nat} {d : Int} (h : ChainD ar i d) :
    ∃ f, aGet ar i = some f ∧ f.depth = d := by
  cases h with
  | root i f hf hd hp => exact ⟨f, hf, hd⟩
  | step i j f hf hp hj hc hd => exact ⟨f, hf, rfl⟩

theorem chainD_le {ar : Arena} {i : Nat} {d : Int} (h : ChainD ar i d) : d ≤ i + 1 := by
  induction h with
  | root i f hf hd hp => omega
  | step i j f hf hp hj hc hd ih => omega

theorem chainD_mono {ar ar' : Arena} (hs : SameLinks ar ar') {i : Nat} {d : Int}
    (h : ChainD ar i d) : ChainD ar' i d := by
  induction h with
  | root i f hf hd hp =>
    obtain ⟨f', hf', hd', hp'⟩ := hs i f hf
    exact .root i f' hf' (hd' ▸ hd) (hp' ▸ hp)
  | step i j f hf hp hj hc hd ih =>
    obtain ⟨f', hf', hd', hp'⟩ := hs i f hf
    have hstep : ChainD ar' i f'.depth :=
      .step i j f' hf' (hp'.trans hp) hj (by rw [hd']; exact ih) (by rw [hd']; exact hd)
    rw [hd'] at hstep
    exact hstep

theorem sameLinks_refl (ar : Arena) : SameLinks ar ar :=
  fun i f hf => ⟨f, hf, rfl, rfl⟩

theorem sameLinks_trans {a b c : Arena} (h1 : SameLinks a b) (h2 : SameLinks b c) :
    SameLinks a c := by
  intro i f hf
  obtain ⟨f1, hf1, hd1, hp1⟩ := h1 i f hf
  obtain ⟨f2, hf2, hd2, hp2⟩ := h2 i f1 hf1
  exact ⟨f2, hf2, hd2.trans hd1, hp2.trans hp1⟩

theorem sameLinks_append (ar : Arena) (x : FrameData) : SameLinks ar (ar ++ [x]) := by
  intro i f hf
  exact ⟨f, (aGet_append_lt x (aGet_lt hf)).trans hf, rfl, rfl⟩

theorem sameLinks_addChild (ar : Arena) (p c : Nat) : SameLinks ar (addChild ar p c) := by
  intro i f hf
  by_cases hip : i = p
  · subst hip
    exact ⟨{ f with children := f.children ++ [c] }, aGet_addChild_self c hf, rfl, rfl⟩
  · exact ⟨f, (aGet_addChild_ne ar p c hip).trans hf, rfl, rfl⟩

theorem sameLinks_scale (ar : Arena) (j : Nat) (r : Int) : SameLinks ar (scaleWeight ar j r) := by
  intro i f hf
  by_cases hij : i = j
  · subst hij
    exact ⟨{ f with selfWeightNs := f.selfWeightNs * r }, aGet_scale_self r hf, rfl, rfl⟩
  · exact ⟨f, (aGet_scale_ne ar j r hij).trans hf, rfl, rfl⟩

/-- Along a wellformed chain the find-parent walk reaches any depth
between 1 and the chain head's depth. -/
theorem walk_finds {ar : Arena} {j : Nat} {d : Int} (h : ChainD ar j d) (t : Int)
    (h1 : 1 ≤ t) (h2 : t ≤ d) :
    ∀ fuel : Nat, d ≤ (fuel : Int) →
      ∃ k, walkParent ar t (some j) fuel = .found k ∧ ChainD ar k t := by
  induction h with
  | root i f hf hd hp =>
    intro fuel hfuel
    have ht : t = 1 := by omega
    match fuel, hfuel with
    | 0, hfuel => exact absurd hfuel (by omega)
    | m + 1, _ =>
      refine ⟨i, ?_, ?_⟩
      · unfold walkParent
        simp only [hf]
        rw [hd, if_pos ht.symm]
      · exact ht ▸ ChainD.root i f hf hd hp
  | step i j f hf hp hj hc hd ih =>
    intro fuel hfuel
    match fuel, hfuel with
    | 0, hfuel => exact absurd hfuel (by omega)
    | m + 1, hfuel =>
      by_cases hteq : f.depth = t
      · refine ⟨i, ?_, ?_⟩
        · unfold walkParent
          simp only [hf]
          rw [if_pos hteq]
        · exact hteq ▸ ChainD.step i j f hf hp hj hc hd
      · have h2' : t ≤ f.depth - 1 := by
          rcases lt_or_eq_of_le h2 with hlt | heq
          · omega
          · exact absurd heq.symm hteq
        obtain ⟨k, hk, hck⟩ := ih h2' m (by omega)
        refine ⟨k, ?_, hck⟩
        unfold walkParent
        simp only [hf]
        rw [if_neg hteq, hp]
        exact hk

/-- C10.  TimeProfileToPprof never mutates its input.  The converter is
embedded with the input profile carried inside the converter state
(mirroring the Go struct's deepCopy pointer, through which any mutation
of a Process, Thread or Frame would have to happen), and the final
state's profile is the input, unchanged in every field. -/
theorem C10_converter_preserves_input (tp : TimeProfile) (exP exT incIds : Bool)
    (ann : List (Nat × List Char)) :
    (timeProfileToPprof tp exP exT incIds ann).2.2.2.deepCopy = tp := by
  unfold timeProfileToPprof convertToPprof
  simp [findSamplesProcs_deepCopy, newPprofConverter]

/-! ## C3: the sample-parser find-parent walk is safe -/

theorem parseCallLine_shape {cs : List Char} {f : FrameData}
    (h : parseCallLine cs = .ok f) :
    f.parent = none ∧ f.children = [] ∧ 0 ≤ f.depth := by
  unfold parseCallLine at h
  cases hm : findCallMatch cs with
  | none =>
    simp only [hm] at h
    exact POut.noConfusion h
  | some m =>
    simp only [hm] at h
    cases hi : parseInt64 m.hits with
    | none =>
      simp only [hi] at h
      exact POut.noConfusion h
    | some hits =>
      simp only [hi, POut.ok.injEq] at h
      subst h
      exact ⟨rfl, rfl, Int.natCast_nonneg _⟩

theorem parseCallLine_no_crash (cs : List Char) (c : Crash) :
    parseCallLine cs ≠ .crash c := by
  unfold parseCallLine
  cases hm : findCallMatch cs with
  | none => simp
  | some m => cases hi : parseInt64 m.hits <;> simp [hi]

theorem attachTo_ne_die (s : SState) (p : Nat) (cf : FrameData) (rate : Int) (c : Crash) :
    attachTo s p cf rate ≠ .die c := by
  simp [attachTo]

/-- Attaching the current frame below the head of a wellformed chain
keeps the lastFrame invariant. -/
theorem attachTo_lastOK {s : SState} {p : Nat} {cf : FrameData} (rate : Int)
    (hchain : ChainD s.ar p (cf.depth - 1)) (hd : 2 ≤ cf.depth) :
    ∀ s', attachTo s p cf rate = .cont s' → LastInv s' := by
  intro s' hs'
  obtain ⟨fp, hfp, hfpd⟩ := chainD_aGet hchain
  have hplt : p < s.ar.length := aGet_lt hfp
  simp only [attachTo, BodyStep.cont.injEq] at hs'
  subst hs'
  intro lf hlf
  simp only at hlf
  injection hlf with hlf
  subst hlf
  right
  have h1 : aGet (s.ar ++ [{ cf with parent := some p }]) s.ar.length =
      some { cf with parent := some p } := aGet_append_self ..
  have h2 : aGet (addChild (s.ar ++ [{ cf with parent := some p }]) p s.ar.length)
      s.ar.length = some { cf with parent := some p } := by
    rw [aGet_addChild_ne _ _ _ (Nat.ne_of_gt hplt)]
    exact h1
  have h3 := aGet_scale_self rate h2
  have hsl : SameLinks s.ar
      (scaleWeight (addChild (s.ar ++ [{ cf with parent := some p }]) p s.ar.length)
        s.ar.length rate) :=
    sameLinks_trans (sameLinks_trans (sameLinks_append _ _) (sameLinks_addChild _ _ _))
      (sameLinks_scale _ _ _)
  exact ⟨cf.depth, ChainD.step s.ar.length p
    { parent := some p, children := cf.children,
      selfWeightNs := cf.selfWeightNs * rate, symbolName := cf.symbolName,
      depth := cf.depth } h3 rfl hplt (chainD_mono hsl hchain) hd⟩

/-- Chain inversion at depth at least 2: the head has an attached parent
one level up. -/
theorem chainD_parent {ar : Arena} {i : Nat} {d : Int} (h : ChainD ar i d) {f : FrameData}
    (hf : aGet ar i = some f) (hd : 2 ≤ f.depth) :
    ∃ j, f.parent = some j ∧ j < i ∧ ChainD ar j (f.depth - 1) := by
  cases h with
  | root _ g hg hgd hgp =>
    rw [hf] at hg
    injection hg with hg
    subst hg
    exact absurd hgd (by omega)
  | step _ j g hg hgp hj hcj hgd2 =>
    rw [hf] at hg
    injection hg with hg
    subst hg
    exact ⟨j, hgp, hj, hcj⟩

/-- One step of the call-graph loop from a state satisfying the
lastFrame invariant never dies on the find-parent walk and preserves
the invariant. -/
theorem sampleBodyStep_safe (rate : Int) (s : SState) (l : List Char) (hInv : LastInv s) :
    (sampleBodyStep rate s l ≠ .die .walkNilParent ∧
     sampleBodyStep rate s l ≠ .die .walkNoFuel) ∧
    (∀ s', sampleBodyStep rate s l = .cont s' → LastInv s') := by
  by_cases hblank : goTrim l = []
  · have hstep : sampleBodyStep rate s l = .stop s := by
      simp only [sampleBodyStep]
      rw [if_pos hblank]
    rw [hstep]
    exact ⟨⟨by simp, by simp⟩, fun s' h => absurd h (by simp)⟩
  · cases hc : parseCallLine (goTrim l) with
    | err e =>
      have hstep : sampleBodyStep rate s l = .fail e := by
        simp only [sampleBodyStep]
        rw [if_neg hblank]
        simp only [hc]
      rw [hstep]
      exact ⟨⟨by simp, by simp⟩, fun s' h => absurd h (by simp)⟩
    | crash c => exact absurd hc (parseCallLine_no_crash _ _)
    | ok cf =>
      obtain ⟨hpar, hch, hd0⟩ := parseCallLine_shape hc
      by_cases hdep0 : cf.depth = 0
      · have hstep : sampleBodyStep rate s l =
            .cont ⟨scaleWeight (s.ar ++ [cf]) s.ar.length rate,
                   s.threads ++ [⟨cf.symbolName, 0, []⟩], some s.threads.length,
                   some s.ar.length⟩ := by
          simp only [sampleBodyStep]
          rw [if_neg hblank]
          simp only [hc]
          rw [if_pos hdep0]
        rw [hstep]
        refine ⟨⟨by simp, by simp⟩, ?_⟩
        intro s' h
        injection h with h
        subst h
        intro lf hlf
        simp only at hlf
        injection hlf with hlf
        subst hlf
        exact Or.inl ⟨{ cf with selfWeightNs := cf.selfWeightNs * rate },
          aGet_scale_self rate (aGet_append_self s.ar cf), hdep0⟩
      · by_cases hdep1 : cf.depth = 1
        · cases hct : s.curThread with
          | none =>
            have hstep : sampleBodyStep rate s l = .die .nilThread := by
              simp only [sampleBodyStep]
              rw [if_neg hblank]
              simp only [hc]
              rw [if_neg hdep0, if_pos hdep1]
              simp only [hct]
            rw [hstep]
            exact ⟨⟨by simp, by simp⟩, fun s' h => absurd h (by simp)⟩
          | some ct =>
            have hstep : sampleBodyStep rate s l =
                .cont ⟨scaleWeight (s.ar ++ [cf]) s.ar.length rate,
                       appendRoot s.threads ct s.ar.length, s.curThread,
                       some s.ar.length⟩ := by
              simp only [sampleBodyStep]
              rw [if_neg hblank]
              simp only [hc]
              rw [if_neg hdep0, if_pos hdep1]
              simp only [hct]
            rw [hstep]
            refine ⟨⟨by simp, by simp⟩, ?_⟩
            intro s' h
            injection h with h
            subst h
            intro lf hlf
            simp only at hlf
            injection hlf with hlf
            subst hlf
            exact Or.inr ⟨1, ChainD.root s.ar.length
              { cf with selfWeightNs := cf.selfWeightNs * rate }
              (aGet_scale_self rate (aGet_append_self s.ar cf)) hdep1 hpar⟩
        · have hd2 : 2 ≤ cf.depth := by omega
          cases hlf' : s.lastFrame with
          | none =>
            have hstep : sampleBodyStep rate s l = .die .nilLastFrame := by
              simp only [sampleBodyStep]
              rw [if_neg hblank]
              simp only [hc]
              rw [if_neg hdep0, if_neg hdep1]
              simp only [hlf']
            rw [hstep]
            exact ⟨⟨by simp, by simp⟩, fun s' h => absurd h (by simp)⟩
          | some lf =>
            cases hlfd : aGet s.ar lf with
            | none =>
              have hstep : sampleBodyStep rate s l = .die .badIndex := by
                simp only [sampleBodyStep]
                rw [if_neg hblank]
                simp only [hc]
                rw [if_neg hdep0, if_neg hdep1]
                simp only [hlf', hlfd]
              rw [hstep]
              exact ⟨⟨by simp, by simp⟩, fun s' h => absurd h (by simp)⟩
            | some lfd =>
              have hlast := hInv lf hlf'
              by_cases hlt : lfd.depth < cf.depth
              · by_cases hdiff : cf.depth - lfd.depth ≠ 1
                · have hstep : sampleBodyStep rate s l = .fail .skippedDepth := by
                    simp only [sampleBodyStep]
                    rw [if_neg hblank]
                    simp only [hc]
                    rw [if_neg hdep0, if_neg hdep1]
                    simp only [hlf', hlfd]
                    rw [if_pos hlt, if_pos hdiff]
                  rw [hstep]
                  exact ⟨⟨by simp, by simp⟩, fun s' h => absurd h (by simp)⟩
                · have heq : lfd.depth = cf.depth - 1 := by omega
                  have hchain : ChainD s.ar lf (cf.depth - 1) := by
                    rcases hlast with ⟨g, hg, hg0⟩ | ⟨d, hchain⟩
                    · rw [hlfd] at hg
                      injection hg with hg
                      subst hg
                      exact absurd hg0 (by omega)
                    · obtain ⟨g, hg, hgd⟩ := chainD_aGet hchain
                      rw [hlfd] at hg
                      injection hg with hg
                      subst hg
                      have hdeq : d = cf.depth - 1 := by omega
                      rw [hdeq] at hchain
                      exact hchain
                  have hstep : sampleBodyStep rate s l = attachTo s lf cf rate := by
                    simp only [sampleBodyStep]
                    rw [if_neg hblank]
                    simp only [hc]
                    rw [if_neg hdep0, if_neg hdep1]
                    simp only [hlf', hlfd]
                    rw [if_pos hlt, if_neg hdiff]
                  rw [hstep]
                  exact ⟨⟨attachTo_ne_die _ _ _ _ _, attachTo_ne_die _ _ _ _ _⟩,
                    attachTo_lastOK rate hchain hd2⟩
              · have hge : cf.depth ≤ lfd.depth := by omega
                have hchain : ChainD s.ar lf lfd.depth := by
                  rcases hlast with ⟨g, hg, hg0⟩ | ⟨d, hchain⟩
                  · rw [hlfd] at hg
                    injection hg with hg
                    subst hg
                    exact absurd hg0 (by omega)
                  · obtain ⟨g, hg, hgd⟩ := chainD_aGet hchain
                    rw [hlfd] at hg
                    injection hg with hg
                    subst hg
                    rw [← hgd] at hchain
                    exact hchain
                obtain ⟨j, hpj, hjlt, hcj⟩ := chainD_parent hchain hlfd (by omega)
                obtain ⟨k, hk, hck⟩ := walk_finds hcj (cf.depth - 1) (by omega) (by omega)
                  (s.ar.length + 1) (by
                    have h1 := chainD_le hcj
                    have h2 : lf < s.ar.length := aGet_lt hlfd
                    omega)
                have hstep : sampleBodyStep rate s l = attachTo s k cf rate := by
                  simp only [sampleBodyStep]
                  rw [if_neg hblank]
                  simp only [hc]
                  rw [if_neg hdep0, if_neg hdep1]
                  simp only [hlf', hlfd]
                  rw [if_neg hlt, hpj]
                  simp only [hk]
                rw [hstep]
                exact ⟨⟨attachTo_ne_die _ _ _ _ _, attachTo_ne_die _ _ _ _ _⟩,
                  attachTo_lastOK rate hck hd2⟩

/-- The whole call-graph loop never dies on the find-parent walk. -/
theorem sampleBodyRun_safe (rate : Int) :
    ∀ (lines : List (List Char)) (s : SState), LastInv s →
      sampleBodyRun rate s lines ≠ .die .walkNilParent ∧
      sampleBodyRun rate s lines ≠ .die .walkNoFuel := by
  intro lines
  induction lines with
  | nil =>
    intro s _
    unfold sampleBodyRun
    exact ⟨by simp, by simp⟩
  | cons l rest ih =>
    intro s hInv
    obtain ⟨⟨hn1, hn2⟩, hcont⟩ := sampleBodyStep_safe rate s l hInv
    unfold sampleBodyRun
    cases hstep : sampleBodyStep rate s l with
    | cont s' => exact ih s' (hcont s' hstep)
    | stop s' => exact ⟨by simp, by simp⟩
    | fail e => exact ⟨by simp, by simp⟩
    | die c =>
      rw [hstep] at hn1 hn2
      exact ⟨hn1, hn2⟩

theorem reportVersionCheck_no_crash (cs : List Char) (c : Crash) :
    reportVersionCheck cs ≠ .crash c := by
  simp only [reportVersionCheck]
  repeat' split
  all_goals simp

theorem parseProcessLine_no_crash (cs : List Char) (c : Crash) :
    parseProcessLine cs ≠ .crash c := by
  simp only [parseProcessLine]
  repeat' split
  all_goals simp

theorem sampleHeader_no_crash :
    ∀ (lines : List (List Char)) (procs : List (List Char × Nat)) (rate : Int) (c : Crash),
      sampleHeader procs rate lines ≠ .crash c := by
  intro lines
  induction lines with
  | nil =>
    intro procs rate c
    unfold sampleHeader
    simp
  | cons l rest ih =>
    intro procs rate c
    unfold sampleHeader
    cases hrv : reportVersionCheck (goTrim l) with
    | err e => simp [hrv]
    | crash c2 => exact absurd hrv (reportVersionCheck_no_crash _ _)
    | ok u =>
      simp only [hrv]
      split
      · split
        · simp
        · cases hpp : parseProcessLine (goTrim l) with
          | err e => simp [hpp]
          | crash c2 => exact absurd hpp (parseProcessLine_no_crash _ _)
          | ok pr =>
            simp only [hpp]
            split
            · simp
            · exact ih _ _ _
      · split
        · simp
        · exact ih _ _ _

/-- C3.  Amended: for the sample parser the claim holds as stated — for
every input the find-parent walk of ParseSample only ever follows
defined parent references (it never dereferences a nil parent and never
runs out of walk fuel), because lastFrame is always either the
unattached depth-0 thread pseudo-frame or the head of a parent chain
stepping down one depth level at a time to a root.  But the analogous
walk of the deep-copy parser does NOT fail with an error when no frame
of depth-1 exists: on a line whose computed depth is 0 or negative
after a frame line it walks past the root's nil parent and crashes, as
the concrete input dcCrashLines shows. -/
theorem C3_walk_safety_amended :
    (∀ lines : List (List Char),
        sampleParseLines lines ≠ .crash .walkNilParent ∧
        sampleParseLines lines ≠ .crash .walkNoFuel) ∧
      deepCopyParseLines dcCrashLines = .crash .walkNilParent := by
  constructor
  · intro lines
    unfold sampleParseLines
    cases hh : sampleHeader [] 1000000 lines with
    | err e => simp
    | crash c => exact absurd hh (sampleHeader_no_crash _ _ _ _)
    | ok tri =>
      obtain ⟨procs, rate, rest⟩ := tri
      cases procs with
      | nil => exact ⟨by simp, by simp⟩
      | cons pr prest =>
        obtain ⟨pname, ppid⟩ := pr
        have hinit : LastInv ⟨[], [], none, none⟩ := by
          intro lf hlf
          simp at hlf
        obtain ⟨hr1, hr2⟩ := sampleBodyRun_safe rate rest ⟨[], [], none, none⟩ hinit
        cases hrun : sampleBodyRun rate ⟨[], [], none, none⟩ rest with
        | fail e =>
          simp only [hrun]
          exact ⟨by simp, by simp⟩
        | die c =>
          rw [hrun] at hr1 hr2
          simp only [hrun]
          constructor
          · intro hcr
            simp only [POut.crash.injEq] at hcr
            exact hr1 (by rw [hcr])
          · intro hcr
            simp only [POut.crash.injEq] at hcr
            exact hr2 (by rw [hcr])
        | cont s =>
          simp only [hrun]
          rcases hfix : fixThreads s.ar s.threads with ⟨ar1, fr⟩
          cases fr <;> simp [hfix]
        | stop s =>
          simp only [hrun]
          rcases hfix : fixThreads s.ar s.threads with ⟨ar1, fr⟩
          cases fr <;> simp [hfix]
  · rfl

/-! ## C4: cross-thread isolation machinery -/

theorem inTree_lt {ar : Arena} (hcv : ChildrenValid ar) {r : Nat} (hr : r < ar.length) :
    ∀ {i : Nat}, InTree ar r i → i < ar.length := by
  intro i h
  induction h with
  | refl => exact hr
  | child a f b hta hf hb ih => exact hcv a f hf b hb

theorem inTree_trans {ar : Arena} {r i j : Nat} (h1 : InTree ar r i) (h2 : InTree ar i j) :
    InTree ar r j := by
  induction h2 with
  | refl => exact h1
  | child a f b hta hf hb ih => exact InTree.child a f b ih hf hb

/-- With valid backlinks, an ancestor's subtree contains the start of
the parent walk. -/
theorem anc_to_inTree {ar : Arena} (hb : BacklinkOK ar) {i k : Nat} (h : AncOf ar i k) :
    InTree ar k i := by
  induction h with
  | refl i => exact InTree.refl
  | step i f j k hf hp ha ih =>
    obtain ⟨g, hg, hmem⟩ := hb i f j hf hp
    exact InTree.child j g i ih hg hmem

/-- A successful find-parent walk lands on a parent-chain ancestor of
its start. -/
theorem walk_ancOf {ar : Arena} {t : Int} :
    ∀ (fuel : Nat) (i k : Nat), walkParent ar t (some i) fuel = .found k → AncOf ar i k := by
  intro fuel
  induction fuel with
  | zero =>
    intro i k h
    exact WalkRes.noConfusion h
  | succ m ih =>
    intro i k h
    unfold walkParent at h
    cases hf : aGet ar i with
    | none =>
      simp only [hf] at h
      exact WalkRes.noConfusion h
    | some f =>
      simp only [hf] at h
      by_cases hd : f.depth = t
      · rw [if_pos hd] at h
        injection h with h
        subst h
        exact AncOf.refl i
      · rw [if_neg hd] at h
        cases hp : f.parent with
        | none =>
          rw [hp] at h
          simp only [walkParent] at h
          exact WalkRes.noConfusion h
        | some j =>
          rw [hp] at h
          exact AncOf.step i f j k hf hp (ih j k h)

/-- If every node of the subtree of r keeps its contents, the subtree
relation below r is unchanged. -/
theorem inTree_preserved {ar ar' : Arena} {r : Nat}
    (hsame : ∀ i, InTree ar r i → aGet ar' i = aGet ar i) :
    ∀ i, InTree ar' r i ↔ InTree ar r i := by
  intro i
  constructor
  · intro h
    induction h with
    | refl => exact InTree.refl
    | child a f b hta hf hb ih =>
      have ha : aGet ar a = some f := by rw [← hsame a ih]; exact hf
      exact InTree.child a f b ih ha hb
  · intro h
    induction h with
    | refl => exact InTree.refl
    | child a f b hta hf hb ih =>
      have ha : aGet ar' a = some f := by rw [hsame a hta]; exact hf
      exact InTree.child a f b ih ha hb

theorem appendRoot_get_ne (ts : List PThread) (ct i : Nat) {t : Nat} (h : t ≠ ct) :
    (appendRoot ts ct i).get? t = ts.get? t := by
  unfold appendRoot
  split
  · rfl
  · exact List.get?_set_ne _ _ (Ne.symm h)

theorem appendRoot_get_self {ts : List PThread} {ct : Nat} {th : PThread} (i : Nat)
    (h : ts.get? ct = some th) :
    (appendRoot ts ct i).get? ct = some { th with frames := th.frames ++ [i] } := by
  unfold appendRoot
  rw [h]
  exact List.get?_set_eq_of_lt _ (List.get?_eq_some.mp h |>.1)

theorem dcParseLine_shape {cs : List Char} {f : FrameData} (h : dcParseLine cs = .ok f) :
    f.parent = none ∧ f.children = [] := by
  simp only [dcParseLine] at h
  split at h
  · exact POut.noConfusion h
  · split at h
    · exact POut.noConfusion h
    · exact POut.noConfusion h
    · injection h with h
      subst h
      exact ⟨rfl, rfl⟩

theorem newThreadFromFrame_frames {f : FrameData} {th : PThread}
    (h : newThreadFromFrame f = .ok th) : th.frames = [] := by
  unfold newThreadFromFrame at h
  split at h
  · exact POut.noConfusion h
  · split at h <;> (injection h with h; subst h; rfl)

theorem newProcessFromFrame_threads {f : FrameData} {p : PProcess}
    (h : newProcessFromFrame f = .ok p) : p.threads = [] := by
  unfold newProcessFromFrame at h
  split at h
  · exact POut.noConfusion h
  · split at h <;> (injection h with h; subst h; rfl)

theorem walk_found_get {ar : Arena} {t : Int} :
    ∀ (fuel : Nat) (o : Option Nat) (k : Nat), walkParent ar t o fuel = .found k →
      ∃ g, aGet ar k = some g ∧ g.depth = t := by
  intro fuel
  induction fuel with
  | zero =>
    intro o k h
    cases o with
    | none =>
      simp only [walkParent] at h
      exact WalkRes.noConfusion h
    | some i => exact WalkRes.noConfusion h
  | succ m ih =>
    intro o k h
    cases o with
    | none =>
      simp only [walkParent] at h
      exact WalkRes.noConfusion h
    | some i =>
      unfold walkParent at h
      cases hf : aGet ar i with
      | none =>
        simp only [hf] at h
        exact WalkRes.noConfusion h
      | some f =>
        simp only [hf] at h
        by_cases hd : f.depth = t
        · rw [if_pos hd] at h
          injection h with h
          subst h
          exact ⟨f, hf, hd⟩
        · rw [if_neg hd] at h
          exact ih f.parent k h

/-- Old entries after the new-thread arena growth (append one frame,
multiply its weight). -/
theorem aGet_grow0 (ar : Arena) (cf : FrameData) (rate : Int) {i : Nat} (h : i < ar.length) :
    aGet (scaleWeight (ar ++ [cf]) ar.length rate) i = aGet ar i := by
  rw [aGet_scale_ne _ _ _ (Nat.ne_of_lt h), aGet_append_lt _ h]

theorem grow0_length (ar : Arena) (cf : FrameData) (rate : Int) :
    (scaleWeight (ar ++ [cf]) ar.length rate).length = ar.length + 1 := by
  rw [scaleWeight_length, List.length_append]
  rfl

theorem childrenValid_grow0 {ar : Arena} (hcv : ChildrenValid ar) {cf : FrameData}
    (hch : cf.children = []) (rate : Int) :
    ChildrenValid (scaleWeight (ar ++ [cf]) ar.length rate) := by
  intro i f hf c hc
  have hilt : i < ar.length + 1 := by
    have := aGet_lt hf
    rwa [grow0_length] at this
  rw [grow0_length]
  rcases Nat.lt_or_ge i ar.length with hi | hi
  · rw [aGet_grow0 ar cf rate hi] at hf
    have := hcv i f hf c hc
    omega
  · have hieq : i = ar.length := by omega
    subst hieq
    rw [aGet_scale_self rate (aGet_append_self ar cf)] at hf
    injection hf with hf
    subst hf
    have hc' : c ∈ cf.children := hc
    rw [hch] at hc'
    exact absurd hc' (List.not_mem_nil c)

theorem backlinkOK_grow0 {ar : Arena} (hb : BacklinkOK ar) {cf : FrameData}
    (hpar : cf.parent = none) (rate : Int) :
    BacklinkOK (scaleWeight (ar ++ [cf]) ar.length rate) := by
  intro i f j hf hp
  have hilt : i < ar.length + 1 := by
    have := aGet_lt hf
    rwa [grow0_length] at this
  rcases Nat.lt_or_ge i ar.length with hi | hi
  · rw [aGet_grow0 ar cf rate hi] at hf
    obtain ⟨g, hg, hmem⟩ := hb i f j hf hp
    have hjlt : j < ar.length := aGet_lt hg
    refine ⟨g, ?_, hmem⟩
    rw [aGet_grow0 ar cf rate hjlt]
    exact hg
  · have hieq : i = ar.length := by omega
    subst hieq
    rw [aGet_scale_self rate (aGet_append_self ar cf)] at hf
    injection hf with hf
    subst hf
    have hp' : cf.parent = some j := hp
    rw [hpar] at hp'
    exact Option.noConfusion hp'

/-- Old entries away from the attach point after an attach step. -/
theorem aGet_attach_old (ar : Arena) (cfp : FrameData) (p : Nat) (rate : Int) {i : Nat}
    (h : i < ar.length) (hne : i ≠ p) :
    aGet (scaleWeight (addChild (ar ++ [cfp]) p ar.length) ar.length rate) i = aGet ar i := by
  rw [aGet_scale_ne _ _ _ (Nat.ne_of_lt h), aGet_addChild_ne _ _ _ hne, aGet_append_lt _ h]

theorem aGet_attach_p {ar : Arena} {p : Nat} {fp : FrameData} (cfp : FrameData) (rate : Int)
    (h : aGet ar p = some fp) :
    aGet (scaleWeight (addChild (ar ++ [cfp]) p ar.length) ar.length rate) p =
      some { fp with children := fp.children ++ [ar.length] } := by
  have hplt : p < ar.length := aGet_lt h
  rw [aGet_scale_ne _ _ _ (Nat.ne_of_lt hplt)]
  rw [aGet_addChild_self _ (by rw [aGet_append_lt _ hplt]; exact h)]

theorem aGet_attach_new (ar : Arena) (cfp : FrameData) {p : Nat} (rate : Int)
    (hp : p < ar.length) :
    aGet (scaleWeight (addChild (ar ++ [cfp]) p ar.length) ar.length rate) ar.length =
      some { cfp with selfWeightNs := cfp.selfWeightNs * rate } := by
  have h1 : aGet (addChild (ar ++ [cfp]) p ar.length) ar.length = some cfp := by
    rw [aGet_addChild_ne _ _ _ (Nat.ne_of_gt hp)]
    exact aGet_append_self ..
  exact aGet_scale_self rate h1

theorem attach_length (ar : Arena) (cfp : FrameData) (p : Nat) (rate : Int) :
    (scaleWeight (addChild (ar ++ [cfp]) p ar.length) ar.length rate).length =
      ar.length + 1 := by
  rw [scaleWeight_length, addChild_length, List.length_append]
  rfl

theorem childrenValid_attach {ar : Arena} (hcv : ChildrenValid ar) {cfp : FrameData}
    (hch : cfp.children = []) {p : Nat} {fp : FrameData} (rate : Int)
    (hfp : aGet ar p = some fp) :
    ChildrenValid (scaleWeight (addChild (ar ++ [cfp]) p ar.length) ar.length rate) := by
  intro i f hf c hc
  have hplt : p < ar.length := aGet_lt hfp
  have hilt : i < ar.length + 1 := by
    have := aGet_lt hf
    rwa [attach_length] at this
  rw [attach_length]
  rcases Nat.lt_or_ge i ar.length with hi | hi
  · by_cases hip : i = p
    · subst hip
      rw [aGet_attach_p cfp rate hfp] at hf
      injection hf with hf
      subst hf
      have hc' : c ∈ fp.children ++ [ar.length] := hc
      rcases List.mem_append.mp hc' with hold | hnew
      · have := hcv i fp hfp c hold
        omega
      · have : c = ar.length := List.mem_singleton.mp hnew
        omega
    · rw [aGet_attach_old ar cfp p rate hi hip] at hf
      have := hcv i f hf c hc
      omega
  · have hieq : i = ar.length := by omega
    subst hieq
    rw [aGet_attach_new ar cfp rate hplt] at hf
    injection hf with hf
    subst hf
    have hc' : c ∈ cfp.children := hc
    rw [hch] at hc'
    exact absurd hc' (List.not_mem_nil c)

theorem backlinkOK_attach {ar : Arena} (hb : BacklinkOK ar) {cf : FrameData} {p : Nat}
    {fp : FrameData} (rate : Int) (hfp : aGet ar p = some fp) :
    BacklinkOK (scaleWeight (addChild (ar ++ [{ cf with parent := some p }]) p ar.length)
      ar.length rate) := by
  intro i f j hf hp
  have hplt : p < ar.length := aGet_lt hfp
  have hilt : i < ar.length + 1 := by
    have := aGet_lt hf
    rwa [attach_length] at this
  have htarget : ∀ g, aGet ar j = some g → i ∈ g.children →
      ∃ g', aGet (scaleWeight (addChild (ar ++ [{ cf with parent := some p }]) p ar.length)
        ar.length rate) j = some g' ∧ i ∈ g'.children := by
    intro g hg hmem
    have hjlt : j < ar.length := aGet_lt hg
    by_cases hjp : j = p
    · subst hjp
      refine ⟨{ fp with children := fp.children ++ [ar.length] },
        aGet_attach_p _ rate hfp, ?_⟩
      have hgfp : g = fp := by
        rw [hfp] at hg
        injection hg with hg
        exact hg.symm
      subst hgfp
      exact List.mem_append_left _ hmem
    · refine ⟨g, ?_, hmem⟩
      rw [aGet_attach_old ar _ p rate hjlt hjp]
      exact hg
  rcases Nat.lt_or_ge i ar.length with hi | hi
  · by_cases hip : i = p
    · subst hip
      rw [aGet_attach_p _ rate hfp] at hf
      injection hf with hf
      subst hf
      have hp' : fp.parent = some j := hp
      obtain ⟨g, hg, hmem⟩ := hb i fp j hfp hp'
      exact htarget g hg hmem
    · rw [aGet_attach_old ar _ p rate hi hip] at hf
      obtain ⟨g, hg, hmem⟩ := hb i f j hf hp
      exact htarget g hg hmem
  · have hieq : i = ar.length := by omega
    subst hieq
    rw [aGet_attach_new ar _ rate hplt] at hf
    injection hf with hf
    subst hf
    have hp' : some p = some j := hp
    injection hp' with hp'
    subst hp'
    refine ⟨{ fp with children := fp.children ++ [ar.length] },
      aGet_attach_p _ rate hfp, ?_⟩
    exact List.mem_append_right _ (List.mem_singleton.mpr rfl)

theorem appendRoot_get_none {ts : List PThread} {ct : Nat} (i : Nat)
    (h : ts.get? ct = none) : appendRoot ts ct i = ts := by
  unfold appendRoot
  rw [h]

/-- An attach step (the new frame hangs below an ancestor of lastFrame)
keeps the tree-shape invariant and leaves every non-current thread's
subtree untouched. -/
theorem attach_preserve {s : SState} {p lf : Nat} {fp : FrameData} {cf : FrameData} (rate : Int)
    (hT : TInv s)
    (hlf' : s.lastFrame = some lf)
    (hfp : aGet s.ar p = some fp)
    (hanc : AncOf s.ar lf p)
    (hch : cf.children = []) :
    ∀ s', attachTo s p cf rate = .cont s' →
      TInv s' ∧
      (∀ t th, s.threads.get? t = some th → s.curThread ≠ some t →
        s'.threads.get? t = some th ∧
        (∀ r ∈ th.frames, ∀ i, InTree s.ar r i → aGet s'.ar i = aGet s.ar i)) := by
  intro s' hs'
  obtain ⟨hRV, hCV, hBL, hNO⟩ := hT
  simp only [attachTo, BodyStep.cont.injEq] at hs'
  subst hs'
  have hplt : p < s.ar.length := aGet_lt hfp
  have hpnot : ∀ t th, s.threads.get? t = some th → s.curThread ≠ some t →
      ∀ r ∈ th.frames, ¬ InTree s.ar r p := by
    intro t th ht hcu r hr hin
    exact hNO lf hlf' t th ht hcu r hr (inTree_trans hin (anc_to_inTree hBL hanc))
  have hsame : ∀ t th, s.threads.get? t = some th → s.curThread ≠ some t →
      ∀ r ∈ th.frames, ∀ i, InTree s.ar r i →
        aGet (scaleWeight (addChild (s.ar ++ [{ cf with parent := some p }]) p s.ar.length)
          s.ar.length rate) i = aGet s.ar i := by
    intro t th ht hcu r hr i hi
    have hilt : i < s.ar.length := inTree_lt hCV (hRV t th ht r hr) hi
    have hip : i ≠ p := fun he => hpnot t th ht hcu r hr (he ▸ hi)
    exact aGet_attach_old _ _ _ _ hilt hip
  have hch' : ({ cf with parent := some p } : FrameData).children = [] := hch
  refine ⟨⟨?_, childrenValid_attach hCV hch' rate hfp, backlinkOK_attach hBL rate hfp, ?_⟩, ?_⟩
  · intro t th ht r hr
    rw [attach_length]
    have := hRV t th ht r hr
    omega
  · intro l0 hl0 t th ht hcu r hr
    simp only at hl0
    injection hl0 with hl0
    subst hl0
    intro hin
    have hin' := (inTree_preserved (hsame t th ht hcu r hr) _).mp hin
    have := inTree_lt hCV (hRV t th ht r hr) hin'
    omega
  · intro t th ht hcu
    exact ⟨ht, fun r hr i hi => hsame t th ht hcu r hr i hi⟩

/-- One cont step of the call-graph loop keeps the tree-shape invariant
and leaves every non-current thread (its entry and every frame of every
subtree below its roots) unchanged. -/
theorem sampleBodyStep_preserve (rate : Int) (s : SState) (l : List Char) (hT : TInv s) :
    ∀ s', sampleBodyStep rate s l = .cont s' →
      TInv s' ∧
      (∀ t th, s.threads.get? t = some th → s.curThread ≠ some t →
        s'.threads.get? t = some th ∧
        (∀ r ∈ th.frames, ∀ i, InTree s.ar r i → aGet s'.ar i = aGet s.ar i)) := by
  intro s' hs'
  by_cases hblank : goTrim l = []
  · have hstep : sampleBodyStep rate s l = .stop s := by
      simp only [sampleBodyStep]
      rw [if_pos hblank]
    rw [hstep] at hs'
    exact BodyStep.noConfusion hs'
  · cases hc : parseCallLine (goTrim l) with
    | err e =>
      have hstep : sampleBodyStep rate s l = .fail e := by
        simp only [sampleBodyStep]
        rw [if_neg hblank]
        simp only [hc]
      rw [hstep] at hs'
      exact BodyStep.noConfusion hs'
    | crash c => exact absurd hc (parseCallLine_no_crash _ _)
    | ok cf =>
      obtain ⟨hpar, hch, hd0⟩ := parseCallLine_shape hc
      by_cases hdep0 : cf.depth = 0
      · have hstep : sampleBodyStep rate s l =
            .cont ⟨scaleWeight (s.ar ++ [cf]) s.ar.length rate,
                   s.threads ++ [⟨cf.symbolName, 0, []⟩], some s.threads.length,
                   some s.ar.length⟩ := by
          simp only [sampleBodyStep]
          rw [if_neg hblank]
          simp only [hc]
          rw [if_pos hdep0]
        rw [hstep] at hs'
        injection hs' with hs'
        subst hs'
        have hsameAll : ∀ r, r < s.ar.length → ∀ i, InTree s.ar r i →
            aGet (scaleWeight (s.ar ++ [cf]) s.ar.length rate) i = aGet s.ar i :=
          fun r hr i hi => aGet_grow0 _ _ _ (inTree_lt hT.2.1 hr hi)
        have hfresh : ∀ r, r < s.ar.length →
            ¬ InTree (scaleWeight (s.ar ++ [cf]) s.ar.length rate) r s.ar.length := by
          intro r hr hin
          have := inTree_lt hT.2.1 hr ((inTree_preserved (hsameAll r hr) _).mp hin)
          omega
        refine ⟨⟨?_, childrenValid_grow0 hT.2.1 hch rate,
          backlinkOK_grow0 hT.2.2.1 hpar rate, ?_⟩, ?_⟩
        · intro t th ht r hr
          rw [grow0_length]
          have htl : t < s.threads.length + 1 := by
            have := (List.get?_eq_some.mp ht).1
            simpa using this
          rcases Nat.lt_or_ge t s.threads.length with hlt | hge
          · rw [List.get?_append hlt] at ht
            have := hT.1 t th ht r hr
            omega
          · have hteq : t = s.threads.length := by omega
            subst hteq
            rw [List.get?_concat_length] at ht
            injection ht with ht
            subst ht
            exact absurd hr (List.not_mem_nil r)
        · intro l0 hl0 t th ht hcur r hr
          simp only at hl0
          injection hl0 with hl0
          subst hl0
          have hcur' : t ≠ s.threads.length := by
            intro he
            exact hcur (by rw [he])
          have htl : t < s.threads.length := by
            have h1 := (List.get?_eq_some.mp ht).1
            simp at h1
            omega
          rw [List.get?_append htl] at ht
          exact fun hin => hfresh r (hT.1 t th ht r hr) hin
        · intro t th ht hcur
          have htl : t < s.threads.length := (List.get?_eq_some.mp ht).1
          refine ⟨?_, fun r hr i hi => hsameAll r (hT.1 t th ht r hr) i hi⟩
          rw [List.get?_append htl]
          exact ht
      · by_cases hdep1 : cf.depth = 1
        · cases hct : s.curThread with
          | none =>
            have hstep : sampleBodyStep rate s l = .die .nilThread := by
              simp only [sampleBodyStep]
              rw [if_neg hblank]
              simp only [hc]
              rw [if_neg hdep0, if_pos hdep1]
              simp only [hct]
            rw [hstep] at hs'
            exact BodyStep.noConfusion hs'
          | some ct =>
            have hstep : sampleBodyStep rate s l =
                .cont ⟨scaleWeight (s.ar ++ [cf]) s.ar.length rate,
                       appendRoot s.threads ct s.ar.length, s.curThread,
                       some s.ar.length⟩ := by
              simp only [sampleBodyStep]
              rw [if_neg hblank]
              simp only [hc]
              rw [if_neg hdep0, if_pos hdep1]
              simp only [hct]
            rw [hstep] at hs'
            injection hs' with hs'
            subst hs'
            have hsameAll : ∀ r, r < s.ar.length → ∀ i, InTree s.ar r i →
                aGet (scaleWeight (s.ar ++ [cf]) s.ar.length rate) i = aGet s.ar i :=
              fun r hr i hi => aGet_grow0 _ _ _ (inTree_lt hT.2.1 hr hi)
            have hfresh : ∀ r, r < s.ar.length →
                ¬ InTree (scaleWeight (s.ar ++ [cf]) s.ar.length rate) r s.ar.length := by
              intro r hr hin
              have := inTree_lt hT.2.1 hr ((inTree_preserved (hsameAll r hr) _).mp hin)
              omega
            refine ⟨⟨?_, childrenValid_grow0 hT.2.1 hch rate,
              backlinkOK_grow0 hT.2.2.1 hpar rate, ?_⟩, ?_⟩
            · intro t th ht r hr
              rw [grow0_length]
              by_cases htc : t = ct
              · subst htc
                cases hc0 : s.threads.get? t with
                | none =>
                  rw [appendRoot_get_none _ hc0] at ht
                  rw [hc0] at ht
                  exact Option.noConfusion ht
                | some th0 =>
                  rw [appendRoot_get_self _ hc0] at ht
                  injection ht with ht
                  subst ht
                  rcases List.mem_append.mp hr with hold | hnew
                  · have := hT.1 t th0 hc0 r hold
                    omega
                  · have : r = s.ar.length := List.mem_singleton.mp hnew
                    omega
              · rw [appendRoot_get_ne _ _ _ htc] at ht
                have := hT.1 t th ht r hr
                omega
            · intro l0 hl0 t th ht hcur r hr
              simp only at hl0
              injection hl0 with hl0
              subst hl0
              have htc : t ≠ ct := by
                intro he
                refine hcur ?_
                show s.curThread = some t
                rw [hct, he]
              rw [appendRoot_get_ne _ _ _ htc] at ht
              exact fun hin => hfresh r (hT.1 t th ht r hr) hin
            · intro t th ht hcur
              have htc : t ≠ ct := by
                intro he
                subst he
                exact hcur rfl
              refine ⟨?_, fun r hr i hi => hsameAll r (hT.1 t th ht r hr) i hi⟩
              rw [appendRoot_get_ne _ _ _ htc]
              exact ht
        · cases hlf' : s.lastFrame with
          | none =>
            have hstep : sampleBodyStep rate s l = .die .nilLastFrame := by
              simp only [sampleBodyStep]
              rw [if_neg hblank]
              simp only [hc]
              rw [if_neg hdep0, if_neg hdep1]
              simp only [hlf']
            rw [hstep] at hs'
            exact BodyStep.noConfusion hs'
          | some lf =>
            cases hlfd : aGet s.ar lf with
            | none =>
              have hstep : sampleBodyStep rate s l = .die .badIndex := by
                simp only [sampleBodyStep]
                rw [if_neg hblank]
                simp only [hc]
                rw [if_neg hdep0, if_neg hdep1]
                simp only [hlf', hlfd]
              rw [hstep] at hs'
              exact BodyStep.noConfusion hs'
            | some lfd =>
              by_cases hlt : lfd.depth < cf.depth
              · by_cases hdiff : cf.depth - lfd.depth ≠ 1
                · have hstep : sampleBodyStep rate s l = .fail .skippedDepth := by
                    simp only [sampleBodyStep]
                    rw [if_neg hblank]
                    simp only [hc]
                    rw [if_neg hdep0, if_neg hdep1]
                    simp only [hlf', hlfd]
                    rw [if_pos hlt, if_pos hdiff]
                  rw [hstep] at hs'
                  exact BodyStep.noConfusion hs'
                · have hstep : sampleBodyStep rate s l = attachTo s lf cf rate := by
                    simp only [sampleBodyStep]
                    rw [if_neg hblank]
                    simp only [hc]
                    rw [if_neg hdep0, if_neg hdep1]
                    simp only [hlf', hlfd]
                    rw [if_pos hlt, if_neg hdiff]
                  rw [hstep] at hs'
                  exact attach_preserve rate hT hlf' hlfd (AncOf.refl lf) hch s' hs'
              · cases hpj : lfd.parent with
                | none =>
                  have hstep : sampleBodyStep rate s l = .die .walkNilParent := by
                    simp only [sampleBodyStep]
                    rw [if_neg hblank]
                    simp only [hc]
                    rw [if_neg hdep0, if_neg hdep1]
                    simp only [hlf', hlfd]
                    rw [if_neg hlt, hpj]
                    simp only [walkParent]
                  rw [hstep] at hs'
                  exact BodyStep.noConfusion hs'
                | some j =>
                  cases hwk : walkParent s.ar (cf.depth - 1) (some j) (s.ar.length + 1) with
                  | found k =>
                    obtain ⟨g, hg, hgd⟩ := walk_found_get _ _ _ hwk
                    have hanc : AncOf s.ar lf k :=
                      AncOf.step lf lfd j k hlfd hpj (walk_ancOf _ _ _ hwk)
                    have hstep : sampleBodyStep rate s l = attachTo s k cf rate := by
                      simp only [sampleBodyStep]
                      rw [if_neg hblank]
                      simp only [hc]
                      rw [if_neg hdep0, if_neg hdep1]
                      simp only [hlf', hlfd]
                      rw [if_neg hlt, hpj]
                      simp only [hwk]
                    rw [hstep] at hs'
                    exact attach_preserve rate hT hlf' hg hanc hch s' hs'
                  | nilParent =>
                    have hstep : sampleBodyStep rate s l = .die .walkNilParent := by
                      simp only [sampleBodyStep]
                      rw [if_neg hblank]
                      simp only [hc]
                      rw [if_neg hdep0, if_neg hdep1]
                      simp only [hlf', hlfd]
                      rw [if_neg hlt, hpj]
                      simp only [hwk]
                    rw [hstep] at hs'
                    exact BodyStep.noConfusion hs'
                  | noFuel =>
                    have hstep : sampleBodyStep rate s l = .die .walkNoFuel := by
                      simp only [sampleBodyStep]
                      rw [if_neg hblank]
                      simp only [hc]
                      rw [if_neg hdep0, if_neg hdep1]
                      simp only [hlf', hlfd]
                      rw [if_neg hlt, hpj]
                      simp only [hwk]
                    rw [hstep] at hs'
                    exact BodyStep.noConfusion hs'
                  | dangling =>
                    have hstep : sampleBodyStep rate s l = .die .badIndex := by
                      simp only [sampleBodyStep]
                      rw [if_neg hblank]
                      simp only [hc]
                      rw [if_neg hdep0, if_neg hdep1]
                      simp only [hlf', hlfd]
                      rw [if_neg hlt, hpj]
                      simp only [hwk]
                    rw [hstep] at hs'
                    exact BodyStep.noConfusion hs'

theorem tInv_init : TInv sInit := by
  refine ⟨?_, ?_, ?_, ?_⟩
  · intro t th ht
    simp [sInit] at ht
  · intro i f hf
    simp [sInit, aGet] at hf
  · intro i f j hf
    simp [sInit, aGet] at hf
  · intro l hl
    simp [sInit] at hl

theorem runSteps_tInv (rate : Int) :
    ∀ (ls : List (List Char)) (s0 s : SState), TInv s0 →
      runSteps rate s0 ls = some s → TInv s := by
  intro ls
  induction ls with
  | nil =>
    intro s0 s h0 hr
    unfold runSteps at hr
    injection hr with hr
    subst hr
    exact h0
  | cons l rest ih =>
    intro s0 s h0 hr
    unfold runSteps at hr
    cases hstep : sampleBodyStep rate s0 l with
    | cont s1 =>
      simp only [hstep] at hr
      exact ih s1 s (sampleBodyStep_preserve rate s0 l h0 s1 hstep).1 hr
    | stop s1 =>
      simp only [hstep] at hr
      exact Option.noConfusion hr
    | fail e =>
      simp only [hstep] at hr
      exact Option.noConfusion hr
    | die c =>
      simp only [hstep] at hr
      exact Option.noConfusion hr

/-! Deep-copy analogues of the arena-growth lemmas (no rate
multiplication). -/

theorem dcgrow_length (ar : Arena) (cf : FrameData) : (ar ++ [cf]).length = ar.length + 1 := by
  rw [List.length_append]
  rfl

theorem childrenValid_append {ar : Arena} (hcv : ChildrenValid ar) {cf : FrameData}
    (hch : cf.children = []) : ChildrenValid (ar ++ [cf]) := by
  intro i f hf c hc
  have hilt : i < ar.length + 1 := by
    have := aGet_lt hf
    rwa [dcgrow_length] at this
  rw [dcgrow_length]
  rcases Nat.lt_or_ge i ar.length with hi | hi
  · rw [aGet_append_lt _ hi] at hf
    have := hcv i f hf c hc
    omega
  · have hieq : i = ar.length := by omega
    subst hieq
    rw [aGet_append_self] at hf
    injection hf with hf
    subst hf
    rw [hch] at hc
    exact absurd hc (List.not_mem_nil c)

theorem backlinkOK_append {ar : Arena} (hb : BacklinkOK ar) {cf : FrameData}
    (hpar : cf.parent = none) : BacklinkOK (ar ++ [cf]) := by
  intro i f j hf hp
  have hilt : i < ar.length + 1 := by
    have := aGet_lt hf
    rwa [dcgrow_length] at this
  rcases Nat.lt_or_ge i ar.length with hi | hi
  · rw [aGet_append_lt _ hi] at hf
    obtain ⟨g, hg, hmem⟩ := hb i f j hf hp
    refine ⟨g, ?_, hmem⟩
    rw [aGet_append_lt _ (aGet_lt hg)]
    exact hg
  · have hieq : i = ar.length := by omega
    subst hieq
    rw [aGet_append_self] at hf
    injection hf with hf
    subst hf
    rw [hpar] at hp
    exact Option.noConfusion hp

theorem aGet_dcattach_old (ar : Arena) (cfp : FrameData) (p : Nat) {i : Nat}
    (h : i < ar.length) (hne : i ≠ p) :
    aGet (addChild (ar ++ [cfp]) p ar.length) i = aGet ar i := by
  rw [aGet_addChild_ne _ _ _ hne, aGet_append_lt _ h]

theorem aGet_dcattach_p {ar : Arena} {p : Nat} {fp : FrameData} (cfp : FrameData)
    (h : aGet ar p = some fp) :
    aGet (addChild (ar ++ [cfp]) p ar.length) p =
      some { fp with children := fp.children ++ [ar.length] } := by
  have hplt : p < ar.length := aGet_lt h
  rw [aGet_addChild_self _ (by rw [aGet_append_lt _ hplt]; exact h)]

theorem aGet_dcattach_new (ar : Arena) (cfp : FrameData) {p : Nat} (hp : p < ar.length) :
    aGet (addChild (ar ++ [cfp]) p ar.length) ar.length = some cfp := by
  rw [aGet_addChild_ne _ _ _ (Nat.ne_of_gt hp)]
  exact aGet_append_self ..

theorem dcattach_length (ar : Arena) (cfp : FrameData) (p : Nat) :
    (addChild (ar ++ [cfp]) p ar.length).length = ar.length + 1 := by
  rw [addChild_length, List.length_append]
  rfl

theorem childrenValid_dcattach {ar : Arena} (hcv : ChildrenValid ar) {cfp : FrameData}
    (hch : cfp.children = []) {p : Nat} {fp : FrameData} (hfp : aGet ar p = some fp) :
    ChildrenValid (addChild (ar ++ [cfp]) p ar.length) := by
  intro i f hf c hc
  have hplt : p < ar.length := aGet_lt hfp
  have hilt : i < ar.length + 1 := by
    have := aGet_lt hf
    rwa [dcattach_length] at this
  rw [dcattach_length]
  rcases Nat.lt_or_ge i ar.length with hi | hi
  · by_cases hip : i = p
    · subst hip
      rw [aGet_dcattach_p cfp hfp] at hf
      injection hf with hf
      subst hf
      have hc' : c ∈ fp.children ++ [ar.length] := hc
      rcases List.mem_append.mp hc' with hold | hnew
      · have := hcv i fp hfp c hold
        omega
      · have : c = ar.length := List.mem_singleton.mp hnew
        omega
    · rw [aGet_dcattach_old ar cfp p hi hip] at hf
      have := hcv i f hf c hc
      omega
  · have hieq : i = ar.length := by omega
    subst hieq
    rw [aGet_dcattach_new ar cfp hplt] at hf
    injection hf with hf
    subst hf
    rw [hch] at hc
    exact absurd hc (List.not_mem_nil c)

theorem backlinkOK_dcattach {ar : Arena} (hb : BacklinkOK ar) {cf : FrameData} {p : Nat}
    {fp : FrameData} (hfp : aGet ar p = some fp) :
    BacklinkOK (addChild (ar ++ [{ cf with parent := some p }]) p ar.length) := by
  intro i f j hf hp
  have hplt : p < ar.length := aGet_lt hfp
  have hilt : i < ar.length + 1 := by
    have := aGet_lt hf
    rwa [dcattach_length] at this
  have htarget : ∀ g, aGet ar j = some g → i ∈ g.children →
      ∃ g', aGet (addChild (ar ++ [{ cf with parent := some p }]) p ar.length) j = some g' ∧
        i ∈ g'.children := by
    intro g hg hmem
    have hjlt : j < ar.length := aGet_lt hg
    by_cases hjp : j = p
    · subst hjp
      refine ⟨{ fp with children := fp.children ++ [ar.length] }, aGet_dcattach_p _ hfp, ?_⟩
      have hgfp : g = fp := by
        rw [hfp] at hg
        injection hg with hg
        exact hg.symm
      subst hgfp
      exact List.mem_append_left _ hmem
    · refine ⟨g, ?_, hmem⟩
      rw [aGet_dcattach_old ar _ p hjlt hjp]
      exact hg
  rcases Nat.lt_or_ge i ar.length with hi | hi
  · by_cases hip : i = p
    · subst hip
      rw [aGet_dcattach_p _ hfp] at hf
      injection hf with hf
      subst hf
      have hp' : fp.parent = some j := hp
      obtain ⟨g, hg, hmem⟩ := hb i fp j hfp hp'
      exact htarget g hg hmem
    · rw [aGet_dcattach_old ar _ p hi hip] at hf
      obtain ⟨g, hg, hmem⟩ := hb i f j hf hp
      exact htarget g hg hmem
  · have hieq : i = ar.length := by omega
    subst hieq
    rw [aGet_dcattach_new ar _ hplt] at hf
    injection hf with hf
    subst hf
    have hp' : some p = some j := hp
    injection hp' with hp'
    subst hp'
    refine ⟨{ fp with children := fp.children ++ [ar.length] }, aGet_dcattach_p _ hfp, ?_⟩
    exact List.mem_append_right _ (List.mem_singleton.mpr rfl)

theorem appendThreadD_get_ne (ps : List PProcess) (pi : Nat) (th : PThread) {q : Nat}
    (h : q ≠ pi) : (appendThreadD ps pi th).get? q = ps.get? q := by
  unfold appendThreadD
  split
  · rfl
  · exact List.get?_set_ne _ _ (Ne.symm h)

theorem appendThreadD_get_self {ps : List PProcess} {pi : Nat} {p0 : PProcess} (th : PThread)
    (h : ps.get? pi = some p0) :
    (appendThreadD ps pi th).get? pi = some { p0 with threads := p0.threads ++ [th] } := by
  unfold appendThreadD
  rw [h]
  exact List.get?_set_eq_of_lt _ (List.get?_eq_some.mp h |>.1)

theorem appendThreadD_get_none {ps : List PProcess} {pi : Nat} (th : PThread)
    (h : ps.get? pi = none) : appendThreadD ps pi th = ps := by
  unfold appendThreadD
  rw [h]

theorem appendRootD_get_ne (ps : List PProcess) (pi ti i : Nat) {q : Nat} (h : q ≠ pi) :
    (appendRootD ps pi ti i).get? q = ps.get? q := by
  unfold appendRootD
  split
  · rfl
  · exact List.get?_set_ne _ _ (Ne.symm h)

theorem appendRootD_get_self {ps : List PProcess} {pi : Nat} {p0 : PProcess} (ti i : Nat)
    (h : ps.get? pi = some p0) :
    (appendRootD ps pi ti i).get? pi = some { p0 with threads := appendRoot p0.threads ti i } := by
  unfold appendRootD
  rw [h]
  exact List.get?_set_eq_of_lt _ (List.get?_eq_some.mp h |>.1)

theorem appendRootD_get_none {ps : List PProcess} {pi : Nat} (ti i : Nat)
    (h : ps.get? pi = none) : appendRootD ps pi ti i = ps := by
  unfold appendRootD
  rw [h]

theorem dtInv_init : DTInv dInit := by
  refine ⟨?_, ?_, ?_, ?_, ?_, ?_⟩
  · intro pi p hp
    simp [dInit] at hp
  · intro i f hf
    simp [dInit, aGet] at hf
  · intro i f j hf
    simp [dInit, aGet] at hf
  · intro l hl
    simp [dInit] at hl
  · intro h
    exact ⟨rfl, rfl⟩
  · intro h
    rfl

/-- The new-root step of the deep-copy loop (depth-2 line) keeps the
tree-shape invariant and leaves non-current threads untouched. -/
theorem dcRoot_preserve (s : DState) (pi0 ti0 : Nat) (cf : FrameData)
    (hT : DTInv s) (hcp : s.curProc = some pi0) (hct : s.curThread = some ti0)
    (hpar : cf.parent = none) (hch : cf.children = []) :
    DTInv ⟨s.ar ++ [cf], appendRootD s.procs pi0 ti0 s.ar.length, s.curProc, s.curThread,
        some s.ar.length⟩ ∧
    (∀ pi p ti th, s.procs.get? pi = some p → p.threads.get? ti = some th →
      ¬ (s.curProc = some pi ∧ s.curThread = some ti) →
      (∃ p', (appendRootD s.procs pi0 ti0 s.ar.length).get? pi = some p' ∧
        p'.threads.get? ti = some th) ∧
      (∀ r ∈ th.frames, ∀ i, InTree s.ar r i → aGet (s.ar ++ [cf]) i = aGet s.ar i)) := by
  obtain ⟨hRV, hCV, hBL, hNO, h5, h6⟩ := hT
  have hold : ∀ pi p ti th, s.procs.get? pi = some p → p.threads.get? ti = some th →
      ¬ (s.curProc = some pi ∧ s.curThread = some ti) →
      ∃ p', (appendRootD s.procs pi0 ti0 s.ar.length).get? pi = some p' ∧
        p'.threads.get? ti = some th := by
    intro pi p ti th hpi hti hne
    by_cases hppi : pi = pi0
    · subst hppi
      have hti0 : ti ≠ ti0 := by
        intro he
        exact hne ⟨hcp, by rw [hct, he]⟩
      refine ⟨{ p with threads := appendRoot p.threads ti0 s.ar.length },
        appendRootD_get_self _ _ hpi, ?_⟩
      rw [appendRoot_get_ne _ _ _ hti0]
      exact hti
    · exact ⟨p, by rw [appendRootD_get_ne _ _ _ _ hppi]; exact hpi, hti⟩
  have hsame : ∀ r, r < s.ar.length → ∀ i, InTree s.ar r i →
      aGet (s.ar ++ [cf]) i = aGet s.ar i :=
    fun r hr i hi => aGet_append_lt _ (inTree_lt hCV hr hi)
  refine ⟨⟨?_, childrenValid_append hCV hch, backlinkOK_append hBL hpar, ?_, ?_, ?_⟩,
    fun pi p ti th hpi hti hne =>
      ⟨hold pi p ti th hpi hti hne,
       fun r hr i hi => hsame r (hRV pi p hpi ti th hti r hr) i hi⟩⟩
  · intro pi p hpi ti th hti r hr
    rw [dcgrow_length]
    by_cases hppi : pi = pi0
    · subst hppi
      cases hq : s.procs.get? pi with
      | none =>
        rw [appendRootD_get_none _ _ hq, hq] at hpi
        exact Option.noConfusion hpi
      | some p0 =>
        rw [appendRootD_get_self _ _ hq] at hpi
        injection hpi with hpi
        subst hpi
        have hti' : (appendRoot p0.threads ti0 s.ar.length).get? ti = some th := hti
        by_cases htii : ti = ti0
        · subst htii
          cases hq2 : p0.threads.get? ti with
          | none =>
            rw [appendRoot_get_none _ hq2, hq2] at hti'
            exact Option.noConfusion hti'
          | some th0 =>
            rw [appendRoot_get_self _ hq2] at hti'
            injection hti' with hti'
            subst hti'
            rcases List.mem_append.mp hr with holdm | hnewm
            · have := hRV pi p0 hq ti th0 hq2 r holdm
              omega
            · have : r = s.ar.length := List.mem_singleton.mp hnewm
              omega
        · rw [appendRoot_get_ne _ _ _ htii] at hti'
          have := hRV pi p0 hq ti th hti' r hr
          omega
    · rw [appendRootD_get_ne _ _ _ _ hppi] at hpi
      have := hRV pi p hpi ti th hti r hr
      omega
  · intro l0 hl0 pi p hpi ti th hti hne r hr hin
    simp only at hl0
    injection hl0 with hl0
    subst hl0
    have hne' : ¬ (s.curProc = some pi ∧ s.curThread = some ti) := hne
    have hrecover : ∃ pold, s.procs.get? pi = some pold ∧ pold.threads.get? ti = some th := by
      by_cases hppi : pi = pi0
      · subst hppi
        have hti0 : ti ≠ ti0 := by
          intro he
          exact hne' ⟨hcp, by rw [hct, he]⟩
        cases hq : s.procs.get? pi with
        | none =>
          rw [appendRootD_get_none _ _ hq, hq] at hpi
          exact Option.noConfusion hpi
        | some p0 =>
          rw [appendRootD_get_self _ _ hq] at hpi
          injection hpi with hpi
          subst hpi
          have hti' : (appendRoot p0.threads ti0 s.ar.length).get? ti = some th := hti
          rw [appendRoot_get_ne _ _ _ hti0] at hti'
          exact ⟨p0, rfl, hti'⟩
      · rw [appendRootD_get_ne _ _ _ _ hppi] at hpi
        exact ⟨p, hpi, hti⟩
    obtain ⟨pold, hpold, hthold⟩ := hrecover
    have hrlt : r < s.ar.length := hRV pi pold hpold ti th hthold r hr
    have hin' := (inTree_preserved (hsame r hrlt) _).mp hin
    have := inTree_lt hCV hrlt hin'
    omega
  · intro h
    rw [hcp] at h
    exact Option.noConfusion h
  · intro h
    rw [hct] at h
    exact Option.noConfusion h

/-- The attach step of the deep-copy loop keeps the tree-shape
invariant and leaves non-current threads untouched. -/
theorem dcAttach_preserve {s : DState} {p lf : Nat} {fp : FrameData} {cf : FrameData}
    (hT : DTInv s)
    (hlf' : s.lastFrame = some lf)
    (hfp : aGet s.ar p = some fp)
    (hanc : AncOf s.ar lf p)
    (hch : cf.children = []) :
    ∀ s', dcAttachTo s p cf = .cont s' →
      DTInv s' ∧
      (∀ pi q ti th, s.procs.get? pi = some q → q.threads.get? ti = some th →
        ¬ (s.curProc = some pi ∧ s.curThread = some ti) →
        (∃ q', s'.procs.get? pi = some q' ∧ q'.threads.get? ti = some th) ∧
        (∀ r ∈ th.frames, ∀ i, InTree s.ar r i → aGet s'.ar i = aGet s.ar i)) := by
  intro s' hs'
  obtain ⟨hRV, hCV, hBL, hNO, h5, h6⟩ := hT
  simp only [dcAttachTo, DStepR.cont.injEq] at hs'
  subst hs'
  have hplt : p < s.ar.length := aGet_lt hfp
  have hpnot : ∀ pi q ti th, s.procs.get? pi = some q → q.threads.get? ti = some th →
      ¬ (s.curProc = some pi ∧ s.curThread = some ti) →
      ∀ r ∈ th.frames, ¬ InTree s.ar r p := by
    intro pi q ti th hpi hti hne r hr hin
    exact hNO lf hlf' pi q hpi ti th hti hne r hr
      (inTree_trans hin (anc_to_inTree hBL hanc))
  have hsame : ∀ pi q ti th, s.procs.get? pi = some q → q.threads.get? ti = some th →
      ¬ (s.curProc = some pi ∧ s.curThread = some ti) →
      ∀ r ∈ th.frames, ∀ i, InTree s.ar r i →
        aGet (addChild (s.ar ++ [{ cf with parent := some p }]) p s.ar.length) i =
          aGet s.ar i := by
    intro pi q ti th hpi hti hne r hr i hi
    have hilt : i < s.ar.length := inTree_lt hCV (hRV pi q hpi ti th hti r hr) hi
    have hip : i ≠ p := fun he => hpnot pi q ti th hpi hti hne r hr (he ▸ hi)
    exact aGet_dcattach_old _ _ _ hilt hip
  have hch' : ({ cf with parent := some p } : FrameData).children = [] := hch
  refine ⟨⟨?_, childrenValid_dcattach hCV hch' hfp, backlinkOK_dcattach hBL hfp, ?_, ?_, ?_⟩,
    fun pi q ti th hpi hti hne =>
      ⟨⟨q, hpi, hti⟩, fun r hr i hi => hsame pi q ti th hpi hti hne r hr i hi⟩⟩
  · intro pi q hpi ti th hti r hr
    rw [dcattach_length]
    have := hRV pi q hpi ti th hti r hr
    omega
  · intro l0 hl0 pi q hpi ti th hti hne r hr hin
    simp only at hl0
    injection hl0 with hl0
    subst hl0
    have hin' := (inTree_preserved (hsame pi q ti th hpi hti hne r hr) _).mp hin
    have := inTree_lt hCV (hRV pi q hpi ti th hti r hr) hin'
    omega
  · intro h
    have h2 := (h5 h).2
    rw [h2] at hlf'
    exact Option.noConfusion hlf'
  · intro h
    have h2 := h6 h
    rw [h2] at hlf'
    exact Option.noConfusion hlf'

/-- One cont step of the deep-copy loop keeps the tree-shape invariant
and leaves every (process, thread) pair other than the current one (its
entry and every frame of every subtree below its roots) unchanged. -/
theorem dcStep_preserve (s : DState) (l : List Char) (hT : DTInv s) :
    ∀ s', dcStep s l = .cont s' →
      DTInv s' ∧
      (∀ pi p ti th, s.procs.get? pi = some p → p.threads.get? ti = some th →
        ¬ (s.curProc = some pi ∧ s.curThread = some ti) →
        (∃ p', s'.procs.get? pi = some p' ∧ p'.threads.get? ti = some th) ∧
        (∀ r ∈ th.frames, ∀ i, InTree s.ar r i → aGet s'.ar i = aGet s.ar i)) := by
  intro s' hs'
  by_cases hblank : goTrim l = []
  · have hstep : dcStep s l = .cont ⟨s.ar, s.procs, none, none, none⟩ := by
      simp only [dcStep]
      rw [if_pos hblank]
    rw [hstep] at hs'
    injection hs' with hs'
    subst hs'
    obtain ⟨hRV, hCV, hBL, hNO, h5, h6⟩ := hT
    refine ⟨⟨?_, hCV, hBL, ?_, ?_, ?_⟩, ?_⟩
    · intro pi p hpi ti th hti r hr
      exact hRV pi p hpi ti th hti r hr
    · intro l0 hl0
      have hl0' : (none : Option Nat) = some l0 := hl0
      exact Option.noConfusion hl0'
    · intro _
      exact ⟨rfl, rfl⟩
    · intro _
      rfl
    · intro pi p ti th hpi hti hne
      exact ⟨⟨p, hpi, hti⟩, fun r hr i hi => rfl⟩
  · cases hcp : s.curProc with
    | none =>
      by_cases hhdr : goTrim l = dcHeaderA ∨ goTrim l = dcHeaderB
      · have hstep : dcStep s l = .cont s := by
          simp only [dcStep]
          rw [if_neg hblank]
          simp only [hcp]
          rw [if_pos hhdr]
        rw [hstep] at hs'
        injection hs' with hs'
        subst hs'
        refine ⟨hT, ?_⟩
        intro pi p ti th hpi hti hne
        exact ⟨⟨p, hpi, hti⟩, fun r hr i hi => rfl⟩
      · cases hdl : dcParseLine (goTrim l) with
        | err e =>
          have hstep : dcStep s l = .fail e := by
            simp only [dcStep]
            rw [if_neg hblank]
            simp only [hcp]
            rw [if_neg hhdr]
            simp only [hdl]
          rw [hstep] at hs'
          exact DStepR.noConfusion hs'
        | crash c =>
          have hstep : dcStep s l = .die c := by
            simp only [dcStep]
            rw [if_neg hblank]
            simp only [hcp]
            rw [if_neg hhdr]
            simp only [hdl]
          rw [hstep] at hs'
          exact DStepR.noConfusion hs'
        | ok f =>
          cases hnp : newProcessFromFrame f with
          | err e =>
            have hstep : dcStep s l = .fail e := by
              simp only [dcStep]
              rw [if_neg hblank]
              simp only [hcp]
              rw [if_neg hhdr]
              simp only [hdl, hnp]
            rw [hstep] at hs'
            exact DStepR.noConfusion hs'
          | crash c =>
            have hstep : dcStep s l = .die c := by
              simp only [dcStep]
              rw [if_neg hblank]
              simp only [hcp]
              rw [if_neg hhdr]
              simp only [hdl, hnp]
            rw [hstep] at hs'
            exact DStepR.noConfusion hs'
          | ok pnew =>
            have hstep : dcStep s l = .cont ⟨s.ar, s.procs ++ [pnew],
                some s.procs.length, s.curThread, s.lastFrame⟩ := by
              simp only [dcStep]
              rw [if_neg hblank]
              simp only [hcp]
              rw [if_neg hhdr]
              simp only [hdl, hnp]
            rw [hstep] at hs'
            injection hs' with hs'
            subst hs'
            obtain ⟨hRV, hCV, hBL, hNO, h5, h6⟩ := hT
            obtain ⟨hctn, hlfn⟩ := h5 hcp
            have hpt : pnew.threads = [] := newProcessFromFrame_threads hnp
            refine ⟨⟨?_, hCV, hBL, ?_, ?_, ?_⟩, ?_⟩
            · intro pi p hpi ti th hti r hr
              have hpl : pi < s.procs.length + 1 := by
                have := (List.get?_eq_some.mp hpi).1
                simpa using this
              rcases Nat.lt_or_ge pi s.procs.length with hlt | hge
              · rw [List.get?_append hlt] at hpi
                exact hRV pi p hpi ti th hti r hr
              · have hpe : pi = s.procs.length := by omega
                subst hpe
                rw [List.get?_concat_length] at hpi
                injection hpi with hpi
                subst hpi
                rw [hpt] at hti
                simp at hti
            · intro l0 hl0
              have hl0' : s.lastFrame = some l0 := hl0
              rw [hlfn] at hl0'
              exact Option.noConfusion hl0'
            · intro h
              exact Option.noConfusion h
            · intro _
              exact hlfn
            · intro pi p ti th hpi hti hne
              have hpl : pi < s.procs.length := (List.get?_eq_some.mp hpi).1
              refine ⟨⟨p, ?_, hti⟩, fun r hr i hi => rfl⟩
              show (s.procs ++ [pnew]).get? pi = some p
              rw [List.get?_append hpl]
              exact hpi
    | some pi0 =>
      cases hct : s.curThread with
      | none =>
        cases hdl : dcParseLine (goTrim l) with
        | err e =>
          have hstep : dcStep s l = .fail e := by
            simp only [dcStep]
            rw [if_neg hblank]
            simp only [hcp, hct, hdl]
          rw [hstep] at hs'
          exact DStepR.noConfusion hs'
        | crash c =>
          have hstep : dcStep s l = .die c := by
            simp only [dcStep]
            rw [if_neg hblank]
            simp only [hcp, hct, hdl]
          rw [hstep] at hs'
          exact DStepR.noConfusion hs'
        | ok f =>
          cases hnt : newThreadFromFrame f with
          | err e =>
            have hstep : dcStep s l = .fail e := by
              simp only [dcStep]
              rw [if_neg hblank]
              simp only [hcp, hct, hdl, hnt]
            rw [hstep] at hs'
            exact DStepR.noConfusion hs'
          | crash c =>
            have hstep : dcStep s l = .die c := by
              simp only [dcStep]
              rw [if_neg hblank]
              simp only [hcp, hct, hdl, hnt]
            rw [hstep] at hs'
            exact DStepR.noConfusion hs'
          | ok th0 =>
            have hstep : dcStep s l = .cont ⟨s.ar, appendThreadD s.procs pi0 th0,
                s.curProc, some (((s.procs.get? pi0).getD ⟨[], 0, []⟩).threads).length,
                s.lastFrame⟩ := by
              simp only [dcStep]
              rw [if_neg hblank]
              simp only [hcp, hct, hdl, hnt]
            rw [hstep] at hs'
            injection hs' with hs'
            subst hs'
            obtain ⟨hRV, hCV, hBL, hNO, h5, h6⟩ := hT
            have hlfn : s.lastFrame = none := h6 hct
            have hthf : th0.frames = [] := newThreadFromFrame_frames hnt
            refine ⟨⟨?_, hCV, hBL, ?_, ?_, ?_⟩, ?_⟩
            · intro pi p hpi ti th hti r hr
              by_cases hppi : pi = pi0
              · subst hppi
                cases hq : s.procs.get? pi with
                | none =>
                  rw [appendThreadD_get_none _ hq, hq] at hpi
                  exact Option.noConfusion hpi
                | some p0 =>
                  rw [appendThreadD_get_self _ hq] at hpi
                  injection hpi with hpi
                  subst hpi
                  have hti' : (p0.threads ++ [th0]).get? ti = some th := hti
                  rcases Nat.lt_or_ge ti p0.threads.length with hlt2 | hge2
                  · rw [List.get?_append hlt2] at hti'
                    exact hRV pi p0 hq ti th hti' r hr
                  · have htl : ti < p0.threads.length + 1 := by
                      have := (List.get?_eq_some.mp hti').1
                      simpa using this
                    have hte : ti = p0.threads.length := by omega
                    subst hte
                    rw [List.get?_concat_length] at hti'
                    injection hti' with hti'
                    subst hti'
                    rw [hthf] at hr
                    exact absurd hr (List.not_mem_nil r)
              · rw [appendThreadD_get_ne _ _ _ hppi] at hpi
                exact hRV pi p hpi ti th hti r hr
            · intro l0 hl0
              have hl0' : s.lastFrame = some l0 := hl0
              rw [hlfn] at hl0'
              exact Option.noConfusion hl0'
            · intro h
              have h' : s.curProc = none := h
              rw [hcp] at h'
              exact Option.noConfusion h'
            · intro h
              exact Option.noConfusion h
            · intro pi p ti th hpi hti hne
              by_cases hppi : pi = pi0
              · subst hppi
                refine ⟨⟨{ p with threads := p.threads ++ [th0] },
                  appendThreadD_get_self _ hpi, ?_⟩, fun r hr i hi => rfl⟩
                have htl : ti < p.threads.length := (List.get?_eq_some.mp hti).1
                rw [List.get?_append htl]
                exact hti
              · refine ⟨⟨p, ?_, hti⟩, fun r hr i hi => rfl⟩
                show (appendThreadD s.procs pi0 th0).get? pi = some p
                rw [appendThreadD_get_ne _ _ _ hppi]
                exact hpi
      | some ti0 =>
        cases hdl : dcParseLine (goTrim l) with
        | err e =>
          have hstep : dcStep s l = .fail e := by
            simp only [dcStep]
            rw [if_neg hblank]
            simp only [hcp, hct, hdl]
          rw [hstep] at hs'
          exact DStepR.noConfusion hs'
        | crash c =>
          have hstep : dcStep s l = .die c := by
            simp only [dcStep]
            rw [if_neg hblank]
            simp only [hcp, hct, hdl]
          rw [hstep] at hs'
          exact DStepR.noConfusion hs'
        | ok cf =>
          obtain ⟨hpar, hch⟩ := dcParseLine_shape hdl
          by_cases hd0 : cf.depth = 0
          · have hstep : dcStep s l = .fail .dcUnexpectedProcess := by
              simp only [dcStep]
              rw [if_neg hblank]
              simp only [hcp, hct, hdl]
              rw [if_pos hd0]
            rw [hstep] at hs'
            exact DStepR.noConfusion hs'
          · by_cases hd1 : cf.depth = 1
            · cases hnt : newThreadFromFrame cf with
              | err e =>
                have hstep : dcStep s l = .fail e := by
                  simp only [dcStep]
                  rw [if_neg hblank]
                  simp only [hcp, hct, hdl]
                  rw [if_neg hd0, if_pos hd1]
                  simp only [hnt]
                rw [hstep] at hs'
                exact DStepR.noConfusion hs'
              | crash c =>
                have hstep : dcStep s l = .die c := by
                  simp only [dcStep]
                  rw [if_neg hblank]
                  simp only [hcp, hct, hdl]
                  rw [if_neg hd0, if_pos hd1]
                  simp only [hnt]
                rw [hstep] at hs'
                exact DStepR.noConfusion hs'
              | ok th0 =>
                have hstep : dcStep s l = .cont ⟨s.ar, appendThreadD s.procs pi0 th0,
                    s.curProc, some (((s.procs.get? pi0).getD ⟨[], 0, []⟩).threads).length,
                    none⟩ := by
                  simp only [dcStep]
                  rw [if_neg hblank]
                  simp only [hcp, hct, hdl]
                  rw [if_neg hd0, if_pos hd1]
                  simp only [hnt]
                rw [hstep] at hs'
                injection hs' with hs'
                subst hs'
                obtain ⟨hRV, hCV, hBL, hNO, h5, h6⟩ := hT
                have hthf : th0.frames = [] := newThreadFromFrame_frames hnt
                refine ⟨⟨?_, hCV, hBL, ?_, ?_, ?_⟩, ?_⟩
                · intro pi p hpi ti th hti r hr
                  by_cases hppi : pi = pi0
                  · subst hppi
                    cases hq : s.procs.get? pi with
                    | none =>
                      rw [appendThreadD_get_none _ hq, hq] at hpi
                      exact Option.noConfusion hpi
                    | some p0 =>
                      rw [appendThreadD_get_self _ hq] at hpi
                      injection hpi with hpi
                      subst hpi
                      have hti' : (p0.threads ++ [th0]).get? ti = some th := hti
                      rcases Nat.lt_or_ge ti p0.threads.length with hlt2 | hge2
                      · rw [List.get?_append hlt2] at hti'
                        exact hRV pi p0 hq ti th hti' r hr
                      · have htl : ti < p0.threads.length + 1 := by
                          have := (List.get?_eq_some.mp hti').1
                          simpa using this
                        have hte : ti = p0.threads.length := by omega
                        subst hte
                        rw [List.get?_concat_length] at hti'
                        injection hti' with hti'
                        subst hti'
                        rw [hthf] at hr
                        exact absurd hr (List.not_mem_nil r)
                  · rw [appendThreadD_get_ne _ _ _ hppi] at hpi
                    exact hRV pi p hpi ti th hti r hr
                · intro l0 hl0
                  have hl0' : (none : Option Nat) = some l0 := hl0
                  exact Option.noConfusion hl0'
                · intro h
                  have h' : s.curProc = none := h
                  rw [hcp] at h'
                  exact Option.noConfusion h'
                · intro _
                  rfl
                · intro pi p ti th hpi hti hne
                  by_cases hppi : pi = pi0
                  · subst hppi
                    refine ⟨⟨{ p with threads := p.threads ++ [th0] },
                      appendThreadD_get_self _ hpi, ?_⟩, fun r hr i hi => rfl⟩
                    have htl : ti < p.threads.length := (List.get?_eq_some.mp hti).1
                    rw [List.get?_append htl]
                    exact hti
                  · refine ⟨⟨p, ?_, hti⟩, fun r hr i hi => rfl⟩
                    show (appendThreadD s.procs pi0 th0).get? pi = some p
                    rw [appendThreadD_get_ne _ _ _ hppi]
                    exact hpi
            · cases hlf' : s.lastFrame with
              | none =>
                by_cases hd2 : cf.depth ≠ 2
                · have hstep : dcStep s l = .fail .dcFirstFrameDepth := by
                    simp only [dcStep]
                    rw [if_neg hblank]
                    simp only [hcp, hct, hdl]
                    rw [if_neg hd0, if_neg hd1]
                    simp only [hlf']
                    rw [if_pos hd2]
                  rw [hstep] at hs'
                  exact DStepR.noConfusion hs'
                · have hstep : dcStep s l = .cont ⟨s.ar ++ [cf],
                      appendRootD s.procs pi0 ti0 s.ar.length, s.curProc, s.curThread,
                      some s.ar.length⟩ := by
                    simp only [dcStep]
                    rw [if_neg hblank]
                    simp only [hcp, hct, hdl]
                    rw [if_neg hd0, if_neg hd1]
                    simp only [hlf']
                    rw [if_neg hd2]
                  rw [hstep] at hs'
                  injection hs' with hs'
                  subst hs'
                  have hres := dcRoot_preserve s pi0 ti0 cf hT hcp hct hpar hch
                  rw [hcp, hct] at hres ⊢
                  exact hres
              | some lf =>
                by_cases hd2 : cf.depth = 2
                · have hstep : dcStep s l = .cont ⟨s.ar ++ [cf],
                      appendRootD s.procs pi0 ti0 s.ar.length, s.curProc, s.curThread,
                      some s.ar.length⟩ := by
                    simp only [dcStep]
                    rw [if_neg hblank]
                    simp only [hcp, hct, hdl]
                    rw [if_neg hd0, if_neg hd1]
                    simp only [hlf']
                    rw [if_pos hd2]
                  rw [hstep] at hs'
                  injection hs' with hs'
                  subst hs'
                  have hres := dcRoot_preserve s pi0 ti0 cf hT hcp hct hpar hch
                  rw [hcp, hct] at hres ⊢
                  exact hres
                · cases hlfd : aGet s.ar lf with
                  | none =>
                    have hstep : dcStep s l = .die .badIndex := by
                      simp only [dcStep]
                      rw [if_neg hblank]
                      simp only [hcp, hct, hdl]
                      rw [if_neg hd0, if_neg hd1]
                      simp only [hlf']
                      rw [if_neg hd2]
                      simp only [hlfd]
                    rw [hstep] at hs'
                    exact DStepR.noConfusion hs'
                  | some lfd =>
                    by_cases hlt : lfd.depth < cf.depth
                    · by_cases hdiff : cf.depth - lfd.depth ≠ 1
                      · have hstep : dcStep s l = .fail .dcSkippedDepth := by
                          simp only [dcStep]
                          rw [if_neg hblank]
                          simp only [hcp, hct, hdl]
                          rw [if_neg hd0, if_neg hd1]
                          simp only [hlf', hlfd]
                          rw [if_neg hd2]
                          rw [if_pos hlt, if_pos hdiff]
                        rw [hstep] at hs'
                        exact DStepR.noConfusion hs'
                      · have hstep : dcStep s l = dcAttachTo s lf cf := by
                          simp only [dcStep]
                          rw [if_neg hblank]
                          simp only [hcp, hct, hdl]
                          rw [if_neg hd0, if_neg hd1]
                          simp only [hlf', hlfd]
                          rw [if_neg hd2]
                          rw [if_pos hlt, if_neg hdiff]
                        rw [hstep] at hs'
                        have hres := dcAttach_preserve hT hlf' hlfd (AncOf.refl lf) hch s' hs'
                        rw [hcp, hct] at hres
                        exact hres
                    · cases hpj : lfd.parent with
                      | none =>
                        have hstep : dcStep s l = .die .walkNilParent := by
                          simp only [dcStep]
                          rw [if_neg hblank]
                          simp only [hcp, hct, hdl]
                          rw [if_neg hd0, if_neg hd1]
                          simp only [hlf', hlfd]
                          rw [if_neg hd2]
                          rw [if_neg hlt, hpj]
                          simp only [walkParent]
                        rw [hstep] at hs'
                        exact DStepR.noConfusion hs'
                      | some j =>
                        cases hwk : walkParent s.ar (cf.depth - 1) (some j)
                            (s.ar.length + 1) with
                        | found k =>
                          obtain ⟨g, hg, hgd⟩ := walk_found_get _ _ _ hwk
                          have hanc : AncOf s.ar lf k :=
                            AncOf.step lf lfd j k hlfd hpj (walk_ancOf _ _ _ hwk)
                          have hstep : dcStep s l = dcAttachTo s k cf := by
                            simp only [dcStep]
                            rw [if_neg hblank]
                            simp only [hcp, hct, hdl]
                            rw [if_neg hd0, if_neg hd1]
                            simp only [hlf', hlfd]
                            rw [if_neg hd2]
                            rw [if_neg hlt, hpj]
                            simp only [hwk]
                          rw [hstep] at hs'
                          have hres := dcAttach_preserve hT hlf' hg hanc hch s' hs'
                          rw [hcp, hct] at hres
                          exact hres
                        | nilParent =>
                          have hstep : dcStep s l = .die .walkNilParent := by
                            simp only [dcStep]
                            rw [if_neg hblank]
                            simp only [hcp, hct, hdl]
                            rw [if_neg hd0, if_neg hd1]
                            simp only [hlf', hlfd]
                            rw [if_neg hd2]
                            rw [if_neg hlt, hpj]
                            simp only [hwk]
                          rw [hstep] at hs'
                          exact DStepR.noConfusion hs'
                        | noFuel =>
                          have hstep : dcStep s l = .die .walkNoFuel := by
                            simp only [dcStep]
                            rw [if_neg hblank]
                            simp only [hcp, hct, hdl]
                            rw [if_neg hd0, if_neg hd1]
                            simp only [hlf', hlfd]
                            rw [if_neg hd2]
                            rw [if_neg hlt, hpj]
                            simp only [hwk]
                          rw [hstep] at hs'
                          exact DStepR.noConfusion hs'
                        | dangling =>
                          have hstep : dcStep s l = .die .badIndex := by
                            simp only [dcStep]
                            rw [if_neg hblank]
                            simp only [hcp, hct, hdl]
                            rw [if_neg hd0, if_neg hd1]
                            simp only [hlf', hlfd]
                            rw [if_neg hd2]
                            rw [if_neg hlt, hpj]
                            simp only [hwk]
                          rw [hstep] at hs'
                          exact DStepR.noConfusion hs'

theorem runStepsD_tInv :
    ∀ (ls : List (List Char)) (s0 s : DState), DTInv s0 →
      runStepsD s0 ls = some s → DTInv s := by
  intro ls
  induction ls with
  | nil =>
    intro s0 s h0 hr
    unfold runStepsD at hr
    injection hr with hr
    subst hr
    exact h0
  | cons l rest ih =>
    intro s0 s h0 hr
    unfold runStepsD at hr
    cases hstep : dcStep s0 l with
    | cont s1 =>
      simp only [hstep] at hr
      exact ih s1 s (dcStep_preserve s0 l h0 s1 hstep).1 hr
    | fail e =>
      simp only [hstep] at hr
      exact Option.noConfusion hr
    | die c =>
      simp only [hstep] at hr
      exact Option.noConfusion hr

/-- C4.  Amended: in the deep-copy parser a thread-header line (depth 1
in frame context) does reset lastFrame to none, but in the sample parser
a depth-0 thread-header line does NOT reset lastFrame — it sets it to
the freshly created unattached depth-0 pseudo-frame.  The claimed
consequence nevertheless holds in both parsers: from any reachable
loop state, a cont step leaves every non-current thread untouched — its
thread entry is unchanged, every frame in the subtrees of its roots
keeps its exact contents, the subtree relation below its roots is
unchanged, and no fresh frame (index at or past the old arena length,
in particular the frame created by the step) lies in any such
subtree. -/
theorem C4_no_cross_thread_attachment_amended :
    (∀ (rate : Int) (ls : List (List Char)) (s : SState) (l : List Char) (s' : SState),
        runSteps rate sInit ls = some s → sampleBodyStep rate s l = .cont s' →
        ∀ t th, s.threads.get? t = some th → s.curThread ≠ some t →
          s'.threads.get? t = some th ∧
          (∀ r ∈ th.frames, ∀ i, InTree s.ar r i → aGet s'.ar i = aGet s.ar i) ∧
          (∀ r ∈ th.frames, ∀ i, InTree s'.ar r i ↔ InTree s.ar r i) ∧
          (∀ r ∈ th.frames, ∀ i, s.ar.length ≤ i → ¬ InTree s'.ar r i)) ∧
    (∀ (rate : Int) (s : SState) (l : List Char) (cf : FrameData) (s' : SState),
        parseCallLine (goTrim l) = .ok cf → cf.depth = 0 →
        sampleBodyStep rate s l = .cont s' →
        s'.lastFrame = some s.ar.length ∧ s'.curThread = some s.threads.length ∧
        ∃ g, aGet s'.ar s.ar.length = some g ∧ g.depth = 0 ∧ g.parent = none) ∧
    (∀ (s : DState) (l : List Char) (cf : FrameData) (s' : DState) (pi ti : Nat),
        s.curProc = some pi → s.curThread = some ti →
        dcParseLine (goTrim l) = .ok cf → cf.depth = 1 →
        dcStep s l = .cont s' → s'.lastFrame = none) ∧
    (∀ (ls : List (List Char)) (s : DState) (l : List Char) (s' : DState),
        runStepsD dInit ls = some s → dcStep s l = .cont s' →
        ∀ pi p ti th, s.procs.get? pi = some p → p.threads.get? ti = some th →
          ¬ (s.curProc = some pi ∧ s.curThread = some ti) →
          (∃ p', s'.procs.get? pi = some p' ∧ p'.threads.get? ti = some th) ∧
          (∀ r ∈ th.frames, ∀ i, InTree s.ar r i → aGet s'.ar i = aGet s.ar i) ∧
          (∀ r ∈ th.frames, ∀ i, InTree s'.ar r i ↔ InTree s.ar r i) ∧
          (∀ r ∈ th.frames, ∀ i, s.ar.length ≤ i → ¬ InTree s'.ar r i)) := by
  refine ⟨?_, ?_, ?_, ?_⟩
  · intro rate ls s l s' hrun hstep t th ht hcur
    have hT := runSteps_tInv rate ls sInit s tInv_init hrun
    obtain ⟨hT', hold⟩ := sampleBodyStep_preserve rate s l hT s' hstep
    obtain ⟨hth, hsame⟩ := hold t th ht hcur
    refine ⟨hth, fun r hr i hi => hsame r hr i hi,
      fun r hr i => inTree_preserved (hsame r hr) i, ?_⟩
    intro r hr i hge hin
    have hin' := (inTree_preserved (hsame r hr) i).mp hin
    have := inTree_lt hT.2.1 (hT.1 t th ht r hr) hin'
    omega
  · intro rate s l cf s' hc hd0 hs'
    by_cases hblank : goTrim l = []
    · have hstep : sampleBodyStep rate s l = .stop s := by
        simp only [sampleBodyStep]
        rw [if_pos hblank]
      rw [hstep] at hs'
      exact BodyStep.noConfusion hs'
    · obtain ⟨hpar, hch, hdge⟩ := parseCallLine_shape hc
      have hstep : sampleBodyStep rate s l =
          .cont ⟨scaleWeight (s.ar ++ [cf]) s.ar.length rate,
                 s.threads ++ [⟨cf.symbolName, 0, []⟩], some s.threads.length,
                 some s.ar.length⟩ := by
        simp only [sampleBodyStep]
        rw [if_neg hblank]
        simp only [hc]
        rw [if_pos hd0]
      rw [hstep] at hs'
      injection hs' with hs'
      subst hs'
      exact ⟨rfl, rfl, ⟨{ cf with selfWeightNs := cf.selfWeightNs * rate },
        aGet_scale_self rate (aGet_append_self s.ar cf), hd0, hpar⟩⟩
  · intro s l cf s' pi ti hcp hct hc hd1 hs'
    by_cases hblank : goTrim l = []
    · have hstep : dcStep s l = .cont ⟨s.ar, s.procs, none, none, none⟩ := by
        simp only [dcStep]
        rw [if_pos hblank]
      rw [hstep] at hs'
      injection hs' with hs'
      subst hs'
      rfl
    · have hd0 : ¬ cf.depth = 0 := by
        rw [hd1]
        decide
      cases hnt : newThreadFromFrame cf with
      | err e =>
        have hstep : dcStep s l = .fail e := by
          simp only [dcStep]
          rw [if_neg hblank]
          simp only [hcp, hct, hc]
          rw [if_neg hd0, if_pos hd1]
          simp only [hnt]
        rw [hstep] at hs'
        exact DStepR.noConfusion hs'
      | crash c =>
        have hstep : dcStep s l = .die c := by
          simp only [dcStep]
          rw [if_neg hblank]
          simp only [hcp, hct, hc]
          rw [if_neg hd0, if_pos hd1]
          simp only [hnt]
        rw [hstep] at hs'
        exact DStepR.noConfusion hs'
      | ok th0 =>
        have hstep : dcStep s l = .cont ⟨s.ar, appendThreadD s.procs pi th0,
            s.curProc, some (((s.procs.get? pi).getD ⟨[], 0, []⟩).threads).length,
            none⟩ := by
          simp only [dcStep]
          rw [if_neg hblank]
          simp only [hcp, hct, hc]
          rw [if_neg hd0, if_pos hd1]
          simp only [hnt]
        rw [hstep] at hs'
        injection hs' with hs'
        subst hs'
        rfl
  · intro ls s l s' hrun hstep pi p ti th hpi hti hne
    have hT := runStepsD_tInv ls dInit s dtInv_init hrun
    obtain ⟨hT', hold⟩ := dcStep_preserve s l hT s' hstep
    obtain ⟨hth, hsame⟩ := hold pi p ti th hpi hti hne
    refine ⟨hth, fun r hr i hi => hsame r hr i hi,
      fun r hr i => inTree_preserved (hsame r hr) i, ?_⟩
    intro r hr i hge hin
    have hin' := (inTree_preserved (hsame r hr) i).mp hin
    have := inTree_lt hT.2.1 (hT.1 pi p hpi ti th hti r hr) hin'
    omega

/-- Concrete two-thread runs of both parsers exercising the amended C4
statement: the sample step after the T2 header leaves thread T1 and its
subtree untouched and puts the fresh frame (index 3) outside it; the
sample T1 header makes lastFrame the unattached pseudo-frame 0; the
deep-copy thread header resets lastFrame to none; the deep-copy step
after the t2 header leaves t1's subtree untouched. -/
theorem C4_amended_witness :
    runSteps 1000000 sInit w4lines = some w4state ∧
    sampleBodyStep 1000000 w4state w4line = .cont w4stateB ∧
    w4state.threads.get? 0 = some ⟨"T1".data, 0, [1]⟩ ∧
    w4state.curThread ≠ some 0 ∧
    w4stateB.threads.get? 0 = some ⟨"T1".data, 0, [1]⟩ ∧
    ¬ InTree w4stateB.ar 1 3 ∧
    w4s1.lastFrame = some 0 ∧
    w4s1.curThread = some 0 ∧
    w4d1.lastFrame = none ∧
    dcStep w4dstate w4dline = .cont w4dstateB ∧
    ¬ InTree w4dstateB.ar 0 1 := by
  have h1 : runSteps 1000000 sInit w4lines = some w4state := by rfl
  have h2 : sampleBodyStep 1000000 w4state w4line = .cont w4stateB := by rfl
  have h3 : w4state.threads.get? 0 = some ⟨"T1".data, 0, [1]⟩ := by rfl
  have h4 : w4state.curThread ≠ some 0 := by decide
  obtain ⟨ha, hb, hcf, hd⟩ := C4_no_cross_thread_attachment_amended.1 1000000 w4lines w4state
    w4line w4stateB h1 h2 0 ⟨"T1".data, 0, [1]⟩ h3 h4
  have hmem : (1 : Nat) ∈ (⟨"T1".data, 0, [1]⟩ : PThread).frames := by decide
  have h5 : parseCallLine (goTrim "1 T1".data) = .ok ⟨none, [], 1, "T1".data, 0⟩ := by rfl
  have h6 : sampleBodyStep 1000000 sInit "1 T1".data = .cont w4s1 := by rfl
  obtain ⟨hl1, hct2, hg⟩ := C4_no_cross_thread_attachment_amended.2.1 1000000 sInit "1 T1".data
    ⟨none, [], 1, "T1".data, 0⟩ w4s1 h5 rfl h6
  have h7 : dcParseLine (goTrim w4dline3) = .ok w4cf3 := by rfl
  have h8 : dcStep w4d0 w4dline3 = .cont w4d1 := by rfl
  have h9 := C4_no_cross_thread_attachment_amended.2.2.1 w4d0 w4dline3
    w4cf3 w4d1 0 0 rfl rfl h7 rfl h8
  have h10 : runStepsD dInit w4dlines = some w4dstate := by rfl
  have h11 : dcStep w4dstate w4dline = .cont w4dstateB := by rfl
  have h12 : w4dstate.procs.get? 0 = some w4dp := by rfl
  have h13 : w4dp.threads.get? 0 = some w4dth := by rfl
  have h14 : ¬ (w4dstate.curProc = some 0 ∧ w4dstate.curThread = some 0) := by decide
  obtain ⟨hdp, hdcontent, hdiff2, hdfr⟩ :=
    C4_no_cross_thread_attachment_amended.2.2.2 w4dlines w4dstate w4dline w4dstateB h10 h11
      0 w4dp 0 w4dth h12 h13 h14
  have hmem2 : (0 : Nat) ∈ w4dth.frames := by decide
  exact ⟨h1, h2, h3, h4, ha, hd 1 hmem 3 (by decide), hl1, hct2, h9, h11,
    hdfr 0 hmem2 1 (by decide)⟩

end ITP
